import Mathlib

/-!
Verification of `datastruct.SinglyLinkedList`

A shallow embedding of `datastruct/singly_linked_list.go`.

**Memory model.**

Go nodes live on the heap and are reached through pointers; `head`, `tail` and every
`Next` field may alias the same node.  The embedding keeps that aliasing explicit:

* a node store `mem : List (singlyLinkedListNode V)`; a pointer is `Option Nat`,
  `none` being `nil` and `some a` the node stored at position `a`;
* `&singlyLinkedListNode{...}` appends a node to the store, its address is the old length;
* writing a field of `*p` replaces the node at `p` in the store.

A pointer `some a` with `a` outside the store cannot exist in Go.  The operations are
totalised on such states by treating the dereference like a `nil` dereference.

**Control flow.**

A panic unwinds the stack but runs deferred functions first, so every operation returns
the list state *after* the call together with either its result or the panic raised.

**Machine integers.**

`uint` is taken to be 64 bits wide and modelled in `Nat` with wrap-around `% 2 ^ 64` at
every increment and decrement; `int` is modelled in `Int` with twos-complement
wrap-around.

**Loops.**

`getNode` iterates `index` times and is structurally recursive.  The `ForEach` loop runs
until it meets `nil`, which never happens on a cyclic chain; it takes a fuel argument and
returns `none` when the fuel is exhausted.
-/

namespace Datastruct

/-! ## Machine integers -/

/-- Number of values of a Go `uint` (64-bit platform). -/
def uintSize : Nat := 2 ^ 64

/-- Wrap-around of `uint` arithmetic. -/
def uintWrap (n : Nat) : Nat := n % uintSize

/-- The `uint` increment `n++`. -/
def uintInc (n : Nat) : Nat := uintWrap (n + 1)

/-- The `uint` decrement `n--` (`0 - 1` wraps to the largest value). -/
def uintDec (n : Nat) : Nat := uintWrap (n + (uintSize - 1))

/-- Twos-complement wrap-around of `int` arithmetic (64-bit platform). -/
def intWrap (z : Int) : Int := (z + 2 ^ 63) % 2 ^ 64 - 2 ^ 63

/-! ## Panics and outcomes -/

/-- The panics the list code can raise. -/
inductive Fault where
  /-- Raised by `panic("inserting and deleting not allowed while iterating over a list")`. -/
  | reentrantMutation
  /-- Raised by `panic("index out of bounds")` in `getNode`. -/
  | indexOutOfBounds
  /-- Runtime error: invalid memory address or nil pointer dereference. -/
  | nilDereference
  /-- Runtime error: slice index out of range. -/
  | indexOutOfRange
  deriving DecidableEq, Repr

/-- Result of a call: a returned value or the panic that left the call. -/
inductive Ret (α : Type) where
  | ok (a : α)
  | fault (f : Fault)
  deriving DecidableEq, Repr

/-! ## Data model -/

/-- Go `singlyLinkedListNode[V]`: a value and a pointer to the next node. -/
structure singlyLinkedListNode (V : Type) where
  Value : V
  Next : Option Nat
  deriving DecidableEq, Repr

/-- Go `SinglyLinkedList[V]` together with the node store its pointers refer to. -/
structure SinglyLinkedList (V : Type) where
  /-- Node store (the part of the heap holding list nodes). -/
  mem : List (singlyLinkedListNode V)
  head : Option Nat
  tail : Option Nat
  size : Nat
  blockMod : Int
  deriving DecidableEq, Repr

/-- State of the list after a call, and what the call returned. -/
structure Outcome (V α : Type) where
  ll : SinglyLinkedList V
  ret : Ret α
  deriving DecidableEq, Repr

/-- The zero value `var ll SinglyLinkedList[V]`. -/
def SinglyLinkedList.zero (V : Type) : SinglyLinkedList V :=
  { mem := [], head := none, tail := none, size := 0, blockMod := 0 }

/-- Dereference `*p`: `none` when `p` is `nil` (or not an address of the store). -/
def deref {V : Type} (mem : List (singlyLinkedListNode V)) (p : Option Nat) :
    Option (singlyLinkedListNode V) :=
  match p with
  | none => none
  | some a => mem[a]?

/-- The assignment `p.Next = nx` for a non-nil `p = some a`. -/
def setNext {V : Type} (mem : List (singlyLinkedListNode V)) (a : Nat) (nx : Option Nat) :
    List (singlyLinkedListNode V) :=
  match mem[a]? with
  | none => mem
  | some n => mem.set a { n with Next := nx }

/-- The assignment `p.Value = v` for a non-nil `p = some a`. -/
def setValue {V : Type} (mem : List (singlyLinkedListNode V)) (a : Nat) (v : V) :
    List (singlyLinkedListNode V) :=
  match mem[a]? with
  | none => mem
  | some n => mem.set a { n with Value := v }

/-! ## Operations -/

/-- Go `Count`. -/
def SinglyLinkedList.Count {V : Type} (ll : SinglyLinkedList V) : Nat := ll.size

/-- Go `Exists`. -/
def SinglyLinkedList.Exists {V : Type} (ll : SinglyLinkedList V) (index : Nat) : Bool :=
  decide (index < ll.size)

/-- The loop of `getNode`: `k` iterations still to run, `cur` the current pointer.
Each iteration reads `cur.Next` (a `nil` dereference when `cur` is `nil`), panics with
"index out of bounds" when it is `nil`, and otherwise advances. -/
def getNodeLoop {V : Type} (mem : List (singlyLinkedListNode V)) :
    Nat → Option Nat → Ret (Option Nat)
  | 0, cur => .ok cur
  | k + 1, cur =>
    match deref mem cur with
    | none => .fault .nilDereference
    | some n =>
      match n.Next with
      | none => .fault .indexOutOfBounds
      | some b => getNodeLoop mem k (some b)

/-- Go `getNode`: the pointer reached after `index` steps from `head`. -/
def SinglyLinkedList.getNode {V : Type} (ll : SinglyLinkedList V) (index : Nat) :
    Ret (Option Nat) :=
  getNodeLoop ll.mem index ll.head

/-- The deferred `ll.size++` of `InsertAt`. -/
def SinglyLinkedList.sizeInc {V : Type} (ll : SinglyLinkedList V) : SinglyLinkedList V :=
  { ll with size := uintInc ll.size }

/-- Go `InsertAt`.  The guard runs before `defer func() { ll.size++ }()` is registered;
every later exit, a panic included, runs the deferred increment. -/
def SinglyLinkedList.InsertAt {V : Type} (ll : SinglyLinkedList V) (index : Nat) (value : V) :
    Outcome V Unit :=
  if ll.blockMod > 0 then
    { ll := ll, ret := .fault .reentrantMutation }
  else
    -- newNode := &singlyLinkedListNode[V]{Value: value}
    let newNode : Nat := ll.mem.length
    let mem0 := ll.mem ++ [{ Value := value, Next := none }]
    if index = 0 then
      -- newNode.Next = ll.head; ll.head = newNode
      let mem1 := setNext mem0 newNode ll.head
      -- if newNode.Next == nil { ll.tail = newNode }
      let tail1 := if ll.head = none then some newNode else ll.tail
      { ll := SinglyLinkedList.sizeInc { ll with mem := mem1, head := some newNode, tail := tail1 },
        ret := .ok () }
    else
      let found : Ret (Option Nat) :=
        if index = ll.size then .ok ll.tail
        else SinglyLinkedList.getNode { ll with mem := mem0 } (index - 1)
      match found with
      | .fault e => { ll := SinglyLinkedList.sizeInc { ll with mem := mem0 }, ret := .fault e }
      | .ok prev =>
        -- newNode.Next = prev.Next
        match deref mem0 prev, prev with
        | some pn, some p =>
          let mem1 := setNext mem0 newNode pn.Next
          -- prev.Next = newNode
          let mem2 := setNext mem1 p (some newNode)
          -- if newNode.Next == nil { ll.tail = newNode }
          let tail1 := if pn.Next = none then some newNode else ll.tail
          { ll := SinglyLinkedList.sizeInc { ll with mem := mem2, tail := tail1 }, ret := .ok () }
        | _, _ =>
          { ll := SinglyLinkedList.sizeInc { ll with mem := mem0 }, ret := .fault .nilDereference }

/-- Go `InsertHead`. -/
def SinglyLinkedList.InsertHead {V : Type} (ll : SinglyLinkedList V) (value : V) :
    Outcome V Unit :=
  ll.InsertAt 0 value

/-- Go `InsertTail`. -/
def SinglyLinkedList.InsertTail {V : Type} (ll : SinglyLinkedList V) (value : V) :
    Outcome V Unit :=
  ll.InsertAt ll.size value

/-- Go `Set`: `ll.getNode(index).Value = value`. -/
def SinglyLinkedList.Set {V : Type} (ll : SinglyLinkedList V) (index : Nat) (value : V) :
    Outcome V Unit :=
  match ll.getNode index with
  | .fault e => { ll := ll, ret := .fault e }
  | .ok p =>
    match deref ll.mem p, p with
    | some _, some a => { ll := { ll with mem := setValue ll.mem a value }, ret := .ok () }
    | _, _ => { ll := ll, ret := .fault .nilDereference }

/-- Go `DeleteAt`. -/
def SinglyLinkedList.DeleteAt {V : Type} (ll : SinglyLinkedList V) (index : Nat) :
    Outcome V Unit :=
  if ll.blockMod > 0 then
    { ll := ll, ret := .fault .reentrantMutation }
  else if index = 0 then
    match ll.head with
    | none => { ll := ll, ret := .ok () }
    | some h =>
      match ll.mem[h]? with
      | none => { ll := ll, ret := .fault .nilDereference }
      | some hn =>
        -- newHead := ll.head.Next; ll.head.Next = nil; ll.head = newHead; ll.size--
        { ll := { ll with mem := setNext ll.mem h none, head := hn.Next, size := uintDec ll.size },
          ret := .ok () }
  else
    match ll.getNode (index - 1) with
    | .fault e => { ll := ll, ret := .fault e }
    | .ok n =>
      -- n.Next = n.Next.Next; ll.size--
      match deref ll.mem n, n with
      | some nn, some a =>
        match deref ll.mem nn.Next with
        | none => { ll := ll, ret := .fault .nilDereference }
        | some dn =>
          { ll := { ll with mem := setNext ll.mem a dn.Next, size := uintDec ll.size },
            ret := .ok () }
      | _, _ => { ll := ll, ret := .fault .nilDereference }

/-- Go `Get`: `ll.getNode(index).Value`. -/
def SinglyLinkedList.Get {V : Type} (ll : SinglyLinkedList V) (index : Nat) : Outcome V V :=
  match ll.getNode index with
  | .fault e => { ll := ll, ret := .fault e }
  | .ok p =>
    match deref ll.mem p with
    | none => { ll := ll, ret := .fault .nilDereference }
    | some n => { ll := ll, ret := .ok n.Value }

/-- What an invocation of a callback leaves behind: the list (a callback holds the list
and may call its methods, `Set` among them), the captured variables, and the returned `br`
or the panic that left the callback. -/
structure Invocation (V σ : Type) where
  ll : SinglyLinkedList V
  st : σ
  ret : Ret Bool

/-- A callback `f func(index uint, value V) (br bool)` as a closure over the list and
over captured variables of type `σ`.  The result is `none` when the callback itself does
not return (a nested traversal out of fuel). -/
abbrev Callback (V σ : Type) : Type :=
  Nat → V → SinglyLinkedList V → σ → Option (Invocation V σ)

/-- State and result of a traversal: the list, the captured variables, and whether the
traversal returned or a panic of the callback left it. -/
structure Traversal (V σ : Type) where
  ll : SinglyLinkedList V
  st : σ
  ret : Ret Unit

/-- The loop `for cur != nil { if f(i, cur.Value) { return }; cur = cur.Next; i++ }`
of `ForEach`.  `cur.Value` and `cur.Next` are read from the node as it is at that moment:
the value before the callback runs, the link after it.  Returns `none` when the fuel runs
out or the callback does not return. -/
def forEachLoop {V σ : Type} (f : Callback V σ) :
    Nat → SinglyLinkedList V → Option Nat → Nat → σ → Option (Traversal V σ)
  | 0, _, _, _, _ => none
  | _ + 1, ll, none, _, s => some { ll := ll, st := s, ret := .ok () }
  | fuel + 1, ll, some a, i, s =>
    match ll.mem[a]? with
    | none => some { ll := ll, st := s, ret := .fault .nilDereference }
    | some n =>
      match f i n.Value ll s with
      | none => none
      | some r =>
        match r.ret with
        | .fault e => some { ll := r.ll, st := r.st, ret := .fault e }
        | .ok true => some { ll := r.ll, st := r.st, ret := .ok () }
        | .ok false =>
          match r.ll.mem[a]? with
          | none => some { ll := r.ll, st := r.st, ret := .fault .nilDereference }
          | some n1 => forEachLoop f fuel r.ll n1.Next (uintInc i) r.st

/-- Go `ForEach`: `ll.blockMod++`, the loop, and the deferred `ll.blockMod--`, which runs
on every exit of the loop. -/
def SinglyLinkedList.ForEach {V σ : Type} (ll : SinglyLinkedList V) (fuel : Nat)
    (f : Callback V σ) (s : σ) : Option (Traversal V σ) :=
  let ll1 : SinglyLinkedList V := { ll with blockMod := intWrap (ll.blockMod + 1) }
  match forEachLoop f fuel ll1 ll1.head 0 s with
  | none => none
  | some t =>
    some { ll := { t.ll with blockMod := intWrap (t.ll.blockMod - 1) }, st := t.st, ret := t.ret }

/-- The callback of `ToSlice`: `slice[index] = value; return false`, with the bounds check
of the slice assignment. -/
def toSliceCallback {V : Type} : Callback V (List V) :=
  fun index value ll slice =>
    if index < slice.length then some { ll := ll, st := slice.set index value, ret := .ok false }
    else some { ll := ll, st := slice, ret := .fault .indexOutOfRange }

/-- Go `ToSlice`: `make([]V, ll.size)` filled by a `ForEach`. -/
def SinglyLinkedList.ToSlice {V : Type} [Inhabited V] (ll : SinglyLinkedList V) (fuel : Nat) :
    Option (Outcome V (List V)) :=
  match ll.ForEach fuel toSliceCallback (List.replicate ll.size default) with
  | none => none
  | some t =>
    match t.ret with
    | .fault e => some { ll := t.ll, ret := .fault e }
    | .ok _ => some { ll := t.ll, ret := .ok t.st }

/-- A callback that never stops the traversal and counts its invocations. -/
def countCallback {V : Type} : Callback V Nat :=
  fun _ _ ll n => some { ll := ll, st := n + 1, ret := .ok false }

/-- Number of times a never-stopping `ForEach` invokes its callback. -/
def SinglyLinkedList.forEachCount {V : Type} (ll : SinglyLinkedList V) (fuel : Nat) :
    Option Nat :=
  (ll.ForEach fuel countCallback 0).map (fun t => t.st)

/-! ## Specification vocabulary -/

/-- One recorded invocation of a callback: the index and the value it was called with,
the list as it was when the invocation began, and what the invocation returned. -/
structure Call (V : Type) where
  index : Nat
  value : V
  ll : SinglyLinkedList V
  ret : Ret Bool

/-- The callback `f`, instrumented to record its invocations in order. -/
def recordCalls {V σ : Type} (f : Callback V σ) : Callback V (σ × List (Call V)) :=
  fun index value ll s =>
    match f index value ll s.1 with
    | none => none
    | some r =>
      some { ll := r.ll,
             st := (r.st, s.2 ++ [{ index := index, value := value, ll := ll, ret := r.ret }]),
             ret := r.ret }

/-- Two list states with the same `head`, `tail`, `size` and `blockMod`, the same number
of nodes and the same `Next` link in every node: they differ at most in node values. -/
def SameShape {V : Type} (l1 l2 : SinglyLinkedList V) : Prop :=
  l2.head = l1.head ∧ l2.tail = l1.tail ∧ l2.size = l1.size ∧ l2.blockMod = l1.blockMod ∧
    l2.mem.map (fun n => n.Next) = l1.mem.map (fun n => n.Next)

/-- The callback `f`, run on a list whose reentrancy counter is `c`, leaves the shape of
the list as it is. -/
def KeepsShapeAt {V σ : Type} (c : Int) (f : Callback V σ) : Prop :=
  ∀ i v (l : SinglyLinkedList V) s r, l.blockMod = c → f i v l s = some r → SameShape l r.ll

/-- The body of a callback that uses the list through its methods: a tree of method
calls, each continued according to what the call returned (a panic of the method being
handed to the continuation, as after a `recover`), ending in `return br` or in a panic.
`Exists`, `InsertHead` and `InsertTail` are `count` and `insertAt`; `ToSlice`, `Search`
and `String` are `forEach` with their callbacks. -/
inductive Client (V σ : Type) where
  | ret (s : σ) (br : Bool)
  | raise (s : σ) (e : Fault)
  | count (k : Nat → Client V σ)
  | get (index : Nat) (k : Ret V → Client V σ)
  | set (index : Nat) (value : V) (k : Ret Unit → Client V σ)
  | insertAt (index : Nat) (value : V) (k : Ret Unit → Client V σ)
  | deleteAt (index : Nat) (k : Ret Unit → Client V σ)
  | forEach (g : Nat → V → σ → Client V σ) (s0 : σ) (k : σ → Ret Unit → Client V σ)

/-- Run the body of a callback on the list; `nested` runs the bodies of the callbacks of
the traversals it starts, which get `fuel`. -/
def Client.runWith {V σ : Type} (fuel : Nat)
    (nested : Client V σ → SinglyLinkedList V → Option (Invocation V σ)) :
    Client V σ → SinglyLinkedList V → Option (Invocation V σ)
  | .ret s br, ll => some { ll := ll, st := s, ret := .ok br }
  | .raise s e, ll => some { ll := ll, st := s, ret := .fault e }
  | .count k, ll => Client.runWith fuel nested (k ll.Count) ll
  | .get index k, ll => Client.runWith fuel nested (k (ll.Get index).ret) (ll.Get index).ll
  | .set index value k, ll =>
    Client.runWith fuel nested (k (ll.Set index value).ret) (ll.Set index value).ll
  | .insertAt index value k, ll =>
    Client.runWith fuel nested (k (ll.InsertAt index value).ret) (ll.InsertAt index value).ll
  | .deleteAt index k, ll =>
    Client.runWith fuel nested (k (ll.DeleteAt index).ret) (ll.DeleteAt index).ll
  | .forEach g s0 k, ll =>
    match ll.ForEach fuel (fun i v l s => nested (g i v s) l) s0 with
    | none => none
    | some t => Client.runWith fuel nested (k t.st t.ret) t.ll

/-- Run the body of a callback with traversals nested at most `depth` deep; a traversal
nested deeper does not return. -/
def Client.run {V σ : Type} (fuel : Nat) :
    Nat → Client V σ → SinglyLinkedList V → Option (Invocation V σ)
  | 0 => Client.runWith fuel (fun _ _ => none)
  | depth + 1 => Client.runWith fuel (Client.run fuel depth)

/-- The callback whose body, for each index, value and captured state, is the given tree
of method calls. -/
def Client.callback {V σ : Type} (fuel depth : Nat) (body : Nat → V → σ → Client V σ) :
    Callback V σ :=
  fun i v ll s => Client.run fuel depth (body i v s) ll

/-- Following `Next` pointers from `p` visits exactly the nodes `xs` (address and value
of each, in order) and then arrives at `q`. -/
def IsSeg {V : Type} (mem : List (singlyLinkedListNode V)) :
    Option Nat → List (Nat × V) → Option Nat → Prop
  | p, [], q => p = q
  | p, x :: xs, q =>
    p = some x.1 ∧ ∃ nx, mem[x.1]? = some { Value := x.2, Next := nx } ∧ IsSeg mem nx xs q

/-- The chain of `head` consists of the nodes `xs` and ends in `nil`, `size` is the number
of these nodes and `tail` points to the last of them (and is `nil` when there is none). -/
def SinglyLinkedList.Holds {V : Type} (ll : SinglyLinkedList V) (xs : List (Nat × V)) : Prop :=
  IsSeg ll.mem ll.head xs none ∧ ll.size = xs.length ∧
    ll.tail = (xs.map Prod.fst).getLast?

/-- The data-model invariants: `size` equals the number of nodes reachable from `head`
(so `head` is absent iff `size` is 0) and `tail` is the last node of that chain (so it is
absent iff `head` is). -/
def SinglyLinkedList.WellFormed {V : Type} (ll : SinglyLinkedList V) : Prop :=
  ∃ xs : List (Nat × V), ll.Holds xs

/-- A call of one of the mutating operations. -/
inductive Op (V : Type) where
  | insertHead (value : V)
  | insertTail (value : V)
  | insertAt (index : Nat) (value : V)
  | set (index : Nat) (value : V)
  | deleteAt (index : Nat)
  deriving DecidableEq, Repr

/-- Perform one call. -/
def SinglyLinkedList.call {V : Type} (ll : SinglyLinkedList V) : Op V → Outcome V Unit
  | .insertHead v => ll.InsertHead v
  | .insertTail v => ll.InsertTail v
  | .insertAt i v => ll.InsertAt i v
  | .set i v => ll.Set i v
  | .deleteAt i => ll.DeleteAt i

/-- The list after a sequence of calls. -/
def SinglyLinkedList.run {V : Type} (ll : SinglyLinkedList V) : List (Op V) → SinglyLinkedList V
  | [] => ll
  | op :: ops => SinglyLinkedList.run (ll.call op).ll ops

/-- A call is valid when no traversal is active and the index is in range: an insertion
index is at most `Count()`, a deletion index is below `Count()` or it is `DeleteAt(0)` on
the empty list, a `Set` index is below `Count()`. -/
def SinglyLinkedList.validCall {V : Type} (ll : SinglyLinkedList V) : Op V → Bool
  | .insertHead _ => decide (ll.blockMod = 0)
  | .insertTail _ => decide (ll.blockMod = 0)
  | .insertAt i _ => decide (ll.blockMod = 0) && decide (i ≤ ll.Count)
  | .set i _ => decide (ll.blockMod = 0) && decide (i < ll.Count)
  | .deleteAt i =>
    decide (ll.blockMod = 0) && (decide (i < ll.Count) || (decide (i = 0) && decide (ll.Count = 0)))

/-- Every call of the sequence is valid in the state it is made in and returns without
a panic. -/
def SinglyLinkedList.validRun {V : Type} (ll : SinglyLinkedList V) : List (Op V) → Bool
  | [] => true
  | op :: ops =>
    ll.validCall op && decide ((ll.call op).ret = .ok ()) &&
      SinglyLinkedList.validRun (ll.call op).ll ops

/-- Addresses of the nodes reachable from `p`, in order; `none` when the fuel runs out. -/
def reach {V : Type} (mem : List (singlyLinkedListNode V)) : Nat → Option Nat → Option (List Nat)
  | 0, _ => none
  | _ + 1, none => some []
  | fuel + 1, some a =>
    match mem[a]? with
    | none => some [a]
    | some n => (reach mem fuel n.Next).map (fun l => a :: l)

/-- The last node reachable from `head` (`nil` for an empty chain). -/
def SinglyLinkedList.lastReachable {V : Type} (ll : SinglyLinkedList V) (fuel : Nat) :
    Option (Option Nat) :=
  (reach ll.mem fuel ll.head).map List.getLast?


/-! ## Search and recorded traversals -/

/-- The callback of `Search`: `if v == value { index = int(i); return true }; return false`,
the captured variable being `index`. -/
def searchCallback {V : Type} [DecidableEq V] (value : V) : Callback V Int :=
  fun i v ll index =>
    if v = value then some { ll := ll, st := intWrap (i : Int), ret := .ok true }
    else some { ll := ll, st := index, ret := .ok false }

/-- Go `Search`: `index := -1`, a `ForEach` that stops at the first value equal to `value`,
and `return index`. -/
def SinglyLinkedList.Search {V : Type} [DecidableEq V] (ll : SinglyLinkedList V) (fuel : Nat)
    (value : V) : Option (Outcome V Int) :=
  match ll.ForEach fuel (searchCallback value) (-1) with
  | none => none
  | some t =>
    match t.ret with
    | .fault e => some { ll := t.ll, ret := .fault e }
    | .ok _ => some { ll := t.ll, ret := .ok t.st }

/-- No call of the sequence is a `DeleteAt`. -/
def noDelete {V : Type} : List (Op V) → Bool
  | [] => true
  | .deleteAt _ :: _ => false
  | _ :: ops => noDelete ops

end Datastruct

/-!
Verification of the slice filters of `slice.go`

A slice is modelled by the list of its elements; `FilterSliceInPlace` works on the backing
array of `*inputPtr` and a shrinking `length`.  The indices `i` and `length` are Go `int`s
between 0 and `len(input)` and are modelled in `Nat`; the filter is a pure function.
-/

namespace Generic

/-- How the run of a function ended. -/
inductive Exec (α : Type) where
  /-- The function returned. -/
  | returned (a : α)
  /-- Runtime error: index out of range. -/
  | indexOutOfRange
  /-- The model ran out of fuel before the loop ended. -/
  | outOfFuel
  deriving DecidableEq, Repr

/-- The loop `for i, v := range input { if filter(i, v) { new = append(new, v) } }` of
`FilterSlice`: the index of the next element, the elements still to visit, and `new`. -/
def filterSliceLoop {T : Type} (filter : Nat → T → Bool) : Nat → List T → List T → List T
  | _, [], new => new
  | i, v :: rest, new => filterSliceLoop filter (i + 1) rest (if filter i v then new ++ [v] else new)

/-- The slices after a call of `FilterSlice`: the input slice and the returned slice. -/
structure Filtered (T : Type) where
  input : List T
  output : List T
  deriving DecidableEq, Repr

/-- Go `FilterSlice`: `new := make([]T, 0, len(input))`, the loop, `return new`.  The
function never assigns to an element of `input`. -/
def FilterSlice {T : Type} (input : List T) (filter : Nat → T → Bool) : Filtered T :=
  { input := input, output := filterSliceLoop filter 0 input [] }

/-- The variables of `FilterSliceInPlace` between loop iterations: the backing array
`input`, `length`, and (for the specification) the calls of `filter` made so far, each
with the index that was read and the value passed. -/
structure InPlaceState (T : Type) where
  input : List T
  length : Nat
  calls : List (Nat × T)
  deriving DecidableEq, Repr

/-- The inner loop `for { length--; if length == i { break }; if filter(input[length])
{ input[i] = input[length]; break } }`, by recursion on `length`.  With `length` 0 the
decrement gives -1, which differs from `i`, and `input[-1]` is out of range. -/
def filterInPlaceInner {T : Type} (filter : T → Bool) (i : Nat) :
    Nat → List T → List (Nat × T) → Exec (InPlaceState T)
  | 0, _, _ => .indexOutOfRange
  | length + 1, input, calls =>
    if length = i then .returned { input := input, length := length, calls := calls }
    else
      match input[length]? with
      | none => .indexOutOfRange
      | some v =>
        if filter v then
          if i < input.length then
            .returned { input := input.set i v, length := length, calls := calls ++ [(length, v)] }
          else .indexOutOfRange
        else filterInPlaceInner filter i length input (calls ++ [(length, v)])

/-- The outer loop `for i := 0; i < length; i++ { if filter(input[i]) { continue }; ... }`;
every evaluation of the loop condition uses one unit of fuel. -/
def filterInPlaceLoop {T : Type} (filter : T → Bool) :
    Nat → Nat → InPlaceState T → Exec (InPlaceState T)
  | 0, _, _ => .outOfFuel
  | fuel + 1, i, st =>
    if i < st.length then
      match st.input[i]? with
      | none => .indexOutOfRange
      | some v =>
        if filter v then
          filterInPlaceLoop filter fuel (i + 1) { st with calls := st.calls ++ [(i, v)] }
        else
          match filterInPlaceInner filter i st.length st.input (st.calls ++ [(i, v)]) with
          | .returned st1 => filterInPlaceLoop filter fuel (i + 1) st1
          | .indexOutOfRange => .indexOutOfRange
          | .outOfFuel => .outOfFuel
    else .returned st

/-- What `FilterSliceInPlace` leaves behind: the slice `*inputPtr` (`input[:length]`), the
backing array, and the recorded calls of `filter`. -/
structure InPlaceResult (T : Type) where
  slice : List T
  array : List T
  calls : List (Nat × T)
  deriving DecidableEq, Repr

/-- Go `FilterSliceInPlace`: `length := len(input)`, the loop, `*inputPtr = input[:length]`. -/
def FilterSliceInPlace {T : Type} (fuel : Nat) (input : List T) (filter : T → Bool) :
    Exec (InPlaceResult T) :=
  match filterInPlaceLoop filter fuel 0 { input := input, length := input.length, calls := [] } with
  | .returned st =>
    .returned { slice := st.input.take st.length, array := st.input, calls := st.calls }
  | .indexOutOfRange => .indexOutOfRange
  | .outOfFuel => .outOfFuel

/-- How the elements `w` between the two cursors are compacted into `r`: a kept front
element stays; a rejected front element is overwritten by the last kept element, the
rejected elements behind it being cut off; when nothing behind a rejected front element is
kept, everything is cut off. -/
inductive Compacts {T : Type} (keep : T → Bool) : List T → List T → Prop where
  | done : Compacts keep [] []
  | stay (x : T) (rest r : List T) : keep x = true → Compacts keep rest r →
      Compacts keep (x :: rest) (x :: r)
  | pull (x y : T) (mid cut r : List T) : keep x = false → keep y = true →
      (∀ z ∈ cut, keep z = false) → Compacts keep mid r →
      Compacts keep (x :: (mid ++ y :: cut)) (y :: r)
  | drop (x : T) (rest : List T) : keep x = false → (∀ z ∈ rest, keep z = false) →
      Compacts keep (x :: rest) []

end Generic

namespace Datastruct

/-! ## Machine integer facts -/

theorem uintInc_eq {n : Nat} (h : n + 1 < uintSize) : uintInc n = n + 1 := by
  unfold uintInc uintWrap
  exact Nat.mod_eq_of_lt h

theorem uintDec_eq {n : Nat} (h0 : 0 < n) (h : n < uintSize) : uintDec n = n - 1 := by
  unfold uintDec uintWrap
  unfold uintSize at *
  omega

theorem intWrap_dec_inc {z : Int} (hlo : -(2 ^ 63) ≤ z) (hhi : z < 2 ^ 63) :
    intWrap (intWrap (z + 1) - 1) = z := by
  unfold intWrap
  omega

theorem intWrap_inc {z : Int} (hlo : -(2 ^ 63) ≤ z) (hhi : z + 1 < 2 ^ 63) :
    intWrap (z + 1) = z + 1 := by
  unfold intWrap
  omega

/-! ## The node store -/

section Store

variable {V : Type}

theorem getElem?_setNext_ne (mem : List (singlyLinkedListNode V)) {a b : Nat} (nx : Option Nat)
    (h : a ≠ b) : (setNext mem a nx)[b]? = mem[b]? := by
  unfold setNext
  cases hm : mem[a]? with
  | none => rfl
  | some n => simp [List.getElem?_set_ne h]

theorem getElem?_setNext_self (mem : List (singlyLinkedListNode V)) {a : Nat}
    {n : singlyLinkedListNode V} (nx : Option Nat) (h : mem[a]? = some n) :
    (setNext mem a nx)[a]? = some { Value := n.Value, Next := nx } := by
  have hlt : a < mem.length := by
    rcases List.getElem?_eq_some_iff.mp h with ⟨hlt, _⟩
    exact hlt
  unfold setNext
  simp [h, List.getElem?_set, hlt]

theorem length_setNext (mem : List (singlyLinkedListNode V)) (a : Nat) (nx : Option Nat) :
    (setNext mem a nx).length = mem.length := by
  unfold setNext
  cases hm : mem[a]? <;> simp

theorem getElem?_setValue_ne (mem : List (singlyLinkedListNode V)) {a b : Nat} (v : V)
    (h : a ≠ b) : (setValue mem a v)[b]? = mem[b]? := by
  unfold setValue
  cases hm : mem[a]? with
  | none => rfl
  | some n => simp [List.getElem?_set_ne h]

theorem getElem?_setValue_self (mem : List (singlyLinkedListNode V)) {a : Nat}
    {n : singlyLinkedListNode V} (v : V) (h : mem[a]? = some n) :
    (setValue mem a v)[a]? = some { Value := v, Next := n.Next } := by
  have hlt : a < mem.length := by
    rcases List.getElem?_eq_some_iff.mp h with ⟨hlt, _⟩
    exact hlt
  unfold setValue
  simp [h, List.getElem?_set, hlt]

theorem getElem?_alloc_old (mem : List (singlyLinkedListNode V)) (n : singlyLinkedListNode V)
    {a : Nat} (h : a < mem.length) : (mem ++ [n])[a]? = mem[a]? :=
  List.getElem?_append_left h

theorem getElem?_alloc_new (mem : List (singlyLinkedListNode V)) (n : singlyLinkedListNode V) :
    (mem ++ [n])[mem.length]? = some n :=
  List.getElem?_concat_length mem n

end Store

/-! ## Chains -/

section Chains

variable {V : Type}

theorem isSeg_nil (mem : List (singlyLinkedListNode V)) (p q : Option Nat) :
    IsSeg mem p [] q ↔ p = q := Iff.rfl

theorem isSeg_cons (mem : List (singlyLinkedListNode V)) (p q : Option Nat) (x : Nat × V)
    (xs : List (Nat × V)) :
    IsSeg mem p (x :: xs) q ↔
      p = some x.1 ∧ ∃ nx, mem[x.1]? = some { Value := x.2, Next := nx } ∧ IsSeg mem nx xs q :=
  Iff.rfl

/-- A chain splits at any point into two segments. -/
theorem isSeg_append (mem : List (singlyLinkedListNode V)) (xs ys : List (Nat × V))
    (p q : Option Nat) :
    IsSeg mem p (xs ++ ys) q ↔ ∃ r, IsSeg mem p xs r ∧ IsSeg mem r ys q := by
  induction xs generalizing p with
  | nil => simp [isSeg_nil]
  | cons x xs ih =>
    simp only [List.cons_append, isSeg_cons, ih]
    constructor
    · rintro ⟨hp, nx, hm, r, h1, h2⟩
      exact ⟨r, ⟨hp, nx, hm, h1⟩, h2⟩
    · rintro ⟨r, ⟨hp, nx, hm, h1⟩, h2⟩
      exact ⟨hp, nx, hm, r, h1, h2⟩

/-- A segment only depends on the nodes it visits. -/
theorem isSeg_congr {mem mem2 : List (singlyLinkedListNode V)} {xs : List (Nat × V)}
    {p q : Option Nat} (hagree : ∀ x ∈ xs, mem2[x.1]? = mem[x.1]?) (h : IsSeg mem p xs q) :
    IsSeg mem2 p xs q := by
  induction xs generalizing p with
  | nil => exact h
  | cons x xs ih =>
    rcases h with ⟨hp, nx, hm, hrest⟩
    refine ⟨hp, nx, ?_, ih (fun y hy => hagree y (List.mem_cons_of_mem _ hy)) hrest⟩
    rw [hagree x (List.mem_cons_self _ _)]
    exact hm

/-- The nodes of a segment are in the store. -/
theorem isSeg_lt {mem : List (singlyLinkedListNode V)} {xs : List (Nat × V)}
    {p q : Option Nat} (h : IsSeg mem p xs q) : ∀ x ∈ xs, x.1 < mem.length := by
  induction xs generalizing p with
  | nil => intro x hx; cases hx
  | cons y xs ih =>
    rcases h with ⟨_, nx, hm, hrest⟩
    intro x hx
    rcases List.mem_cons.mp hx with rfl | hx
    · rcases List.getElem?_eq_some_iff.mp hm with ⟨hlt, _⟩
      exact hlt
    · exact ih hrest x hx

/-- The chain that starts at a pointer and ends in `nil` is unique. -/
theorem chain_unique {mem : List (singlyLinkedListNode V)} {xs ys : List (Nat × V)}
    {p : Option Nat} (hx : IsSeg mem p xs none) (hy : IsSeg mem p ys none) : xs = ys := by
  induction xs generalizing p ys with
  | nil =>
    cases ys with
    | nil => rfl
    | cons y ys =>
      rcases hy with ⟨hp, _⟩
      rw [isSeg_nil] at hx
      rw [hx] at hp
      cases hp
  | cons x xs ih =>
    rcases hx with ⟨hp, nx, hm, hrest⟩
    cases ys with
    | nil =>
      rw [isSeg_nil] at hy
      rw [hy] at hp
      cases hp
    | cons y ys =>
      rcases hy with ⟨hp2, ny, hm2, hrest2⟩
      rw [hp] at hp2
      have hxy : x.1 = y.1 := Option.some.inj hp2
      rw [← hxy, hm] at hm2
      have hnode := Option.some.inj hm2
      have hval : x.2 = y.2 := congrArg singlyLinkedListNode.Value hnode
      have hnx : nx = ny := congrArg singlyLinkedListNode.Next hnode
      subst hnx
      have := ih hrest hrest2
      subst this
      have : x = y := Prod.ext hxy hval
      rw [this]

/-- A chain that ends in `nil` visits no node twice. -/
theorem chain_nodup {mem : List (singlyLinkedListNode V)} {xs : List (Nat × V)}
    {p : Option Nat} (h : IsSeg mem p xs none) : (xs.map Prod.fst).Nodup := by
  induction xs generalizing p with
  | nil => exact List.nodup_nil
  | cons x xs ih =>
    have hfull := h
    rcases h with ⟨hp, nx, hm, hrest⟩
    rw [List.map_cons, List.nodup_cons]
    refine ⟨?_, ih hrest⟩
    intro hmem
    rcases List.mem_map.mp hmem with ⟨y, hy, hyx⟩
    rcases List.append_of_mem hy with ⟨l1, l2, hsplit⟩
    rw [hsplit] at hrest
    rcases (isSeg_append mem l1 (y :: l2) nx none).mp hrest with ⟨r, _, hr⟩
    have hr2 : IsSeg mem p (y :: l2) none := by
      rcases hr with ⟨hrp, rest⟩
      refine ⟨?_, rest⟩
      rw [hp, hyx]
    have := chain_unique hfull hr2
    have hlen := congrArg List.length this
    rw [hsplit] at hlen
    simp at hlen
    omega

/-- Walking `getNode` along a chain reaches the node at that position. -/
theorem getNodeLoop_seg {mem : List (singlyLinkedListNode V)} {l1 l2 : List (Nat × V)}
    {x : Nat × V} {p q : Option Nat} (h : IsSeg mem p (l1 ++ x :: l2) q) :
    getNodeLoop mem l1.length p = .ok (some x.1) := by
  induction l1 generalizing p with
  | nil =>
    rcases h with ⟨hp, _⟩
    simp [getNodeLoop, hp]
  | cons y l1 ih =>
    rcases h with ⟨hp, nx, hm, hrest⟩
    have hnx : ∃ b, nx = some b := by
      cases l1 with
      | nil => exact ⟨x.1, hrest.1⟩
      | cons z l1 => exact ⟨z.1, hrest.1⟩
    rcases hnx with ⟨b, hb⟩
    have := ih hrest
    rw [hb] at this
    simp [getNodeLoop, hp, deref, hm, hb, this]

/-- Walking `getNode` past the end of a non-empty chain panics with "index out of bounds". -/
theorem getNodeLoop_oob {mem : List (singlyLinkedListNode V)} {xs : List (Nat × V)}
    {p : Option Nat} {k : Nat} (h : IsSeg mem p xs none) (hne : xs ≠ []) (hk : xs.length ≤ k) :
    getNodeLoop mem k p = .fault .indexOutOfBounds := by
  induction xs generalizing p k with
  | nil => exact absurd rfl hne
  | cons x xs ih =>
    rcases h with ⟨hp, nx, hm, hrest⟩
    cases k with
    | zero => simp at hk
    | succ k =>
      cases xs with
      | nil =>
        rw [isSeg_nil] at hrest
        simp [getNodeLoop, hp, deref, hm, hrest]
      | cons z zs =>
        have hb : nx = some z.1 := hrest.1
        have := ih hrest (by simp) (show (z :: zs).length ≤ k by simpa using hk)
        rw [hb] at this
        simp [getNodeLoop, hp, deref, hm, hb, this]

/-- On the empty chain `getNode` returns `nil` for index 0 and dereferences `nil` otherwise. -/
theorem getNodeLoop_nil (mem : List (singlyLinkedListNode V)) (k : Nat) :
    getNodeLoop mem k none = if k = 0 then .ok none else .fault .nilDereference := by
  cases k <;> simp [getNodeLoop, deref]

end Chains


/-! ## Insertion -/

section Insertion

variable {V : Type}

theorem holds_nil_iff_head {ll : SinglyLinkedList V} {xs : List (Nat × V)} (h : ll.Holds xs) :
    ll.head = none ↔ xs = [] := by
  rcases h with ⟨hseg, _, _⟩
  cases xs with
  | nil => simpa [isSeg_nil] using hseg
  | cons x xs =>
    rcases hseg with ⟨hp, _⟩
    simp [hp]

/-- The zero value holds the empty chain. -/
theorem holds_zero : (SinglyLinkedList.zero V).Holds [] :=
  ⟨rfl, rfl, rfl⟩

/-- Inserting at index 0 puts the fresh node in front of the chain. -/
theorem holds_insertAt_zero {ll : SinglyLinkedList V} {xs : List (Nat × V)} (v : V)
    (h : ll.Holds xs) (hb : ll.blockMod ≤ 0) (hsz : xs.length + 1 < uintSize) :
    (ll.InsertAt 0 v).ret = .ok () ∧ (ll.InsertAt 0 v).ll.Holds ((ll.mem.length, v) :: xs) ∧
      (ll.InsertAt 0 v).ll.blockMod = ll.blockMod := by
  have hhead := holds_nil_iff_head h
  rcases h with ⟨hseg, hsize, htail⟩
  have hnb : ¬ ll.blockMod > 0 := not_lt.mpr hb
  have hnew : (setNext (ll.mem ++ [{ Value := v, Next := none }]) ll.mem.length ll.head)[ll.mem.length]?
      = some { Value := v, Next := ll.head } :=
    getElem?_setNext_self _ _ (getElem?_alloc_new _ _)
  have hold : ∀ x ∈ xs,
      (setNext (ll.mem ++ [{ Value := v, Next := none }]) ll.mem.length ll.head)[x.1]?
        = ll.mem[x.1]? := by
    intro x hx
    have hlt := isSeg_lt hseg x hx
    rw [getElem?_setNext_ne _ _ (Nat.ne_of_gt hlt), getElem?_alloc_old _ _ hlt]
  refine ⟨?_, ⟨?_, ?_, ?_⟩, ?_⟩
  · simp [SinglyLinkedList.InsertAt, hnb]
  · simp only [SinglyLinkedList.InsertAt, hnb, if_false, if_true, SinglyLinkedList.sizeInc]
    exact ⟨rfl, ll.head, hnew, isSeg_congr hold hseg⟩
  · simp only [SinglyLinkedList.InsertAt, hnb, if_false, if_true, SinglyLinkedList.sizeInc]
    rw [hsize, uintInc_eq hsz]
    rfl
  · simp only [SinglyLinkedList.InsertAt, hnb, if_false, if_true, SinglyLinkedList.sizeInc]
    cases xs with
    | nil => simp [hhead.mpr rfl]
    | cons x xs =>
      have : ll.head ≠ none := fun hc => by simpa using hhead.mp hc
      simp [this, htail]
  · simp [SinglyLinkedList.InsertAt, hnb, SinglyLinkedList.sizeInc]

/-- Inserting at a positive index splices the fresh node in behind its predecessor. -/
theorem holds_insertAt_succ {ll : SinglyLinkedList V} {l1 l2 : List (Nat × V)} {x : Nat × V}
    (v : V) (h : ll.Holds (l1 ++ x :: l2)) (hb : ll.blockMod ≤ 0)
    (hsz : (l1 ++ x :: l2).length + 1 < uintSize) :
    (ll.InsertAt (l1.length + 1) v).ret = .ok () ∧
      (ll.InsertAt (l1.length + 1) v).ll.Holds (l1 ++ x :: (ll.mem.length, v) :: l2) ∧
      (ll.InsertAt (l1.length + 1) v).ll.blockMod = ll.blockMod := by
  rcases h with ⟨hseg, hsize, htail⟩
  have hnb : ¬ ll.blockMod > 0 := not_lt.mpr hb
  have hnodup := chain_nodup hseg
  have hlt := isSeg_lt hseg
  rcases (isSeg_append ll.mem l1 (x :: l2) ll.head none).mp hseg with ⟨r, hseg1, hr, nx, hmx, hseg2⟩
  have hxlt : x.1 < ll.mem.length := hlt x (by simp)
  -- the predecessor found by the code
  have hfound : (if l1.length + 1 = ll.size then Ret.ok ll.tail
      else SinglyLinkedList.getNode { ll with mem := ll.mem ++ [{ Value := v, Next := none }] }
        (l1.length + 1 - 1)) = Ret.ok (some x.1) := by
    by_cases hidx : l1.length + 1 = ll.size
    · have hl2 : l2 = [] := by
        rw [hsize] at hidx
        simp only [List.length_append, List.length_cons] at hidx
        exact List.eq_nil_of_length_eq_zero (by omega)
      subst hl2
      rw [if_pos hidx, htail]
      simp
    · rw [if_neg hidx]
      have hseg0 : IsSeg (ll.mem ++ [{ Value := v, Next := none }]) ll.head (l1 ++ x :: l2) none :=
        isSeg_congr (fun y hy => getElem?_alloc_old _ _ (hlt y hy)) hseg
      simpa [SinglyLinkedList.getNode] using getNodeLoop_seg hseg0
  have hderef : deref (ll.mem ++ [{ Value := v, Next := none }]) (some x.1)
      = some { Value := x.2, Next := nx } := by
    simp only [deref]
    rw [getElem?_alloc_old _ _ hxlt]
    exact hmx
  -- the store after both assignments
  have hmem1 : (setNext (ll.mem ++ [{ Value := v, Next := none }]) ll.mem.length nx)[ll.mem.length]?
      = some { Value := v, Next := nx } :=
    getElem?_setNext_self _ _ (getElem?_alloc_new _ _)
  have hmem1x : (setNext (ll.mem ++ [{ Value := v, Next := none }]) ll.mem.length nx)[x.1]?
      = some { Value := x.2, Next := nx } := by
    rw [getElem?_setNext_ne _ _ (Nat.ne_of_gt hxlt), getElem?_alloc_old _ _ hxlt]
    exact hmx
  have hres : ll.InsertAt (l1.length + 1) v =
      { ll := SinglyLinkedList.sizeInc { ll with
          mem := setNext (setNext (ll.mem ++ [{ Value := v, Next := none }]) ll.mem.length nx)
            x.1 (some ll.mem.length),
          tail := if nx = none then some ll.mem.length else ll.tail },
        ret := .ok () } := by
    simp only [SinglyLinkedList.InsertAt, hnb, if_false, Nat.succ_ne_zero, hfound, hderef]
  have hnew : (setNext (setNext (ll.mem ++ [{ Value := v, Next := none }]) ll.mem.length nx)
      x.1 (some ll.mem.length))[ll.mem.length]? = some { Value := v, Next := nx } := by
    rw [getElem?_setNext_ne _ _ (Nat.ne_of_lt hxlt)]
    exact hmem1
  have hprev : (setNext (setNext (ll.mem ++ [{ Value := v, Next := none }]) ll.mem.length nx)
      x.1 (some ll.mem.length))[x.1]? = some { Value := x.2, Next := some ll.mem.length } :=
    getElem?_setNext_self _ _ hmem1x
  have hold : ∀ y ∈ l1 ++ x :: l2, y.1 ≠ x.1 →
      (setNext (setNext (ll.mem ++ [{ Value := v, Next := none }]) ll.mem.length nx)
        x.1 (some ll.mem.length))[y.1]? = ll.mem[y.1]? := by
    intro y hy hne
    have hylt := hlt y hy
    rw [getElem?_setNext_ne _ _ (Ne.symm hne), getElem?_setNext_ne _ _ (Nat.ne_of_gt hylt),
      getElem?_alloc_old _ _ hylt]
  rw [List.map_append, List.map_cons, List.nodup_append] at hnodup
  rcases hnodup with ⟨_, hnd2, hdisj⟩
  rw [List.nodup_cons] at hnd2
  have hne1 : ∀ y ∈ l1, y.1 ≠ x.1 := by
    intro y hy hc
    exact hdisj (List.mem_map_of_mem Prod.fst hy) (by rw [hc]; simp)
  have hne2 : ∀ y ∈ l2, y.1 ≠ x.1 := by
    intro y hy hc
    exact hnd2.1 (by rw [← hc]; exact List.mem_map_of_mem Prod.fst hy)
  rw [hres]
  refine ⟨rfl, ⟨?_, ?_, ?_⟩, rfl⟩
  · simp only [SinglyLinkedList.sizeInc]
    rw [isSeg_append]
    refine ⟨r, ?_, hr, some ll.mem.length, hprev, rfl, nx, hnew, ?_⟩
    · exact isSeg_congr (fun y hy => hold y (by simp [hy]) (hne1 y hy)) hseg1
    · exact isSeg_congr (fun y hy => hold y (by simp [hy]) (hne2 y hy)) hseg2
  · simp only [SinglyLinkedList.sizeInc]
    rw [hsize, uintInc_eq hsz]
    simp only [List.length_append, List.length_cons]
    omega
  · simp only [SinglyLinkedList.sizeInc]
    cases l2 with
    | nil =>
      rw [isSeg_nil] at hseg2
      simp [hseg2]
    | cons z zs =>
      have : nx ≠ none := by
        rw [hseg2.1]
        simp
      rw [if_neg this, htail]
      simp [List.getLast?_append, List.getLast?_cons_cons]

end Insertion


/-! ## Reading a chain: `Get` and `ToSlice` -/

section Reading

variable {V : Type}

/-- On a chain `Get` returns the value stored at the position. -/
theorem get_of_seg {ll : SinglyLinkedList V} {l1 l2 : List (Nat × V)} {x : Nat × V}
    {q : Option Nat} (hseg : IsSeg ll.mem ll.head (l1 ++ x :: l2) q) :
    ll.Get l1.length = { ll := ll, ret := .ok x.2 } := by
  have hnode := getNodeLoop_seg hseg
  rcases (isSeg_append ll.mem l1 (x :: l2) ll.head q).mp hseg with ⟨r, _, _, nx, hmx, _⟩
  simp [SinglyLinkedList.Get, SinglyLinkedList.getNode, hnode, deref, hmx]

/-- The `ToSlice` loop writes the values of the chain into consecutive slots. -/
theorem forEachLoop_toSlice {ll : SinglyLinkedList V} {ys : List (Nat × V)} {cur : Option Nat}
    (hseg : IsSeg ll.mem cur ys none) (pre mid post : List V) (hmid : mid.length = ys.length)
    (hrange : pre.length + ys.length < uintSize) (fuel : Nat) (hfuel : ys.length < fuel) :
    forEachLoop toSliceCallback fuel ll cur pre.length (pre ++ mid ++ post)
      = some { ll := ll, st := pre ++ ys.map Prod.snd ++ post, ret := .ok () } := by
  induction ys generalizing cur pre mid fuel with
  | nil =>
    rw [isSeg_nil] at hseg
    have hmid0 : mid = [] := List.eq_nil_of_length_eq_zero hmid
    cases fuel with
    | zero => simp at hfuel
    | succ fuel => simp [forEachLoop, hseg, hmid0]
  | cons y ys ih =>
    rcases hseg with ⟨hcur, nx, hm, hrest⟩
    cases fuel with
    | zero => simp at hfuel
    | succ fuel =>
      cases mid with
      | nil => simp at hmid
      | cons m mid =>
        have hinc : uintInc pre.length = (pre ++ [y.2]).length := by
          rw [uintInc_eq (by simp only [List.length_cons] at hrange; omega)]
          simp
        have hset : (pre ++ m :: mid ++ post).set pre.length y.2
            = (pre ++ [y.2]) ++ mid ++ post := by
          simp [List.set_append]
        have hstep := ih hrest (pre ++ [y.2]) mid (by simpa using hmid)
          (by simp only [List.length_cons, List.length_append, List.length_nil] at hrange ⊢; omega)
          fuel (by simpa using hfuel)
        have hidx : pre.length < (pre ++ m :: mid ++ post).length := by simp
        rw [hcur]
        simp only [forEachLoop, hm, toSliceCallback, if_pos hidx, hset, hinc, hstep]
        simp

/-- On a chain whose length is `size`, `ToSlice` returns the values in chain order and
leaves the list as it was. -/
theorem toSlice_of_chain [Inhabited V] {ll : SinglyLinkedList V} {xs : List (Nat × V)}
    (hseg : IsSeg ll.mem ll.head xs none) (hsize : ll.size = xs.length)
    (hlo : -(2 ^ 63) ≤ ll.blockMod) (hhi : ll.blockMod < 2 ^ 63)
    (hsz : xs.length < uintSize) (fuel : Nat) (hfuel : xs.length < fuel) :
    ll.ToSlice fuel = some { ll := ll, ret := .ok (xs.map Prod.snd) } := by
  have hloop := @forEachLoop_toSlice V { ll with blockMod := intWrap (ll.blockMod + 1) } xs
    ll.head hseg [] (List.replicate ll.size default) [] (by simp [hsize]) (by simpa using hsz)
    fuel hfuel
  simp only [List.nil_append, List.append_nil, List.length_nil] at hloop
  simp only [SinglyLinkedList.ToSlice, SinglyLinkedList.ForEach, hloop,
    intWrap_dec_inc hlo hhi]

end Reading


/-! ## Insertion at an index, deletion -/

section Indexed

variable {V : Type}

theorem take_length_succ_append {α : Type} (l1 l2 : List α) (x : α) :
    (l1 ++ x :: l2).take (l1.length + 1) = l1 ++ [x] := by
  induction l1 with
  | nil => simp
  | cons y l1 ih => simpa using ih

theorem drop_length_succ_append {α : Type} (l1 l2 : List α) (x : α) :
    (l1 ++ x :: l2).drop (l1.length + 1) = l2 := by
  induction l1 with
  | nil => simp
  | cons y l1 ih => simp

/-- A list splits around each of its positions. -/
theorem exists_split_at {α : Type} (xs : List α) (k : Nat) (hk : k < xs.length) :
    ∃ l1 x l2, xs = l1 ++ x :: l2 ∧ l1.length = k := by
  refine ⟨xs.take k, xs[k], xs.drop (k + 1), ?_, ?_⟩
  · rw [← List.drop_eq_getElem_cons hk, List.take_append_drop]
  · rw [List.length_take]
    omega

/-- Inserting at any index up to the length puts the fresh node at that position. -/
theorem holds_insertAt {ll : SinglyLinkedList V} {xs : List (Nat × V)} (i : Nat) (v : V)
    (h : ll.Holds xs) (hb : ll.blockMod ≤ 0) (hi : i ≤ xs.length)
    (hsz : xs.length + 1 < uintSize) :
    (ll.InsertAt i v).ret = .ok () ∧
      (ll.InsertAt i v).ll.Holds (xs.take i ++ (ll.mem.length, v) :: xs.drop i) ∧
      (ll.InsertAt i v).ll.blockMod = ll.blockMod := by
  cases i with
  | zero => simpa using holds_insertAt_zero v h hb hsz
  | succ k =>
    rcases exists_split_at xs k (by omega) with ⟨l1, x, l2, hxs, hlen⟩
    subst hxs
    subst hlen
    have := holds_insertAt_succ v h hb hsz
    rw [take_length_succ_append, drop_length_succ_append]
    simpa using this

/-- Deleting at index 0 unlinks the first node of the chain. -/
theorem chain_deleteAt_zero {ll : SinglyLinkedList V} {x : Nat × V} {xs : List (Nat × V)}
    (hseg : IsSeg ll.mem ll.head (x :: xs) none) (hsize : ll.size = (x :: xs).length)
    (hb : ll.blockMod ≤ 0) (hsz : ll.size < uintSize) :
    (ll.DeleteAt 0).ret = .ok () ∧
      IsSeg (ll.DeleteAt 0).ll.mem (ll.DeleteAt 0).ll.head xs none ∧
      (ll.DeleteAt 0).ll.size = xs.length ∧
      (ll.DeleteAt 0).ll.blockMod = ll.blockMod ∧ (ll.DeleteAt 0).ll.tail = ll.tail := by
  have hnb : ¬ ll.blockMod > 0 := not_lt.mpr hb
  have hnodup := chain_nodup hseg
  rcases hseg with ⟨hhead, nx, hm, hrest⟩
  have hres : ll.DeleteAt 0 =
      { ll := { ll with mem := setNext ll.mem x.1 none, head := nx, size := uintDec ll.size },
        ret := .ok () } := by
    simp [SinglyLinkedList.DeleteAt, hnb, hhead, hm]
  rw [hres]
  refine ⟨rfl, ?_, ?_, rfl, rfl⟩
  · rw [List.map_cons, List.nodup_cons] at hnodup
    refine isSeg_congr (fun y hy => getElem?_setNext_ne _ _ ?_) hrest
    intro hc
    exact hnodup.1 (by rw [hc]; exact List.mem_map_of_mem Prod.fst hy)
  · show uintDec ll.size = xs.length
    rw [uintDec_eq (by rw [hsize]; simp) hsz, hsize]
    simp

/-- Deleting at a positive index unlinks the node behind the predecessor. -/
theorem chain_deleteAt_succ {ll : SinglyLinkedList V} {l1 l2 : List (Nat × V)} {x d : Nat × V}
    (hseg : IsSeg ll.mem ll.head (l1 ++ x :: d :: l2) none)
    (hsize : ll.size = (l1 ++ x :: d :: l2).length)
    (hb : ll.blockMod ≤ 0) (hsz : ll.size < uintSize) :
    (ll.DeleteAt (l1.length + 1)).ret = .ok () ∧
      IsSeg (ll.DeleteAt (l1.length + 1)).ll.mem (ll.DeleteAt (l1.length + 1)).ll.head
        (l1 ++ x :: l2) none ∧
      (ll.DeleteAt (l1.length + 1)).ll.size = (l1 ++ x :: l2).length ∧
      (ll.DeleteAt (l1.length + 1)).ll.blockMod = ll.blockMod ∧
      (ll.DeleteAt (l1.length + 1)).ll.tail = ll.tail := by
  have hnb : ¬ ll.blockMod > 0 := not_lt.mpr hb
  have hnodup := chain_nodup hseg
  have hnode := getNodeLoop_seg hseg
  rcases (isSeg_append ll.mem l1 (x :: d :: l2) ll.head none).mp hseg with
    ⟨r, hseg1, hr, nx, hmx, hnx, dnx, hmd, hseg2⟩
  have hres : ll.DeleteAt (l1.length + 1) =
      { ll := { ll with mem := setNext ll.mem x.1 dnx, size := uintDec ll.size },
        ret := .ok () } := by
    simp [SinglyLinkedList.DeleteAt, hnb, SinglyLinkedList.getNode, hnode, deref, hmx, hnx, hmd]
  rw [hres]
  rw [List.map_append, List.map_cons, List.map_cons, List.nodup_append] at hnodup
  rcases hnodup with ⟨_, hnd2, hdisj⟩
  rw [List.nodup_cons] at hnd2
  have hne1 : ∀ y ∈ l1, x.1 ≠ y.1 := by
    intro y hy hc
    exact hdisj (List.mem_map_of_mem Prod.fst hy) (by rw [← hc]; simp)
  have hne2 : ∀ y ∈ l2, x.1 ≠ y.1 := by
    intro y hy hc
    exact hnd2.1 (by rw [hc]; exact List.mem_cons_of_mem _ (List.mem_map_of_mem Prod.fst hy))
  refine ⟨rfl, ?_, ?_, rfl, rfl⟩
  · show IsSeg (setNext ll.mem x.1 dnx) ll.head (l1 ++ x :: l2) none
    rw [isSeg_append]
    refine ⟨r, ?_, hr, dnx, getElem?_setNext_self _ _ hmx, ?_⟩
    · exact isSeg_congr (fun y hy => getElem?_setNext_ne _ _ (hne1 y hy)) hseg1
    · exact isSeg_congr (fun y hy => getElem?_setNext_ne _ _ (hne2 y hy)) hseg2
  · show uintDec ll.size = (l1 ++ x :: l2).length
    rw [uintDec_eq (by rw [hsize]; simp) hsz, hsize]
    simp

/-- Deleting at any index below the length removes the node at that position. -/
theorem chain_deleteAt {ll : SinglyLinkedList V} {xs : List (Nat × V)} (i : Nat)
    (hseg : IsSeg ll.mem ll.head xs none) (hsize : ll.size = xs.length)
    (hb : ll.blockMod ≤ 0) (hi : i < xs.length) (hsz : ll.size < uintSize) :
    (ll.DeleteAt i).ret = .ok () ∧
      IsSeg (ll.DeleteAt i).ll.mem (ll.DeleteAt i).ll.head (xs.take i ++ xs.drop (i + 1)) none ∧
      (ll.DeleteAt i).ll.size = xs.length - 1 ∧
      (ll.DeleteAt i).ll.blockMod = ll.blockMod ∧ (ll.DeleteAt i).ll.tail = ll.tail := by
  cases i with
  | zero =>
    cases xs with
    | nil => simp at hi
    | cons x xs => simpa using chain_deleteAt_zero hseg hsize hb hsz
  | succ k =>
    rcases exists_split_at xs k (by omega) with ⟨l1, x, l2, hxs, hlen⟩
    subst hxs
    subst hlen
    cases l2 with
    | nil => simp at hi
    | cons d l2 =>
      have := chain_deleteAt_succ hseg hsize hb hsz
      have hdrop : (l1 ++ x :: d :: l2).drop (l1.length + 1 + 1) = l2 := by
        have := drop_length_succ_append (l1 ++ [x]) l2 d
        simpa using this
      rw [take_length_succ_append, hdrop]
      simpa using this

end Indexed


/-! ## Traversal -/

section TraversalFacts

variable {V σ : Type}

/-- The counting loop counts the nodes of the chain. -/
theorem forEachLoop_count (l : SinglyLinkedList V) {xs : List (Nat × V)}
    {cur : Option Nat} (hseg : IsSeg l.mem cur xs none) (fuel : Nat) (hfuel : xs.length < fuel)
    (i n : Nat) :
    forEachLoop countCallback fuel l cur i n
      = some { ll := l, st := n + xs.length, ret := .ok () } := by
  induction xs generalizing cur fuel i n with
  | nil =>
    rw [isSeg_nil] at hseg
    cases fuel with
    | zero => simp at hfuel
    | succ fuel => simp [forEachLoop, hseg]
  | cons x xs ih =>
    rcases hseg with ⟨hcur, nx, hm, hrest⟩
    cases fuel with
    | zero => simp at hfuel
    | succ fuel =>
      have := ih hrest fuel (by simpa using hfuel) (uintInc i) (n + 1)
      simp only [forEachLoop, hcur, hm, countCallback, this, List.length_cons]
      simp
      omega

end TraversalFacts


/-! ## Sequences of insertions -/

section Sequences

variable {V : Type}

/-- Appending at the tail, call after call, extends the chain in call order. -/
theorem holds_run_insertTail (vs : List V) (ll : SinglyLinkedList V) (xs : List (Nat × V))
    (h : ll.Holds xs) (hb : ll.blockMod = 0) (hsz : xs.length + vs.length < uintSize) :
    ∃ ys, (ll.run (vs.map Op.insertTail)).Holds ys ∧
      ys.map Prod.snd = xs.map Prod.snd ++ vs ∧
      (ll.run (vs.map Op.insertTail)).blockMod = 0 ∧
      ll.validRun (vs.map Op.insertTail) = true := by
  induction vs generalizing ll xs with
  | nil => exact ⟨xs, h, by simp, hb, rfl⟩
  | cons v vs ih =>
    simp only [List.length_cons] at hsz
    have hstep := holds_insertAt xs.length v h (by omega) (Nat.le_refl _) (by omega)
    rw [List.take_length, List.drop_length, ← h.2.1] at hstep
    rcases hstep with ⟨hret, hholds, hbm⟩
    rcases ih (ll.InsertAt ll.size v).ll (xs ++ [(ll.mem.length, v)]) hholds (by rw [hbm, hb])
      (by simp only [List.length_append, List.length_cons, List.length_nil]; omega)
      with ⟨ys, hys, hmap, hbm2, hvalid⟩
    refine ⟨ys, hys, ?_, hbm2, ?_⟩
    · rw [hmap]
      simp
    · simp only [List.map_cons, SinglyLinkedList.validRun, SinglyLinkedList.validCall,
        SinglyLinkedList.call, SinglyLinkedList.InsertTail, hb, hret]
      simpa [SinglyLinkedList.call, SinglyLinkedList.InsertTail] using hvalid

/-- Inserting at the head, call after call, extends the chain in reverse call order. -/
theorem holds_run_insertHead (vs : List V) (ll : SinglyLinkedList V) (xs : List (Nat × V))
    (h : ll.Holds xs) (hb : ll.blockMod = 0) (hsz : xs.length + vs.length < uintSize) :
    ∃ ys, (ll.run (vs.map Op.insertHead)).Holds ys ∧
      ys.map Prod.snd = vs.reverse ++ xs.map Prod.snd ∧
      (ll.run (vs.map Op.insertHead)).blockMod = 0 ∧
      ll.validRun (vs.map Op.insertHead) = true := by
  induction vs generalizing ll xs with
  | nil => exact ⟨xs, h, by simp, hb, rfl⟩
  | cons v vs ih =>
    simp only [List.length_cons] at hsz
    rcases holds_insertAt 0 v h (by omega) (Nat.zero_le _) (by omega) with ⟨hret, hholds, hbm⟩
    rw [List.take_zero, List.drop_zero, List.nil_append] at hholds
    rcases ih (ll.InsertAt 0 v).ll ((ll.mem.length, v) :: xs) hholds (by rw [hbm, hb])
      (by simp only [List.length_cons]; omega)
      with ⟨ys, hys, hmap, hbm2, hvalid⟩
    refine ⟨ys, hys, ?_, hbm2, ?_⟩
    · rw [hmap]
      simp
    · simp only [List.map_cons, SinglyLinkedList.validRun, SinglyLinkedList.validCall,
        SinglyLinkedList.call, SinglyLinkedList.InsertHead, hb, hret]
      simpa [SinglyLinkedList.call, SinglyLinkedList.InsertHead] using hvalid

end Sequences


/-! ## Indices beyond the end -/

section Beyond

variable {V : Type}

/-- Walking `getNode` to an index at or beyond the length of a chain panics. -/
theorem getNodeLoop_beyond {mem : List (singlyLinkedListNode V)} {xs : List (Nat × V)}
    {p : Option Nat} {k : Nat} (h : IsSeg mem p xs none) (hk : xs.length ≤ k) :
    (xs ≠ [] ∧ getNodeLoop mem k p = .fault .indexOutOfBounds) ∨
      (xs = [] ∧ 0 < k ∧ getNodeLoop mem k p = .fault .nilDereference) ∨
      (xs = [] ∧ k = 0 ∧ getNodeLoop mem k p = .ok none) := by
  cases xs with
  | nil =>
    rw [isSeg_nil] at h
    subst h
    rw [getNodeLoop_nil]
    rcases Nat.eq_zero_or_pos k with hk0 | hk0
    · exact Or.inr (Or.inr ⟨rfl, hk0, by simp [hk0]⟩)
    · exact Or.inr (Or.inl ⟨rfl, hk0, by simp [Nat.ne_of_gt hk0]⟩)
  | cons x xs => exact Or.inl ⟨by simp, getNodeLoop_oob h (by simp) hk⟩

/-- On a list whose chain has `size` nodes, `Get` and `Set` at an index of at least
`Count()` panic and leave the list unchanged; the panic is "index out of bounds" when the
list is not empty and a nil dereference when it is. -/
theorem get_set_beyond_count {ll : SinglyLinkedList V} {xs : List (Nat × V)}
    (hseg : IsSeg ll.mem ll.head xs none) (hsize : ll.size = xs.length) (index : Nat) (v : V)
    (hi : ll.Count ≤ index) :
    ∃ e, ll.Get index = { ll := ll, ret := .fault e } ∧
      ll.Set index v = { ll := ll, ret := .fault e } ∧
      e = (if xs.isEmpty then Fault.nilDereference else Fault.indexOutOfBounds) := by
  simp only [SinglyLinkedList.Count] at hi
  rw [hsize] at hi
  rcases getNodeLoop_beyond hseg hi with ⟨hne, hg⟩ | ⟨he, _, hg⟩ | ⟨he, _, hg⟩
  · exact ⟨.indexOutOfBounds, by simp [SinglyLinkedList.Get, SinglyLinkedList.getNode, hg],
      by simp [SinglyLinkedList.Set, SinglyLinkedList.getNode, hg], by cases xs <;> simp at hne ⊢⟩
  · exact ⟨.nilDereference, by simp [SinglyLinkedList.Get, SinglyLinkedList.getNode, hg],
      by simp [SinglyLinkedList.Set, SinglyLinkedList.getNode, hg], by simp [he]⟩
  · exact ⟨.nilDereference,
      by simp [SinglyLinkedList.Get, SinglyLinkedList.getNode, hg, deref],
      by simp [SinglyLinkedList.Set, SinglyLinkedList.getNode, hg, deref], by simp [he]⟩

/-- On a list whose chain has `size` nodes and with no traversal active, `InsertAt` at an
index above `Count()` panics, and the list it leaves differs from the one before the call:
`size` has been incremented (and the unused node has been allocated). -/
theorem insertAt_beyond_count {ll : SinglyLinkedList V} {xs : List (Nat × V)}
    (hseg : IsSeg ll.mem ll.head xs none) (hsize : ll.size = xs.length) (hb : ll.blockMod ≤ 0)
    (index : Nat) (v : V) (hi : ll.Count < index) :
    ∃ e, ll.InsertAt index v =
      { ll := { ll with mem := ll.mem ++ [{ Value := v, Next := none }],
                        size := uintInc ll.size },
        ret := .fault e } := by
  simp only [SinglyLinkedList.Count] at hi
  have hnb : ¬ ll.blockMod > 0 := not_lt.mpr hb
  have h0 : index ≠ 0 := by omega
  have hne : index ≠ ll.size := by omega
  have hseg0 : IsSeg (ll.mem ++ [{ Value := v, Next := none }]) ll.head xs none :=
    isSeg_congr (fun y hy => getElem?_alloc_old _ _ (isSeg_lt hseg y hy)) hseg
  rcases getNodeLoop_beyond hseg0 (show xs.length ≤ index - 1 by omega) with
    ⟨_, hg⟩ | ⟨_, _, hg⟩ | ⟨_, _, hg⟩
  · exact ⟨.indexOutOfBounds, by
      simp [SinglyLinkedList.InsertAt, hnb, h0, hne, SinglyLinkedList.getNode, hg,
        SinglyLinkedList.sizeInc]⟩
  · exact ⟨.nilDereference, by
      simp [SinglyLinkedList.InsertAt, hnb, h0, hne, SinglyLinkedList.getNode, hg,
        SinglyLinkedList.sizeInc]⟩
  · exact ⟨.nilDereference, by
      simp [SinglyLinkedList.InsertAt, hnb, h0, hne, SinglyLinkedList.getNode, hg,
        SinglyLinkedList.sizeInc, deref]⟩

end Beyond


/-! ## The claims -/

section Claims

/-- C1: after the valid call sequence InsertTail(1), InsertTail(2), DeleteAt(1),
InsertTail(3) on the zero-value list, in which every call is made with no traversal active
and returns without a panic, `Count()` is 2 while a never-stopping `ForEach` invokes its
callback only once: the node appended last hangs behind the deleted node, which `tail`
still points to, and `size` counts it although it is not reachable from `head`. -/
theorem count_differs_from_forEach_after_tail_delete :
    (SinglyLinkedList.zero Nat).validRun
        [.insertTail 1, .insertTail 2, .deleteAt 1, .insertTail 3] = true ∧
      ((SinglyLinkedList.zero Nat).run
        [.insertTail 1, .insertTail 2, .deleteAt 1, .insertTail 3]).Count = 2 ∧
      ((SinglyLinkedList.zero Nat).run
        [.insertTail 1, .insertTail 2, .deleteAt 1, .insertTail 3]).forEachCount 4 = some 1 := by
  decide

/-- C2: `DeleteAt` never assigns `tail`.  After InsertHead(1), DeleteAt(0) the list has
`head` absent and `tail` present; after InsertTail(1), InsertTail(2), DeleteAt(1) the
`tail` pointer is the deleted node (address 1) while the last node reachable from `head`
is the node at address 0.  Every call of both sequences is valid and returns without a
panic. -/
theorem tail_stale_after_deleteAt :
    ((SinglyLinkedList.zero Nat).validRun [.insertHead 1, .deleteAt 0] = true ∧
      ((SinglyLinkedList.zero Nat).run [.insertHead 1, .deleteAt 0]).head = none ∧
      ((SinglyLinkedList.zero Nat).run [.insertHead 1, .deleteAt 0]).tail = some 0) ∧
    ((SinglyLinkedList.zero Nat).validRun [.insertTail 1, .insertTail 2, .deleteAt 1] = true ∧
      ((SinglyLinkedList.zero Nat).run [.insertTail 1, .insertTail 2, .deleteAt 1]).tail
        = some 1 ∧
      ((SinglyLinkedList.zero Nat).run
        [.insertTail 1, .insertTail 2, .deleteAt 1]).lastReachable 3 = some (some 0)) := by
  decide

/-- C3: on a well-formed list with no traversal active, `InsertAt(i, v)` with
`i <= Count()` returns without a panic; afterwards `ToSlice()` is the previous `ToSlice()`
with `v` inserted at position `i` (the elements before `i` unchanged, the others one
position later), `Get(i)` returns `v` and `Count()` is one larger.  The list is small
enough for `Count() + 1` to be a `uint`, and the traversals get fuel exceeding the number
of nodes. -/
theorem InsertAt_inserts_at_index {V : Type} [Inhabited V] (ll : SinglyLinkedList V)
    (i : Nat) (v : V) (fuel : Nat) (hwf : ll.WellFormed) (hb : ll.blockMod = 0)
    (hi : i ≤ ll.Count) (hsz : ll.Count + 1 < uintSize) (hfuel : ll.Count + 1 < fuel) :
    ∃ before : List V,
      ll.ToSlice fuel = some { ll := ll, ret := .ok before } ∧
      (ll.InsertAt i v).ret = .ok () ∧
      (ll.InsertAt i v).ll.ToSlice fuel
        = some { ll := (ll.InsertAt i v).ll, ret := .ok (before.take i ++ v :: before.drop i) } ∧
      (ll.InsertAt i v).ll.Get i = { ll := (ll.InsertAt i v).ll, ret := .ok v } ∧
      (ll.InsertAt i v).ll.Count = ll.Count + 1 := by
  rcases hwf with ⟨xs, h⟩
  have hsize : ll.size = xs.length := h.2.1
  simp only [SinglyLinkedList.Count] at hi hsz hfuel ⊢
  rw [hsize] at hi hsz hfuel
  rcases holds_insertAt i v h (by omega) hi hsz with ⟨hret, hholds, hbm⟩
  have hlen : (xs.take i ++ (ll.mem.length, v) :: xs.drop i).length = xs.length + 1 := by
    simp only [List.length_append, List.length_cons, List.length_take, List.length_drop]
    omega
  refine ⟨xs.map Prod.snd, ?_, hret, ?_, ?_, ?_⟩
  · exact toSlice_of_chain h.1 hsize (by rw [hb]; norm_num) (by rw [hb]; norm_num)
      (by omega) fuel (by omega)
  · have := toSlice_of_chain hholds.1 hholds.2.1 (by rw [hbm, hb]; norm_num)
      (by rw [hbm, hb]; norm_num) (by rw [hlen]; omega) fuel (by rw [hlen]; omega)
    rw [this]
    simp [List.map_take, List.map_drop]
  · have := get_of_seg hholds.1
    rw [List.length_take, Nat.min_eq_left hi] at this
    exact this
  · rw [hholds.2.1, hlen, hsize]

/-- C3 at the list [1, 2]: InsertAt(1, 7). -/
theorem InsertAt_inserts_at_index_witness :
    ∃ before : List Nat,
      (SinglyLinkedList.mk [⟨1, some 1⟩, ⟨2, none⟩] (some 0) (some 1) 2 0).ToSlice 4
        = some { ll := SinglyLinkedList.mk [⟨1, some 1⟩, ⟨2, none⟩] (some 0) (some 1) 2 0,
                 ret := .ok before } ∧
      ((SinglyLinkedList.mk [⟨1, some 1⟩, ⟨2, none⟩] (some 0) (some 1) 2 0).InsertAt 1 7).ret
        = .ok () ∧
      ((SinglyLinkedList.mk [⟨1, some 1⟩, ⟨2, none⟩] (some 0) (some 1) 2 0).InsertAt 1 7).ll.ToSlice 4
        = some { ll := ((SinglyLinkedList.mk [⟨1, some 1⟩, ⟨2, none⟩] (some 0) (some 1) 2
                   0).InsertAt 1 7).ll,
                 ret := .ok (before.take 1 ++ 7 :: before.drop 1) } ∧
      ((SinglyLinkedList.mk [⟨1, some 1⟩, ⟨2, none⟩] (some 0) (some 1) 2 0).InsertAt 1 7).ll.Get 1
        = { ll := ((SinglyLinkedList.mk [⟨1, some 1⟩, ⟨2, none⟩] (some 0) (some 1) 2
                   0).InsertAt 1 7).ll,
            ret := .ok 7 } ∧
      ((SinglyLinkedList.mk [⟨1, some 1⟩, ⟨2, none⟩] (some 0) (some 1) 2 0).InsertAt 1 7).ll.Count
        = (SinglyLinkedList.mk [⟨1, some 1⟩, ⟨2, none⟩] (some 0) (some 1) 2 0).Count + 1 :=
  InsertAt_inserts_at_index (SinglyLinkedList.mk [⟨1, some 1⟩, ⟨2, none⟩] (some 0) (some 1) 2 0)
    1 7 4 ⟨[(0, 1), (1, 2)], ⟨rfl, some 1, rfl, rfl, none, rfl, rfl⟩, rfl, rfl⟩ rfl
    (by decide) (by decide) (by decide)

/-- C4: on a well-formed list with no traversal active, `DeleteAt(i)` with `i < Count()`
returns without a panic; afterwards `ToSlice()` is the previous `ToSlice()` with the
element at position `i` removed (the elements before `i` unchanged, the later ones one
position earlier) and `Count()` is one smaller.  The traversals get fuel exceeding the
number of nodes. -/
theorem DeleteAt_removes_at_index {V : Type} [Inhabited V] (ll : SinglyLinkedList V)
    (i : Nat) (fuel : Nat) (hwf : ll.WellFormed) (hb : ll.blockMod = 0)
    (hi : i < ll.Count) (hsz : ll.Count < uintSize) (hfuel : ll.Count < fuel) :
    ∃ before : List V,
      ll.ToSlice fuel = some { ll := ll, ret := .ok before } ∧
      (ll.DeleteAt i).ret = .ok () ∧
      (ll.DeleteAt i).ll.ToSlice fuel
        = some { ll := (ll.DeleteAt i).ll, ret := .ok (before.take i ++ before.drop (i + 1)) } ∧
      (ll.DeleteAt i).ll.Count + 1 = ll.Count := by
  rcases hwf with ⟨xs, h⟩
  have hsize : ll.size = xs.length := h.2.1
  simp only [SinglyLinkedList.Count] at hi hsz hfuel ⊢
  rcases chain_deleteAt i h.1 hsize (by omega) (by omega) hsz with
    ⟨hret, hseg, hsize2, hbm, _⟩
  have hlen : (xs.take i ++ xs.drop (i + 1)).length = xs.length - 1 := by
    simp only [List.length_append, List.length_take, List.length_drop]
    omega
  refine ⟨xs.map Prod.snd, ?_, hret, ?_, ?_⟩
  · exact toSlice_of_chain h.1 hsize (by rw [hb]; norm_num) (by rw [hb]; norm_num)
      (by omega) fuel (by omega)
  · have := toSlice_of_chain hseg (by rw [hsize2, hlen]) (by rw [hbm, hb]; norm_num)
      (by rw [hbm, hb]; norm_num) (by rw [hlen]; omega) fuel (by rw [hlen]; omega)
    rw [this]
    simp [List.map_take, List.map_drop]
  · rw [hsize2]
    omega

/-- C4 at the list [1, 2]: DeleteAt(1). -/
theorem DeleteAt_removes_at_index_witness :
    ∃ before : List Nat,
      (SinglyLinkedList.mk [⟨1, some 1⟩, ⟨2, none⟩] (some 0) (some 1) 2 0).ToSlice 3
        = some { ll := SinglyLinkedList.mk [⟨1, some 1⟩, ⟨2, none⟩] (some 0) (some 1) 2 0,
                 ret := .ok before } ∧
      ((SinglyLinkedList.mk [⟨1, some 1⟩, ⟨2, none⟩] (some 0) (some 1) 2 0).DeleteAt 1).ret
        = .ok () ∧
      ((SinglyLinkedList.mk [⟨1, some 1⟩, ⟨2, none⟩] (some 0) (some 1) 2 0).DeleteAt 1).ll.ToSlice 3
        = some { ll := ((SinglyLinkedList.mk [⟨1, some 1⟩, ⟨2, none⟩] (some 0) (some 1) 2
                   0).DeleteAt 1).ll,
                 ret := .ok (before.take 1 ++ before.drop (1 + 1)) } ∧
      ((SinglyLinkedList.mk [⟨1, some 1⟩, ⟨2, none⟩] (some 0) (some 1) 2 0).DeleteAt 1).ll.Count + 1
        = (SinglyLinkedList.mk [⟨1, some 1⟩, ⟨2, none⟩] (some 0) (some 1) 2 0).Count :=
  DeleteAt_removes_at_index (SinglyLinkedList.mk [⟨1, some 1⟩, ⟨2, none⟩] (some 0) (some 1) 2 0)
    1 3 ⟨[(0, 1), (1, 2)], ⟨rfl, some 1, rfl, rfl, none, rfl, rfl⟩, rfl, rfl⟩ rfl
    (by decide) (by decide) (by decide)

/-- C5: on the well-formed one-element list [1], `InsertAt(2, 7)` panics with "index out
of bounds", yet `Count()` has gone from 1 to 2 although the chain still has one node: the
deferred `ll.size++` runs while the panic unwinds.  On the zero-value list
`InsertAt(1, 7)` panics with a nil dereference and leaves `Count()` at 1 with `head`
absent. -/
theorem InsertAt_beyond_count_increments_size :
    ((SinglyLinkedList.mk [⟨1, none⟩] (some 0) (some 0) 1 0).InsertAt 2 (7 : Nat)).ret
        = .fault .indexOutOfBounds ∧
      (SinglyLinkedList.mk [⟨(1 : Nat), none⟩] (some 0) (some 0) 1 0).Count = 1 ∧
      ((SinglyLinkedList.mk [⟨1, none⟩] (some 0) (some 0) 1 0).InsertAt 2 (7 : Nat)).ll.Count = 2 ∧
      ((SinglyLinkedList.mk [⟨1, none⟩] (some 0) (some 0) 1 0).InsertAt 2
        (7 : Nat)).ll.forEachCount 3 = some 1 ∧
      ((SinglyLinkedList.zero Nat).InsertAt 1 7).ret = .fault .nilDereference ∧
      ((SinglyLinkedList.zero Nat).InsertAt 1 7).ll.Count = 1 ∧
      ((SinglyLinkedList.zero Nat).InsertAt 1 7).ll.head = none := by
  decide

/-- C6: on the zero-value list `Get(0)`, `Set(0, 7)` and `DeleteAt(1)` panic with a nil
dereference, not with "index out of bounds", and on the well-formed list [1, 2]
`DeleteAt(2)` (index equal to `Count()`) panics with a nil dereference as well; in all
four cases the list is left unchanged. -/
theorem out_of_bounds_reported_as_nil_dereference :
    (SinglyLinkedList.zero Nat).Get 0
        = { ll := SinglyLinkedList.zero Nat, ret := .fault .nilDereference } ∧
      (SinglyLinkedList.zero Nat).Set 0 7
        = { ll := SinglyLinkedList.zero Nat, ret := .fault .nilDereference } ∧
      (SinglyLinkedList.zero Nat).DeleteAt 1
        = { ll := SinglyLinkedList.zero Nat, ret := .fault .nilDereference } ∧
      (SinglyLinkedList.mk [⟨(1 : Nat), some 1⟩, ⟨2, none⟩] (some 0) (some 1) 2 0).DeleteAt 2
        = { ll := SinglyLinkedList.mk [⟨1, some 1⟩, ⟨2, none⟩] (some 0) (some 1) 2 0,
            ret := .fault .nilDereference } := by
  decide

/-- C7: while a traversal is active (`blockMod > 0`, whatever the nesting depth),
`InsertAt`, `InsertHead`, `InsertTail` and `DeleteAt` panic with the reentrant-mutation
panic and leave the list (node store, `head`, `tail`, `size`, `blockMod`) unchanged. -/
theorem mutation_rejected_while_traversing {V : Type} (ll : SinglyLinkedList V) (index : Nat)
    (value : V) (h : 0 < ll.blockMod) :
    ll.InsertAt index value = { ll := ll, ret := .fault .reentrantMutation } ∧
      ll.InsertHead value = { ll := ll, ret := .fault .reentrantMutation } ∧
      ll.InsertTail value = { ll := ll, ret := .fault .reentrantMutation } ∧
      ll.DeleteAt index = { ll := ll, ret := .fault .reentrantMutation } := by
  have hgt : ll.blockMod > 0 := h
  refine ⟨?_, ?_, ?_, ?_⟩
  · simp [SinglyLinkedList.InsertAt, hgt]
  · simp [SinglyLinkedList.InsertHead, SinglyLinkedList.InsertAt, hgt]
  · simp [SinglyLinkedList.InsertTail, SinglyLinkedList.InsertAt, hgt]
  · simp [SinglyLinkedList.DeleteAt, hgt]

/-- C7 at the list [1, 2] inside two nested traversals, index 1, value 7. -/
theorem mutation_rejected_while_traversing_witness :
    (0 : Int) < (SinglyLinkedList.mk [⟨(1 : Nat), some 1⟩, ⟨2, none⟩] (some 0) (some 1) 2
        2).blockMod ∧
      ((SinglyLinkedList.mk [⟨(1 : Nat), some 1⟩, ⟨2, none⟩] (some 0) (some 1) 2 2).InsertAt 1 7
          = { ll := SinglyLinkedList.mk [⟨1, some 1⟩, ⟨2, none⟩] (some 0) (some 1) 2 2,
              ret := .fault .reentrantMutation } ∧
        (SinglyLinkedList.mk [⟨(1 : Nat), some 1⟩, ⟨2, none⟩] (some 0) (some 1) 2 2).InsertHead 7
          = { ll := SinglyLinkedList.mk [⟨1, some 1⟩, ⟨2, none⟩] (some 0) (some 1) 2 2,
              ret := .fault .reentrantMutation } ∧
        (SinglyLinkedList.mk [⟨(1 : Nat), some 1⟩, ⟨2, none⟩] (some 0) (some 1) 2 2).InsertTail 7
          = { ll := SinglyLinkedList.mk [⟨1, some 1⟩, ⟨2, none⟩] (some 0) (some 1) 2 2,
              ret := .fault .reentrantMutation } ∧
        (SinglyLinkedList.mk [⟨(1 : Nat), some 1⟩, ⟨2, none⟩] (some 0) (some 1) 2 2).DeleteAt 1
          = { ll := SinglyLinkedList.mk [⟨1, some 1⟩, ⟨2, none⟩] (some 0) (some 1) 2 2,
              ret := .fault .reentrantMutation }) :=
  ⟨by decide, mutation_rejected_while_traversing
    (SinglyLinkedList.mk [⟨(1 : Nat), some 1⟩, ⟨2, none⟩] (some 0) (some 1) 2 2) 1 7 (by decide)⟩

end Claims


section ClaimsTraversal

theorem run_insertAt_zero_eq_insertHead {V : Type} (vs : List V) (ll : SinglyLinkedList V) :
    ll.run (vs.map (Op.insertAt 0)) = ll.run (vs.map Op.insertHead) := by
  induction vs generalizing ll with
  | nil => rfl
  | cons v vs ih => exact ih _

/-- C9: calling InsertTail(v1), ..., InsertTail(vn) on the zero-value list, every call
returns without a panic, and the resulting list has `ToSlice()` equal to [v1, ..., vn]
(insertion order) and `Count()` equal to n.  The number of values is below the number of
`uint` values, and the traversal gets fuel exceeding it. -/
theorem InsertTail_keeps_insertion_order {V : Type} [Inhabited V] (vs : List V) (fuel : Nat)
    (hlen : vs.length < uintSize) (hfuel : vs.length < fuel) :
    (SinglyLinkedList.zero V).validRun (vs.map Op.insertTail) = true ∧
      ((SinglyLinkedList.zero V).run (vs.map Op.insertTail)).ToSlice fuel
        = some { ll := (SinglyLinkedList.zero V).run (vs.map Op.insertTail), ret := .ok vs } ∧
      ((SinglyLinkedList.zero V).run (vs.map Op.insertTail)).Count = vs.length := by
  rcases holds_run_insertTail vs (SinglyLinkedList.zero V) [] holds_zero rfl
    (by simpa using hlen) with ⟨ys, hys, hmap, hbm, hvalid⟩
  have hylen : ys.length = vs.length := by
    have := congrArg List.length hmap
    simpa using this
  refine ⟨hvalid, ?_, ?_⟩
  · have := toSlice_of_chain hys.1 hys.2.1 (by rw [hbm]; norm_num) (by rw [hbm]; norm_num)
      (by rw [hylen]; exact hlen) fuel (by rw [hylen]; exact hfuel)
    rw [this, hmap]
    simp
  · show ((SinglyLinkedList.zero V).run (vs.map Op.insertTail)).size = vs.length
    rw [hys.2.1, hylen]

/-- C9 at the values 4, 5, 6. -/
theorem InsertTail_keeps_insertion_order_witness :
    (SinglyLinkedList.zero Nat).validRun ([4, 5, 6].map Op.insertTail) = true ∧
      ((SinglyLinkedList.zero Nat).run ([4, 5, 6].map Op.insertTail)).ToSlice 4
        = some { ll := (SinglyLinkedList.zero Nat).run ([4, 5, 6].map Op.insertTail),
                 ret := .ok [4, 5, 6] } ∧
      ((SinglyLinkedList.zero Nat).run ([4, 5, 6].map Op.insertTail)).Count
        = [4, 5, 6].length :=
  InsertTail_keeps_insertion_order [4, 5, 6] 4 (by decide) (by decide)

/-- C10: calling InsertHead(v1), ..., InsertHead(vn) on the zero-value list, which is the
same as calling InsertAt(0, v1), ..., InsertAt(0, vn), every call returns without a panic,
and the resulting list has `ToSlice()` equal to [vn, ..., v1] (the reverse of insertion
order) and `Count()` equal to n.  The number of values is below the number of `uint`
values, and the traversal gets fuel exceeding it. -/
theorem InsertHead_reverses_insertion_order {V : Type} [Inhabited V] (vs : List V) (fuel : Nat)
    (hlen : vs.length < uintSize) (hfuel : vs.length < fuel) :
    (SinglyLinkedList.zero V).run (vs.map (Op.insertAt 0))
        = (SinglyLinkedList.zero V).run (vs.map Op.insertHead) ∧
      (SinglyLinkedList.zero V).validRun (vs.map Op.insertHead) = true ∧
      ((SinglyLinkedList.zero V).run (vs.map Op.insertHead)).ToSlice fuel
        = some { ll := (SinglyLinkedList.zero V).run (vs.map Op.insertHead),
                 ret := .ok vs.reverse } ∧
      ((SinglyLinkedList.zero V).run (vs.map Op.insertHead)).Count = vs.length := by
  rcases holds_run_insertHead vs (SinglyLinkedList.zero V) [] holds_zero rfl
    (by simpa using hlen) with ⟨ys, hys, hmap, hbm, hvalid⟩
  have hylen : ys.length = vs.length := by
    have := congrArg List.length hmap
    simpa using this
  refine ⟨run_insertAt_zero_eq_insertHead vs _, hvalid, ?_, ?_⟩
  · have := toSlice_of_chain hys.1 hys.2.1 (by rw [hbm]; norm_num) (by rw [hbm]; norm_num)
      (by rw [hylen]; exact hlen) fuel (by rw [hylen]; exact hfuel)
    rw [this, hmap]
    simp
  · show ((SinglyLinkedList.zero V).run (vs.map Op.insertHead)).size = vs.length
    rw [hys.2.1, hylen]

/-- C10 at the values 4, 5, 6. -/
theorem InsertHead_reverses_insertion_order_witness :
    (SinglyLinkedList.zero Nat).run ([4, 5, 6].map (Op.insertAt 0))
        = (SinglyLinkedList.zero Nat).run ([4, 5, 6].map Op.insertHead) ∧
      (SinglyLinkedList.zero Nat).validRun ([4, 5, 6].map Op.insertHead) = true ∧
      ((SinglyLinkedList.zero Nat).run ([4, 5, 6].map Op.insertHead)).ToSlice 4
        = some { ll := (SinglyLinkedList.zero Nat).run ([4, 5, 6].map Op.insertHead),
                 ret := .ok [4, 5, 6].reverse } ∧
      ((SinglyLinkedList.zero Nat).run ([4, 5, 6].map Op.insertHead)).Count
        = [4, 5, 6].length :=
  InsertHead_reverses_insertion_order [4, 5, 6] 4 (by decide) (by decide)

end ClaimsTraversal


/-! ## Search -/

section SearchFacts

variable {V : Type}

theorem intWrap_ofNat {n : Nat} (h : n < 2 ^ 63) : intWrap (n : Int) = (n : Int) := by
  unfold intWrap
  omega

/-- The `Search` loop stops at the first node holding the value and stores its index;
without such a node it leaves the captured index as it is. -/
theorem forEachLoop_search [DecidableEq V] (l : SinglyLinkedList V) (value : V)
    {ys : List (Nat × V)} {cur : Option Nat} (hseg : IsSeg l.mem cur ys none) (fuel : Nat)
    (hfuel : ys.length < fuel) (i0 : Nat) (hrange : i0 + ys.length ≤ 2 ^ 63) (idx : Int) :
    ∃ r, forEachLoop (searchCallback value) fuel l cur i0 idx
        = some { ll := l, st := r, ret := .ok () } ∧
      (((∀ y ∈ ys, y.2 ≠ value) ∧ r = idx) ∨
        ∃ k, (ys.map Prod.snd)[k]? = some value ∧
          (∀ j, j < k → (ys.map Prod.snd)[j]? ≠ some value) ∧ r = ((i0 + k : Nat) : Int)) := by
  induction ys generalizing cur fuel i0 idx with
  | nil =>
    rw [isSeg_nil] at hseg
    cases fuel with
    | zero => simp at hfuel
    | succ fuel =>
      exact ⟨idx, by simp [forEachLoop, hseg], Or.inl ⟨by simp, rfl⟩⟩
  | cons y ys ih =>
    rcases hseg with ⟨hcur, nx, hm, hrest⟩
    simp only [List.length_cons] at hrange hfuel
    cases fuel with
    | zero => simp at hfuel
    | succ fuel =>
      by_cases hy : y.2 = value
      · refine ⟨(i0 : Int), ?_, Or.inr ⟨0, by simp [hy], by simp, by simp⟩⟩
        simp [forEachLoop, hcur, hm, searchCallback, hy, intWrap_ofNat (show i0 < 2 ^ 63 by omega)]
      · have hinc : uintInc i0 = i0 + 1 := uintInc_eq (by unfold uintSize; omega)
        rcases ih hrest fuel (by omega) (i0 + 1) (by omega) idx with ⟨r, hr, hcase⟩
        refine ⟨r, ?_, ?_⟩
        · simp [forEachLoop, hcur, hm, searchCallback, hy, hinc, hr]
        · rcases hcase with ⟨hall, hres⟩ | ⟨k, hk, hmin, hres⟩
          · refine Or.inl ⟨?_, hres⟩
            intro z hz
            rcases List.mem_cons.mp hz with rfl | hz
            · exact hy
            · exact hall z hz
          · refine Or.inr ⟨k + 1, by simpa using hk, ?_, by rw [hres]; congr 1; omega⟩
            intro j hj
            cases j with
            | zero => simpa using hy
            | succ j => simpa using hmin j (by omega)

end SearchFacts

/-! ## Overwriting a value -/

section SetFacts

variable {V : Type}

/-- On a chain `Get` at a position of the chain returns the value stored there. -/
theorem get_at {ll : SinglyLinkedList V} {xs : List (Nat × V)} {q : Option Nat}
    (hseg : IsSeg ll.mem ll.head xs q) {j : Nat} {y : Nat × V} (hj : xs[j]? = some y) :
    ll.Get j = { ll := ll, ret := .ok y.2 } := by
  rcases List.getElem?_eq_some_iff.mp hj with ⟨hlt, hy⟩
  rcases exists_split_at xs j hlt with ⟨l1, x, l2, hxs, hlen⟩
  subst hxs
  subst hlen
  have hx : x = y := by
    rw [List.getElem?_append_right (Nat.le_refl _)] at hj
    simpa using hj
  subst hx
  exact get_of_seg hseg

/-- The effect of `Set` at a position of a chain: the value of that node is replaced,
nothing else changes. -/
theorem chain_set {ll : SinglyLinkedList V} {l1 l2 : List (Nat × V)} {x : Nat × V} (v : V)
    (hseg : IsSeg ll.mem ll.head (l1 ++ x :: l2) none) :
    ll.Set l1.length v = { ll := { ll with mem := setValue ll.mem x.1 v }, ret := .ok () } ∧
      IsSeg (setValue ll.mem x.1 v) ll.head (l1 ++ (x.1, v) :: l2) none := by
  have hnode := getNodeLoop_seg hseg
  have hnodup := chain_nodup hseg
  rcases (isSeg_append ll.mem l1 (x :: l2) ll.head none).mp hseg with ⟨r, hseg1, hr, nx, hmx, hseg2⟩
  rw [List.map_append, List.map_cons, List.nodup_append] at hnodup
  rcases hnodup with ⟨_, hnd2, hdisj⟩
  rw [List.nodup_cons] at hnd2
  have hne1 : ∀ y ∈ l1, x.1 ≠ y.1 := by
    intro y hy hc
    exact hdisj (List.mem_map_of_mem Prod.fst hy) (by rw [← hc]; simp)
  have hne2 : ∀ y ∈ l2, x.1 ≠ y.1 := by
    intro y hy hc
    exact hnd2.1 (by rw [hc]; exact List.mem_map_of_mem Prod.fst hy)
  refine ⟨by simp [SinglyLinkedList.Set, SinglyLinkedList.getNode, hnode, deref, hmx], ?_⟩
  rw [isSeg_append]
  refine ⟨r, ?_, hr, nx, getElem?_setValue_self _ _ hmx, ?_⟩
  · exact isSeg_congr (fun y hy => getElem?_setValue_ne _ _ (hne1 y hy)) hseg1
  · exact isSeg_congr (fun y hy => getElem?_setValue_ne _ _ (hne2 y hy)) hseg2

/-- Overwriting the value at an index below the length keeps chain, `size` and `tail`. -/
theorem holds_set {ll : SinglyLinkedList V} {xs : List (Nat × V)} (i : Nat) (v : V)
    (h : ll.Holds xs) (hi : i < xs.length) :
    ∃ a, xs[i]?.map Prod.fst = some a ∧ (ll.Set i v).ret = .ok () ∧
      (ll.Set i v).ll.Holds (xs.set i (a, v)) ∧
      (ll.Set i v).ll.blockMod = ll.blockMod := by
  rcases exists_split_at xs i hi with ⟨l1, x, l2, hxs, hlen⟩
  subst hxs
  subst hlen
  rcases h with ⟨hseg, hsize, htail⟩
  rcases chain_set v hseg with ⟨hset, hseg2⟩
  have hsetxs : (l1 ++ x :: l2).set l1.length (x.1, v) = l1 ++ (x.1, v) :: l2 := by
    simp [List.set_append]
  have hget : (l1 ++ x :: l2)[l1.length]? = some x := by
    rw [List.getElem?_append_right (Nat.le_refl _)]
    simp
  refine ⟨x.1, by rw [hget]; rfl, by rw [hset], ?_, by rw [hset]⟩
  rw [hset, hsetxs]
  refine ⟨hseg2, ?_, ?_⟩
  · show ll.size = (l1 ++ (x.1, v) :: l2).length
    rw [hsize]
    simp
  · show ll.tail = ((l1 ++ (x.1, v) :: l2).map Prod.fst).getLast?
    rw [htail]
    simp

end SetFacts


/-! ## Preservation of the invariants -/

section Preservation

variable {V : Type}

theorem deleteAt_zero_of_head_nil {ll : SinglyLinkedList V} (hhead : ll.head = none)
    (hb : ll.blockMod ≤ 0) : ll.DeleteAt 0 = { ll := ll, ret := .ok () } := by
  have hnb : ¬ ll.blockMod > 0 := not_lt.mpr hb
  simp [SinglyLinkedList.DeleteAt, hnb, hhead]

theorem wellFormed_insertAt {ll : SinglyLinkedList V} (i : Nat) (v : V) (hwf : ll.WellFormed)
    (hi : i ≤ ll.Count) (hsz : ll.Count + 1 < uintSize) :
    (ll.InsertAt i v).ll.WellFormed ∧ (ll.InsertAt i v).ll.size ≤ ll.size + 1 := by
  by_cases hb : ll.blockMod > 0
  · have : ll.InsertAt i v = { ll := ll, ret := .fault .reentrantMutation } := by
      simp [SinglyLinkedList.InsertAt, hb]
    rw [this]
    exact ⟨hwf, Nat.le_succ _⟩
  · rcases hwf with ⟨xs, h⟩
    have hsize : ll.size = xs.length := h.2.1
    simp only [SinglyLinkedList.Count] at hi hsz
    rw [hsize] at hi hsz
    rcases holds_insertAt i v h (not_lt.mp hb) hi hsz with ⟨_, hholds, _⟩
    refine ⟨⟨_, hholds⟩, ?_⟩
    rw [hholds.2.1, hsize]
    simp only [List.length_append, List.length_cons, List.length_take, List.length_drop]
    omega

theorem wellFormed_set {ll : SinglyLinkedList V} (i : Nat) (v : V) (hwf : ll.WellFormed)
    (hi : i < ll.Count) : (ll.Set i v).ll.WellFormed ∧ (ll.Set i v).ll.size = ll.size := by
  rcases hwf with ⟨xs, h⟩
  have hsize : ll.size = xs.length := h.2.1
  simp only [SinglyLinkedList.Count] at hi
  rw [hsize] at hi
  rcases holds_set i v h hi with ⟨a, _, _, hholds, _⟩
  refine ⟨⟨_, hholds⟩, ?_⟩
  rw [hholds.2.1, hsize]
  simp

/-- A valid call other than `DeleteAt` keeps the invariants and adds at most one node. -/
theorem wellFormed_call {ll : SinglyLinkedList V} (op : Op V) (hwf : ll.WellFormed)
    (hvalid : ll.validCall op = true) (hnd : noDelete [op] = true)
    (hsz : ll.size + 1 < uintSize) :
    (ll.call op).ll.WellFormed ∧ (ll.call op).ll.size ≤ ll.size + 1 := by
  cases op with
  | insertHead v => exact wellFormed_insertAt 0 v hwf (Nat.zero_le _) hsz
  | insertTail v => exact wellFormed_insertAt ll.size v hwf (Nat.le_refl _) hsz
  | insertAt i v =>
    simp only [SinglyLinkedList.validCall, Bool.and_eq_true, decide_eq_true_eq] at hvalid
    exact wellFormed_insertAt i v hwf hvalid.2 hsz
  | set i v =>
    simp only [SinglyLinkedList.validCall, Bool.and_eq_true, decide_eq_true_eq] at hvalid
    rcases wellFormed_set i v hwf hvalid.2 with ⟨h1, h2⟩
    exact ⟨h1, by show (ll.Set i v).ll.size ≤ ll.size + 1; omega⟩
  | deleteAt i => simp [noDelete] at hnd

theorem noDelete_cons {op : Op V} {ops : List (Op V)} (h : noDelete (op :: ops) = true) :
    noDelete [op] = true ∧ noDelete ops = true := by
  cases op <;> simp_all [noDelete]

/-- A valid sequence of calls without `DeleteAt` keeps the invariants. -/
theorem wellFormed_run (ops : List (Op V)) (ll : SinglyLinkedList V) (hwf : ll.WellFormed)
    (hnd : noDelete ops = true) (hvalid : ll.validRun ops = true)
    (hsz : ll.size + ops.length < uintSize) : (ll.run ops).WellFormed := by
  induction ops generalizing ll with
  | nil => exact hwf
  | cons op ops ih =>
    simp only [List.length_cons] at hsz
    simp only [SinglyLinkedList.validRun, Bool.and_eq_true] at hvalid
    rcases noDelete_cons hnd with ⟨hnd1, hnd2⟩
    rcases wellFormed_call op hwf hvalid.1.1 hnd1 (by omega) with ⟨hwf2, hsize2⟩
    exact ih (ll.call op).ll hwf2 hnd2 hvalid.2 (by omega)

end Preservation


/-! ## The claims on search, traversal order, `Set` and the invariants -/

section ClaimsLookup

/-- C11: on a list whose chain from `head` ends in `nil`, `Search(x)` returns without a
panic and leaves the list unchanged; it returns -1 exactly when no element equals `x`, and
otherwise the lowest index `i` such that the `i`-th element in traversal order equals `x`.
The chain has at most 2^63 nodes, so that every index is an `int`, and the traversal gets
fuel exceeding the number of nodes.  On the list holding [3, 1, 4, 1, 5], `Search(1)`
returns 1. -/
theorem Search_returns_first_index {V : Type} [DecidableEq V] (ll : SinglyLinkedList V)
    (xs : List (Nat × V)) (value : V) (fuel : Nat) (hseg : IsSeg ll.mem ll.head xs none)
    (hlen : xs.length ≤ 2 ^ 63) (hfuel : xs.length < fuel)
    (hlo : -(2 ^ 63) ≤ ll.blockMod) (hhi : ll.blockMod < 2 ^ 63) :
    (∃ r : Int, ll.Search fuel value = some { ll := ll, ret := .ok r } ∧
        (r = -1 ↔ value ∉ xs.map Prod.snd) ∧
        (∀ i : Nat, r = (i : Int) ↔
          ((xs.map Prod.snd)[i]? = some value ∧
            ∀ j, j < i → (xs.map Prod.snd)[j]? ≠ some value))) ∧
      (((SinglyLinkedList.zero Nat).run ([3, 1, 4, 1, 5].map Op.insertTail)).Search 6 1).map
          (fun o => o.ret) = some (.ok 1) := by
  refine ⟨?_, by decide⟩
  rcases @forEachLoop_search V _ { ll with blockMod := intWrap (ll.blockMod + 1) } value xs
    ll.head hseg fuel hfuel 0 (by omega) (-1) with ⟨r, hr, hcase⟩
  refine ⟨r, ?_, ?_⟩
  · simp only [SinglyLinkedList.Search, SinglyLinkedList.ForEach, hr, intWrap_dec_inc hlo hhi]
  · rcases hcase with ⟨hall, hres⟩ | ⟨k, hk, hmin, hres⟩
    · have hnot : value ∉ xs.map Prod.snd := by
        intro hmem
        rcases List.mem_map.mp hmem with ⟨y, hy, hyv⟩
        exact hall y hy hyv
      refine ⟨⟨fun _ => hnot, fun _ => hres⟩, ?_⟩
      intro i
      constructor
      · intro h
        rw [hres] at h
        omega
      · rintro ⟨hi, _⟩
        exact absurd (List.mem_iff_getElem?.mpr ⟨_, hi⟩) hnot
    · have hrk : r = (k : Int) := by simpa using hres
      refine ⟨⟨fun h => by omega, fun h => absurd (List.mem_iff_getElem?.mpr ⟨_, hk⟩) h⟩, ?_⟩
      intro i
      constructor
      · intro h
        have : i = k := by omega
        subst this
        exact ⟨hk, hmin⟩
      · rintro ⟨hi, himin⟩
        have : i = k := by
          rcases Nat.lt_trichotomy i k with h | h | h
          · exact absurd hi (hmin i h)
          · exact h
          · exact absurd hk (himin k h)
        rw [hrk, this]

/-- C11 at the list [3, 1, 4, 1, 5], searching 4. -/
theorem Search_returns_first_index_witness :
    (∃ r : Int,
        (SinglyLinkedList.mk [⟨(3 : Nat), some 1⟩, ⟨1, some 2⟩, ⟨4, some 3⟩, ⟨1, some 4⟩, ⟨5, none⟩]
            (some 0) (some 4) 5 0).Search 6 4
          = some { ll := SinglyLinkedList.mk
                     [⟨3, some 1⟩, ⟨1, some 2⟩, ⟨4, some 3⟩, ⟨1, some 4⟩, ⟨5, none⟩]
                     (some 0) (some 4) 5 0,
                   ret := .ok r } ∧
        (r = -1 ↔ (4 : Nat) ∉ [(0, 3), (1, 1), (2, 4), (3, 1), (4, 5)].map Prod.snd) ∧
        (∀ i : Nat, r = (i : Int) ↔
          (([(0, 3), (1, 1), (2, 4), (3, 1), (4, 5)].map Prod.snd)[i]? = some (4 : Nat) ∧
            ∀ j, j < i →
              ([(0, 3), (1, 1), (2, 4), (3, 1), (4, 5)].map Prod.snd)[j]? ≠ some (4 : Nat)))) ∧
      (((SinglyLinkedList.zero Nat).run ([3, 1, 4, 1, 5].map Op.insertTail)).Search 6 1).map
          (fun o => o.ret) = some (.ok 1) :=
  Search_returns_first_index
    (SinglyLinkedList.mk [⟨(3 : Nat), some 1⟩, ⟨1, some 2⟩, ⟨4, some 3⟩, ⟨1, some 4⟩, ⟨5, none⟩]
      (some 0) (some 4) 5 0)
    [(0, 3), (1, 1), (2, 4), (3, 1), (4, 5)] 4 6
    ⟨rfl, some 1, rfl, rfl, some 2, rfl, rfl, some 3, rfl, rfl, some 4, rfl, rfl, none, rfl, rfl⟩
    (by decide) (by decide) (by decide) (by decide)

end ClaimsLookup


section ClaimsInvariants

/-- C13: on a well-formed list, `Set(i, v)` with `i < Count()` returns without a panic,
whatever the value of the reentrancy counter (also while a traversal is active);
afterwards `Get(i)` returns `v`, `Get(j)` returns what it returned before for every other
`j < Count()`, and `Count()` and the reentrancy counter are unchanged. -/
theorem Set_overwrites_one_value {V : Type} (ll : SinglyLinkedList V) (i : Nat) (v : V)
    (hwf : ll.WellFormed) (hi : i < ll.Count) :
    (ll.Set i v).ret = .ok () ∧
      (ll.Set i v).ll.Get i = { ll := (ll.Set i v).ll, ret := .ok v } ∧
      (∀ j, j < ll.Count → j ≠ i →
        ∃ w, ll.Get j = { ll := ll, ret := .ok w } ∧
          (ll.Set i v).ll.Get j = { ll := (ll.Set i v).ll, ret := .ok w }) ∧
      (ll.Set i v).ll.Count = ll.Count ∧
      (ll.Set i v).ll.blockMod = ll.blockMod := by
  rcases hwf with ⟨xs, h⟩
  have hsize : ll.size = xs.length := h.2.1
  simp only [SinglyLinkedList.Count] at hi ⊢
  rw [hsize] at hi
  rcases holds_set i v h hi with ⟨a, _, hret, hholds, hbm⟩
  refine ⟨hret, ?_, ?_, ?_, hbm⟩
  · exact get_at hholds.1
      (show (xs.set i (a, v))[i]? = some (a, v) by rw [List.getElem?_set_self hi])
  · intro j hj hne
    rw [hsize] at hj
    have hy : xs[j]? = some xs[j] := List.getElem?_eq_getElem hj
    refine ⟨xs[j].2, get_at h.1 hy, get_at hholds.1 ?_⟩
    rw [List.getElem?_set_ne (Ne.symm hne)]
    exact hy
  · rw [hholds.2.1, hsize]
    simp

/-- C13 at the list [1, 2] during an active traversal: Set(1, 7). -/
theorem Set_overwrites_one_value_witness :
    ((SinglyLinkedList.mk [⟨(1 : Nat), some 1⟩, ⟨2, none⟩] (some 0) (some 1) 2 1).Set 1 7).ret
        = .ok () ∧
      ((SinglyLinkedList.mk [⟨(1 : Nat), some 1⟩, ⟨2, none⟩] (some 0) (some 1) 2 1).Set 1 7).ll.Get 1
        = { ll := ((SinglyLinkedList.mk [⟨(1 : Nat), some 1⟩, ⟨2, none⟩] (some 0) (some 1) 2
                  1).Set 1 7).ll,
            ret := .ok 7 } ∧
      (∀ j, j < (SinglyLinkedList.mk [⟨(1 : Nat), some 1⟩, ⟨2, none⟩] (some 0) (some 1) 2 1).Count →
        j ≠ 1 →
        ∃ w, (SinglyLinkedList.mk [⟨(1 : Nat), some 1⟩, ⟨2, none⟩] (some 0) (some 1) 2 1).Get j
            = { ll := SinglyLinkedList.mk [⟨(1 : Nat), some 1⟩, ⟨2, none⟩] (some 0) (some 1) 2 1,
                ret := .ok w } ∧
          ((SinglyLinkedList.mk [⟨(1 : Nat), some 1⟩, ⟨2, none⟩] (some 0) (some 1) 2
              1).Set 1 7).ll.Get j
            = { ll := ((SinglyLinkedList.mk [⟨(1 : Nat), some 1⟩, ⟨2, none⟩] (some 0) (some 1) 2
                      1).Set 1 7).ll,
                ret := .ok w }) ∧
      ((SinglyLinkedList.mk [⟨(1 : Nat), some 1⟩, ⟨2, none⟩] (some 0) (some 1) 2 1).Set 1 7).ll.Count
        = (SinglyLinkedList.mk [⟨(1 : Nat), some 1⟩, ⟨2, none⟩] (some 0) (some 1) 2 1).Count ∧
      ((SinglyLinkedList.mk [⟨(1 : Nat), some 1⟩, ⟨2, none⟩] (some 0) (some 1) 2
          1).Set 1 7).ll.blockMod
        = (SinglyLinkedList.mk [⟨(1 : Nat), some 1⟩, ⟨2, none⟩] (some 0) (some 1) 2 1).blockMod :=
  Set_overwrites_one_value
    (SinglyLinkedList.mk [⟨(1 : Nat), some 1⟩, ⟨2, none⟩] (some 0) (some 1) 2 1) 1 7
    ⟨[(0, 1), (1, 2)], ⟨rfl, some 1, rfl, rfl, none, rfl, rfl⟩, rfl, rfl⟩ (by decide)

/-- C19: on a well-formed list, `ToSlice()` returns a slice of length `Count()`, and for
every index `i`, `Exists(i)` holds if and only if `Get(i)` returns without a panic, in
which case the value it returns is `ToSlice()[i]`.  The reentrancy counter and `Count()`
are in the range of their types and the traversal gets fuel exceeding the node count. -/
theorem ToSlice_agrees_with_Get {V : Type} [Inhabited V] (ll : SinglyLinkedList V)
    (fuel : Nat) (hwf : ll.WellFormed) (hlo : -(2 ^ 63) ≤ ll.blockMod)
    (hhi : ll.blockMod < 2 ^ 63) (hsz : ll.Count < uintSize) (hfuel : ll.Count < fuel) :
    ∃ slice : List V,
      ll.ToSlice fuel = some { ll := ll, ret := .ok slice } ∧
      slice.length = ll.Count ∧
      ∀ i, (ll.Exists i = true ↔ ∃ v, (ll.Get i).ret = .ok v) ∧
        (∀ v, (ll.Get i).ret = .ok v → slice[i]? = some v) := by
  rcases hwf with ⟨xs, h⟩
  have hsize : ll.size = xs.length := h.2.1
  simp only [SinglyLinkedList.Count] at hsz hfuel ⊢
  refine ⟨xs.map Prod.snd, ?_, by simp [hsize], ?_⟩
  · exact toSlice_of_chain h.1 hsize hlo hhi (by omega) fuel (by omega)
  · intro i
    rcases Nat.lt_or_ge i xs.length with hi | hi
    · have hy : xs[i]? = some xs[i] := List.getElem?_eq_getElem hi
      have hget := get_at h.1 hy
      refine ⟨⟨fun _ => ⟨xs[i].2, by rw [hget]⟩, fun _ => by
        simp [SinglyLinkedList.Exists, hsize, hi]⟩, ?_⟩
      intro v hv
      rw [hget] at hv
      have : xs[i].2 = v := by simpa using hv
      simp [hy, this]
    · rcases get_set_beyond_count h.1 hsize i default
        (by simp only [SinglyLinkedList.Count]; omega) with ⟨e, hget, _, _⟩
      refine ⟨⟨fun hex => ?_, fun hex => ?_⟩, ?_⟩
      · simp only [SinglyLinkedList.Exists, decide_eq_true_eq] at hex
        omega
      · rcases hex with ⟨v, hv⟩
        rw [hget] at hv
        cases hv
      · intro v hv
        rw [hget] at hv
        cases hv

/-- C19 at the list [1, 2]. -/
theorem ToSlice_agrees_with_Get_witness :
    ∃ slice : List Nat,
      (SinglyLinkedList.mk [⟨1, some 1⟩, ⟨2, none⟩] (some 0) (some 1) 2 0).ToSlice 3
        = some { ll := SinglyLinkedList.mk [⟨1, some 1⟩, ⟨2, none⟩] (some 0) (some 1) 2 0,
                 ret := .ok slice } ∧
      slice.length = (SinglyLinkedList.mk [⟨(1 : Nat), some 1⟩, ⟨2, none⟩] (some 0) (some 1) 2
        0).Count ∧
      ∀ i, ((SinglyLinkedList.mk [⟨(1 : Nat), some 1⟩, ⟨2, none⟩] (some 0) (some 1) 2 0).Exists i
            = true ↔
          ∃ v, ((SinglyLinkedList.mk [⟨(1 : Nat), some 1⟩, ⟨2, none⟩] (some 0) (some 1) 2
            0).Get i).ret = .ok v) ∧
        (∀ v, ((SinglyLinkedList.mk [⟨(1 : Nat), some 1⟩, ⟨2, none⟩] (some 0) (some 1) 2
            0).Get i).ret = .ok v → slice[i]? = some v) :=
  ToSlice_agrees_with_Get (SinglyLinkedList.mk [⟨1, some 1⟩, ⟨2, none⟩] (some 0) (some 1) 2 0) 3
    ⟨[(0, 1), (1, 2)], ⟨rfl, some 1, rfl, rfl, none, rfl, rfl⟩, rfl, rfl⟩
    (by decide) (by decide) (by decide) (by decide)

/-- C20: the zero-value list is well formed, and on a well-formed list whose `Count() + 1`
is a `uint`, `InsertAt(i, v)` with `i <= Count()`, `InsertHead(v)`, `InsertTail(v)` and
`Set(j, v)` with `j < Count()` leave a well-formed list: `size` is the number of nodes
reachable from `head` (so `head` is absent iff `size` is 0) and `tail` is the last node of
the chain (absent iff `head` is).  Hence the list after any valid sequence of calls without
`DeleteAt` is well formed. -/
theorem inserts_and_Set_preserve_invariants {V : Type} (ll : SinglyLinkedList V)
    (hwf : ll.WellFormed) (hsz : ll.Count + 1 < uintSize) :
    (SinglyLinkedList.zero V).WellFormed ∧
      (∀ i v, i ≤ ll.Count → (ll.InsertAt i v).ll.WellFormed) ∧
      (∀ v, (ll.InsertHead v).ll.WellFormed) ∧
      (∀ v, (ll.InsertTail v).ll.WellFormed) ∧
      (∀ j v, j < ll.Count → (ll.Set j v).ll.WellFormed) ∧
      (∀ ops : List (Op V), noDelete ops = true → ll.validRun ops = true →
        ll.Count + ops.length < uintSize → (ll.run ops).WellFormed) ∧
      (∀ ops : List (Op V), noDelete ops = true →
        (SinglyLinkedList.zero V).validRun ops = true → ops.length < uintSize →
        ((SinglyLinkedList.zero V).run ops).WellFormed) := by
  refine ⟨⟨[], holds_zero⟩, ?_, ?_, ?_, ?_, ?_, ?_⟩
  · intro i v hi
    exact (wellFormed_insertAt i v hwf hi hsz).1
  · intro v
    exact (wellFormed_insertAt 0 v hwf (Nat.zero_le _) hsz).1
  · intro v
    exact (wellFormed_insertAt ll.size v hwf (Nat.le_refl _) hsz).1
  · intro j v hj
    exact (wellFormed_set j v hwf hj).1
  · intro ops hnd hvalid hlen
    exact wellFormed_run ops ll hwf hnd hvalid hlen
  · intro ops hnd hvalid hlen
    exact wellFormed_run ops _ ⟨[], holds_zero⟩ hnd hvalid (by
      show 0 + ops.length < uintSize
      omega)

/-- C20 at the list [1, 2]. -/
theorem inserts_and_Set_preserve_invariants_witness :
    (SinglyLinkedList.zero Nat).WellFormed ∧
      (∀ i v, i ≤ (SinglyLinkedList.mk [⟨(1 : Nat), some 1⟩, ⟨2, none⟩] (some 0) (some 1) 2
          0).Count →
        ((SinglyLinkedList.mk [⟨(1 : Nat), some 1⟩, ⟨2, none⟩] (some 0) (some 1) 2
          0).InsertAt i v).ll.WellFormed) ∧
      (∀ v, ((SinglyLinkedList.mk [⟨(1 : Nat), some 1⟩, ⟨2, none⟩] (some 0) (some 1) 2
          0).InsertHead v).ll.WellFormed) ∧
      (∀ v, ((SinglyLinkedList.mk [⟨(1 : Nat), some 1⟩, ⟨2, none⟩] (some 0) (some 1) 2
          0).InsertTail v).ll.WellFormed) ∧
      (∀ j v, j < (SinglyLinkedList.mk [⟨(1 : Nat), some 1⟩, ⟨2, none⟩] (some 0) (some 1) 2
          0).Count →
        ((SinglyLinkedList.mk [⟨(1 : Nat), some 1⟩, ⟨2, none⟩] (some 0) (some 1) 2
          0).Set j v).ll.WellFormed) ∧
      (∀ ops : List (Op Nat), noDelete ops = true →
        (SinglyLinkedList.mk [⟨(1 : Nat), some 1⟩, ⟨2, none⟩] (some 0) (some 1) 2
          0).validRun ops = true →
        (SinglyLinkedList.mk [⟨(1 : Nat), some 1⟩, ⟨2, none⟩] (some 0) (some 1) 2
          0).Count + ops.length < uintSize →
        ((SinglyLinkedList.mk [⟨(1 : Nat), some 1⟩, ⟨2, none⟩] (some 0) (some 1) 2
          0).run ops).WellFormed) ∧
      (∀ ops : List (Op Nat), noDelete ops = true →
        (SinglyLinkedList.zero Nat).validRun ops = true → ops.length < uintSize →
        ((SinglyLinkedList.zero Nat).run ops).WellFormed) :=
  inserts_and_Set_preserve_invariants
    (SinglyLinkedList.mk [⟨(1 : Nat), some 1⟩, ⟨2, none⟩] (some 0) (some 1) 2 0)
    ⟨[(0, 1), (1, 2)], ⟨rfl, some 1, rfl, rfl, none, rfl, rfl⟩, rfl, rfl⟩ (by decide)

end ClaimsInvariants


/-! ## Callbacks that write the list -/

section Shape

variable {V σ : Type}

theorem sameShape_refl (l : SinglyLinkedList V) : SameShape l l :=
  ⟨rfl, rfl, rfl, rfl, rfl⟩

theorem sameShape_trans {l1 l2 l3 : SinglyLinkedList V} (h12 : SameShape l1 l2)
    (h23 : SameShape l2 l3) : SameShape l1 l3 :=
  ⟨h23.1.trans h12.1, h23.2.1.trans h12.2.1, h23.2.2.1.trans h12.2.2.1,
    h23.2.2.2.1.trans h12.2.2.2.1, h23.2.2.2.2.trans h12.2.2.2.2⟩

theorem map_next_setValue (mem : List (singlyLinkedListNode V)) (a : Nat) (v : V) :
    (setValue mem a v).map (fun n => n.Next) = mem.map (fun n => n.Next) := by
  unfold setValue
  cases hm : mem[a]? with
  | none => rfl
  | some n =>
    apply List.ext_getElem?
    intro j
    simp only [List.getElem?_map, List.getElem?_set]
    by_cases hj : a = j
    · subst hj
      have hlt : a < mem.length := (List.getElem?_eq_some_iff.mp hm).1
      simp [hlt, hm]
    · simp [hj]

theorem get_state (l : SinglyLinkedList V) (i : Nat) : (l.Get i).ll = l := by
  unfold SinglyLinkedList.Get
  cases l.getNode i with
  | fault e => rfl
  | ok p =>
    cases hd : deref l.mem p <;> simp [hd]

theorem sameShape_set (l : SinglyLinkedList V) (i : Nat) (v : V) :
    SameShape l (l.Set i v).ll := by
  unfold SinglyLinkedList.Set
  cases l.getNode i with
  | fault e => exact sameShape_refl l
  | ok p =>
    cases p with
    | none =>
      cases hd : deref l.mem none with
      | none =>
        simp only [hd]
        exact sameShape_refl l
      | some n =>
        simp only [hd]
        exact sameShape_refl l
    | some a =>
      cases hd : deref l.mem (some a) with
      | none =>
        simp only [hd]
        exact sameShape_refl l
      | some n =>
        simp only [hd]
        exact ⟨rfl, rfl, rfl, rfl, map_next_setValue _ _ _⟩

theorem insertAt_state_guarded (l : SinglyLinkedList V) (i : Nat) (v : V)
    (h : 0 < l.blockMod) : l.InsertAt i v = { ll := l, ret := .fault .reentrantMutation } := by
  have hgt : l.blockMod > 0 := h
  simp [SinglyLinkedList.InsertAt, hgt]

theorem deleteAt_state_guarded (l : SinglyLinkedList V) (i : Nat)
    (h : 0 < l.blockMod) : l.DeleteAt i = { ll := l, ret := .fault .reentrantMutation } := by
  have hgt : l.blockMod > 0 := h
  simp [SinglyLinkedList.DeleteAt, hgt]

/-- A node is stored at the same address, with the same link, in every store with the
same links. -/
theorem node_of_same_links {mem mem2 : List (singlyLinkedListNode V)}
    (hlinks : mem2.map (fun n => n.Next) = mem.map (fun n => n.Next)) {a : Nat}
    {n : singlyLinkedListNode V} (hm : mem[a]? = some n) :
    ∃ n2, mem2[a]? = some n2 ∧ n2.Next = n.Next := by
  have h1 : (mem.map (fun n => n.Next))[a]? = some n.Next := by simp [hm]
  rw [← hlinks, List.getElem?_map] at h1
  cases hm2 : mem2[a]? with
  | none => simp [hm2] at h1
  | some n2 =>
    refine ⟨n2, rfl, ?_⟩
    simpa [hm2] using h1

/-- A chain visits the same nodes in every store with the same links. -/
theorem isSeg_of_same_links {mem mem2 : List (singlyLinkedListNode V)}
    (hlinks : mem2.map (fun n => n.Next) = mem.map (fun n => n.Next)) {xs : List (Nat × V)}
    {p q : Option Nat} (h : IsSeg mem p xs q) :
    ∃ xs2, IsSeg mem2 p xs2 q ∧ xs2.map Prod.fst = xs.map Prod.fst := by
  induction xs generalizing p with
  | nil => exact ⟨[], h, rfl⟩
  | cons x xs ih =>
    rcases h with ⟨hp, nx, hm, hrest⟩
    rcases node_of_same_links hlinks hm with ⟨n2, hm2, hnx⟩
    rcases ih hrest with ⟨xs2, hseg2, hmap⟩
    refine ⟨(x.1, n2.Value) :: xs2, ⟨hp, nx, ?_, hseg2⟩, by simp [hmap]⟩
    rw [hm2]
    simp only [Option.some.injEq]
    cases n2
    simp_all

/-- A traversal whose callback keeps the shape of the list keeps it as well. -/
theorem forEachLoop_keeps_shape (f : Callback V σ) (c : Int) (hf : KeepsShapeAt c f)
    (fuel : Nat) (l : SinglyLinkedList V) (cur : Option Nat) (i : Nat) (s : σ)
    (t : Traversal V σ) (hc : l.blockMod = c) (h : forEachLoop f fuel l cur i s = some t) :
    SameShape l t.ll := by
  induction fuel generalizing l cur i s with
  | zero => simp [forEachLoop] at h
  | succ fuel ih =>
    cases cur with
    | none =>
      simp only [forEachLoop, Option.some.injEq] at h
      rw [← h]
      exact sameShape_refl l
    | some a =>
      cases hm : l.mem[a]? with
      | none =>
        simp only [forEachLoop, hm, Option.some.injEq] at h
        rw [← h]
        exact sameShape_refl l
      | some n =>
        cases hfr : f i n.Value l s with
        | none => simp [forEachLoop, hm, hfr] at h
        | some r =>
          have hshape := hf i n.Value l s r hc hfr
          cases hret : r.ret with
          | fault e =>
            simp only [forEachLoop, hm, hfr, hret, Option.some.injEq] at h
            rw [← h]
            exact hshape
          | ok b =>
            cases b with
            | true =>
              simp only [forEachLoop, hm, hfr, hret, Option.some.injEq] at h
              rw [← h]
              exact hshape
            | false =>
              cases hm1 : r.ll.mem[a]? with
              | none =>
                simp only [forEachLoop, hm, hfr, hret, hm1, Option.some.injEq] at h
                rw [← h]
                exact hshape
              | some n1 =>
                simp only [forEachLoop, hm, hfr, hret, hm1] at h
                exact sameShape_trans hshape
                  (ih r.ll n1.Next (uintInc i) r.st (hshape.2.2.2.1.trans hc) h)

/-- `ForEach` with a callback that keeps the shape of the list under the raised counter
leaves the shape of the list, the counter included, as it was. -/
theorem forEach_keeps_shape (f : Callback V σ) (ll : SinglyLinkedList V)
    (hlo : -(2 ^ 63) ≤ ll.blockMod) (hhi : ll.blockMod < 2 ^ 63)
    (hf : KeepsShapeAt (intWrap (ll.blockMod + 1)) f) (fuel : Nat) (s : σ)
    (t : Traversal V σ) (h : ll.ForEach fuel f s = some t) : SameShape ll t.ll := by
  simp only [SinglyLinkedList.ForEach] at h
  cases hloop : forEachLoop f fuel { ll with blockMod := intWrap (ll.blockMod + 1) } ll.head 0 s with
  | none => simp [hloop] at h
  | some t1 =>
    simp only [hloop, Option.some.injEq] at h
    have hshape := forEachLoop_keeps_shape f _ hf fuel _ _ _ _ t1 rfl hloop
    rcases hshape with ⟨h1, h2, h3, h4, h5⟩
    rw [← h]
    refine ⟨h1, h2, h3, ?_, h5⟩
    show intWrap (t1.ll.blockMod - 1) = ll.blockMod
    rw [h4]
    exact intWrap_dec_inc hlo hhi

end Shape

/-! ## Callbacks built from method calls -/

section ClientFacts

variable {V σ : Type}

/-- Under a raised counter the body of a callback keeps the shape of the list, provided
the callbacks of the traversals it starts do so one level further in. -/
theorem Client.runWith_keeps_shape (fuel : Nat)
    (nested : Client V σ → SinglyLinkedList V → Option (Invocation V σ)) (c : Int)
    (hc : 0 < c) (hhi : c < 2 ^ 63)
    (hn : ∀ q (l2 : SinglyLinkedList V) r2, l2.blockMod = intWrap (c + 1) →
      nested q l2 = some r2 → SameShape l2 r2.ll)
    (p : Client V σ) (l : SinglyLinkedList V) (r : Invocation V σ) (hl : l.blockMod = c)
    (h : Client.runWith fuel nested p l = some r) : SameShape l r.ll := by
  induction p generalizing l with
  | ret s br =>
    simp only [Client.runWith, Option.some.injEq] at h
    rw [← h]
    exact sameShape_refl l
  | raise s e =>
    simp only [Client.runWith, Option.some.injEq] at h
    rw [← h]
    exact sameShape_refl l
  | count k ih =>
    simp only [Client.runWith] at h
    exact ih _ l hl h
  | get index k ih =>
    simp only [Client.runWith, get_state] at h
    exact ih _ l hl h
  | set index value k ih =>
    simp only [Client.runWith] at h
    have hs := sameShape_set l index value
    exact sameShape_trans hs (ih _ _ (hs.2.2.2.1.trans hl) h)
  | insertAt index value k ih =>
    simp only [Client.runWith, insertAt_state_guarded l index value (by rw [hl]; exact hc)] at h
    exact ih _ l hl h
  | deleteAt index k ih =>
    simp only [Client.runWith, deleteAt_state_guarded l index (by rw [hl]; exact hc)] at h
    exact ih _ l hl h
  | forEach g s0 k _ ihk =>
    simp only [Client.runWith] at h
    cases ht : l.ForEach fuel (fun i v l s => nested (g i v s) l) s0 with
    | none => simp [ht] at h
    | some t =>
      simp only [ht] at h
      have hshape : SameShape l t.ll := by
        refine forEach_keeps_shape _ l (by rw [hl]; omega) (by rw [hl]; exact hhi) ?_ fuel s0 t ht
        intro i v l2 s2 r2 hl2 hr2
        rw [hl] at hl2
        exact hn _ l2 r2 hl2 hr2
      exact sameShape_trans hshape (ihk _ _ _ (hshape.2.2.2.1.trans hl) h)

/-- Under a raised counter the body of a callback keeps the shape of the list. -/
theorem Client.run_keeps_shape (fuel depth : Nat) (c : Int) (hc : 0 < c)
    (hhi : c + depth < 2 ^ 63) (p : Client V σ) (l : SinglyLinkedList V)
    (r : Invocation V σ) (hl : l.blockMod = c) (h : Client.run fuel depth p l = some r) :
    SameShape l r.ll := by
  induction depth generalizing c p l r with
  | zero =>
    refine Client.runWith_keeps_shape fuel _ c hc (by omega) ?_ p l r hl h
    intro q l2 r2 _ hr2
    cases hr2
  | succ depth ih =>
    have hinc : intWrap (c + 1) = c + 1 := intWrap_inc (by omega) (by push_cast at hhi; omega)
    refine Client.runWith_keeps_shape fuel _ c hc (by omega) ?_ p l r hl h
    intro q l2 r2 hl2 hr2
    rw [hinc] at hl2
    exact ih (c + 1) (by omega) (by push_cast at hhi ⊢; omega) q l2 r2 hl2 hr2

theorem keepsShapeAt_callback (fuel depth : Nat) (body : Nat → V → σ → Client V σ) (c : Int)
    (hc : 0 < c) (hhi : c + depth < 2 ^ 63) :
    KeepsShapeAt c (Client.callback fuel depth body) := by
  intro i v l s r hl hr
  exact Client.run_keeps_shape fuel depth c hc hhi _ l r hl hr

theorem keepsShapeAt_recordCalls {f : Callback V σ} {c : Int} (hf : KeepsShapeAt c f) :
    KeepsShapeAt c (recordCalls f) := by
  intro i v l s r hl hr
  simp only [recordCalls] at hr
  cases hfr : f i v l s.1 with
  | none => simp [hfr] at hr
  | some r1 =>
    simp only [hfr, Option.some.injEq] at hr
    rw [← hr]
    exact hf i v l s.1 r1 hl hfr

end ClientFacts

/-! ## Recorded traversals -/

section Recorded

variable {V σ : Type}

/-- Recording the invocations does not change the traversal. -/
theorem forEachLoop_recordCalls_erase (f : Callback V σ) (fuel : Nat) (l : SinglyLinkedList V)
    (cur : Option Nat) (i : Nat) (s : σ) (log : List (Call V)) :
    (forEachLoop (recordCalls f) fuel l cur i (s, log)).map
        (fun t => ({ ll := t.ll, st := t.st.1, ret := t.ret } : Traversal V σ))
      = forEachLoop f fuel l cur i s := by
  induction fuel generalizing l cur i s log with
  | zero => simp [forEachLoop]
  | succ fuel ih =>
    cases cur with
    | none => simp [forEachLoop]
    | some a =>
      cases hm : l.mem[a]? with
      | none => simp [forEachLoop, hm]
      | some n =>
        cases hf : f i n.Value l s with
        | none => simp [forEachLoop, hm, recordCalls, hf]
        | some r =>
          cases hret : r.ret with
          | fault e => simp [forEachLoop, hm, recordCalls, hf, hret]
          | ok b =>
            cases b with
            | true => simp [forEachLoop, hm, recordCalls, hf, hret]
            | false =>
              cases hm1 : r.ll.mem[a]? with
              | none => simp [forEachLoop, hm, recordCalls, hf, hret, hm1]
              | some n1 =>
                simp only [forEachLoop, hm, recordCalls, hf, hret, hm1]
                exact ih _ _ _ _ _

/-- The record of a traversal over a chain whose callback keeps the shape of the list:
the invocations are made on the nodes of the chain in order, with the indices counted up
and the value the node holds when the invocation begins; every invocation but the last
returns false, and a record shorter than the chain ends in an invocation that returned
true or panicked. -/
theorem forEachLoop_recordCalls_log (f : Callback V σ) (c : Int) (hf : KeepsShapeAt c f)
    (as : List Nat) (ys : List (Nat × V)) (fuel : Nat) (l : SinglyLinkedList V)
    (cur : Option Nat) (i0 : Nat) (s : σ) (log : List (Call V))
    (t : Traversal V (σ × List (Call V))) (has : ys.map Prod.fst = as)
    (hseg : IsSeg l.mem cur ys none) (hl : l.blockMod = c)
    (hrange : i0 + ys.length < uintSize)
    (h : forEachLoop (recordCalls f) fuel l cur i0 (s, log) = some t) :
    ∃ calls, t.st.2 = log ++ calls ∧ SameShape l t.ll ∧ calls.length ≤ as.length ∧
      (∀ k call, calls[k]? = some call →
        call.index = i0 + k ∧ SameShape l call.ll ∧
          ∃ a n, as[k]? = some a ∧ call.ll.mem[a]? = some n ∧ n.Value = call.value) ∧
      (∀ k call, calls[k]? = some call → k + 1 < calls.length → call.ret = .ok false) ∧
      (calls.length < as.length →
        ∃ m call, calls.length = m + 1 ∧ calls[m]? = some call ∧
          (call.ret = .ok true ∨ ∃ e, call.ret = .fault e)) := by
  induction as generalizing ys fuel l cur i0 s log with
  | nil =>
    have hys : ys = [] := by
      cases ys with
      | nil => rfl
      | cons y ys => simp at has
    subst hys
    rw [isSeg_nil] at hseg
    subst hseg
    cases fuel with
    | zero => simp [forEachLoop] at h
    | succ fuel =>
      simp only [forEachLoop, Option.some.injEq] at h
      rw [← h]
      exact ⟨[], by simp, sameShape_refl l, by simp, by simp, by simp, by simp⟩
  | cons a as ih =>
    cases ys with
    | nil => simp at has
    | cons y ys =>
      simp only [List.map_cons, List.cons.injEq] at has
      rcases has with ⟨hya, has⟩
      rcases hseg with ⟨hcur, nx, hm, hrest⟩
      rw [hya] at hcur hm
      simp only [List.length_cons] at hrange
      cases fuel with
      | zero => simp [forEachLoop] at h
      | succ fuel =>
        cases hfr : f i0 y.2 l s with
        | none => simp [forEachLoop, hcur, hm, recordCalls, hfr] at h
        | some r =>
          have hshape : SameShape l r.ll := hf i0 y.2 l s r hl hfr
          have hcall0 : ∀ res : Ret Bool,
              (({ index := i0, value := y.2, ll := l, ret := res } : Call V).index = i0 + 0 ∧
                SameShape l ({ index := i0, value := y.2, ll := l, ret := res } : Call V).ll ∧
                ∃ a2 n, (a :: as)[0]? = some a2 ∧
                  ({ index := i0, value := y.2, ll := l, ret := res } : Call V).ll.mem[a2]?
                    = some n ∧
                  n.Value = ({ index := i0, value := y.2, ll := l, ret := res } : Call V).value) :=
            fun res => ⟨rfl, sameShape_refl l, a, _, List.getElem?_cons_zero, hm, rfl⟩
          have hstop : ∀ res : Ret Bool, (res = .ok true ∨ ∃ e, res = .fault e) →
              t.st.2 = log ++ [{ index := i0, value := y.2, ll := l, ret := res }] →
              t.ll = r.ll →
              ∃ calls, t.st.2 = log ++ calls ∧ SameShape l t.ll ∧
                calls.length ≤ (a :: as).length ∧
                (∀ k call, calls[k]? = some call →
                  call.index = i0 + k ∧ SameShape l call.ll ∧
                    ∃ a2 n, (a :: as)[k]? = some a2 ∧ call.ll.mem[a2]? = some n ∧
                      n.Value = call.value) ∧
                (∀ k call, calls[k]? = some call → k + 1 < calls.length →
                  call.ret = .ok false) ∧
                (calls.length < (a :: as).length →
                  ∃ m call, calls.length = m + 1 ∧ calls[m]? = some call ∧
                    (call.ret = .ok true ∨ ∃ e, call.ret = .fault e)) := by
            intro res hres hlog hll
            refine ⟨[{ index := i0, value := y.2, ll := l, ret := res }], hlog, by
              rw [hll]; exact hshape, by simp, ?_, ?_, ?_⟩
            · intro k call hk
              cases k with
              | zero =>
                simp only [List.getElem?_cons_zero, Option.some.injEq] at hk
                rw [← hk]
                exact hcall0 res
              | succ k => simp at hk
            · intro k call _ hlt
              simp at hlt
            · intro _
              exact ⟨0, _, rfl, rfl, hres⟩
          cases hret : r.ret with
          | fault e =>
            simp only [forEachLoop, hcur, hm, recordCalls, hfr, hret, Option.some.injEq] at h
            exact hstop (.fault e) (Or.inr ⟨e, rfl⟩) (by rw [← h]) (by rw [← h])
          | ok b =>
            cases b with
            | true =>
              simp only [forEachLoop, hcur, hm, recordCalls, hfr, hret, Option.some.injEq] at h
              exact hstop (.ok true) (Or.inl rfl) (by rw [← h]) (by rw [← h])
            | false =>
              rcases node_of_same_links hshape.2.2.2.2 hm with ⟨n1, hm1, hnx1⟩
              simp only [forEachLoop, hcur, hm, recordCalls, hfr, hret, hm1] at h
              rcases isSeg_of_same_links hshape.2.2.2.2 hrest with ⟨ys1, hseg1, hmap1⟩
              have hlen1 : ys1.length = ys.length := by
                have := congrArg List.length hmap1
                simpa using this
              have hinc : uintInc i0 = i0 + 1 := uintInc_eq (by omega)
              rw [hnx1, hinc] at h
              rcases ih ys1 fuel r.ll nx (i0 + 1) r.st _ (hmap1.trans has) hseg1
                (hshape.2.2.2.1.trans hl) (by omega) h
                with ⟨calls, hlog, hsh, hlen, hidx, hfalse, hlast⟩
              refine ⟨{ index := i0, value := y.2, ll := l, ret := .ok false } :: calls, by
                rw [hlog]; simp, sameShape_trans hshape hsh, by simpa using hlen, ?_, ?_, ?_⟩
              · intro k call hk
                cases k with
                | zero =>
                  simp only [List.getElem?_cons_zero, Option.some.injEq] at hk
                  rw [← hk]
                  exact hcall0 (.ok false)
                | succ k =>
                  simp only [List.getElem?_cons_succ] at hk
                  rcases hidx k call hk with ⟨h1, h2, a2, n, h3, h4, h5⟩
                  exact ⟨by omega, sameShape_trans hshape h2, a2, n, by simpa using h3, h4, h5⟩
              · intro k call hk hlt
                cases k with
                | zero =>
                  simp only [List.getElem?_cons_zero, Option.some.injEq] at hk
                  rw [← hk]
                | succ k =>
                  simp only [List.getElem?_cons_succ] at hk
                  exact hfalse k call hk (by simpa using hlt)
              · intro hlt
                rcases hlast (by simpa using hlt) with ⟨m, call, hm2, hcm, hres⟩
                exact ⟨m + 1, call, by simp [hm2], by simpa using hcm, hres⟩

/-- A traversal over a chain returns once the fuel exceeds the chain length, when the
callback returns and keeps the shape of the list. -/
theorem forEachLoop_returns (f : Callback V σ) (c : Int) (hf : KeepsShapeAt c f)
    (hret : ∀ i v (l : SinglyLinkedList V) s, l.blockMod = c → ∃ r, f i v l s = some r)
    (as : List Nat) (ys : List (Nat × V)) (fuel : Nat) (l : SinglyLinkedList V)
    (cur : Option Nat) (i : Nat) (s : σ) (has : ys.map Prod.fst = as)
    (hseg : IsSeg l.mem cur ys none) (hl : l.blockMod = c) (hfuel : as.length < fuel) :
    ∃ t, forEachLoop f fuel l cur i s = some t := by
  induction as generalizing ys fuel l cur i s with
  | nil =>
    have hys : ys = [] := by
      cases ys with
      | nil => rfl
      | cons y ys => simp at has
    subst hys
    rw [isSeg_nil] at hseg
    subst hseg
    cases fuel with
    | zero => simp at hfuel
    | succ fuel => exact ⟨{ ll := l, st := s, ret := .ok () }, by simp only [forEachLoop]⟩
  | cons a as ih =>
    cases ys with
    | nil => simp at has
    | cons y ys =>
      simp only [List.map_cons, List.cons.injEq] at has
      rcases has with ⟨hya, has⟩
      rcases hseg with ⟨hcur, nx, hm, hrest⟩
      rw [hya] at hcur hm
      cases fuel with
      | zero => simp at hfuel
      | succ fuel =>
        rcases hret i y.2 l s hl with ⟨r, hfr⟩
        have hshape : SameShape l r.ll := hf i y.2 l s r hl hfr
        cases hr : r.ret with
        | fault e =>
          exact ⟨{ ll := r.ll, st := r.st, ret := .fault e }, by
            simp only [forEachLoop, hcur, hm, hfr, hr]⟩
        | ok b =>
          cases b with
          | true =>
            exact ⟨{ ll := r.ll, st := r.st, ret := .ok () }, by
              simp only [forEachLoop, hcur, hm, hfr, hr]⟩
          | false =>
            rcases node_of_same_links hshape.2.2.2.2 hm with ⟨n1, hm1, hnx1⟩
            rcases isSeg_of_same_links hshape.2.2.2.2 hrest with ⟨ys1, hseg1, hmap1⟩
            rcases ih ys1 fuel r.ll nx (uintInc i) r.st (hmap1.trans has) hseg1
              (hshape.2.2.2.1.trans hl) (by simpa using hfuel) with ⟨t, ht⟩
            exact ⟨t, by simp only [forEachLoop, hcur, hm, hfr, hr, hm1, hnx1, ht]⟩

/-- The record of a traversal whose callback never changes the list: every invocation
begins on the list the traversal started on. -/
theorem forEachLoop_recordCalls_unchanged (f : Callback V σ)
    (hro : ∀ i v (l : SinglyLinkedList V) s r, f i v l s = some r → r.ll = l)
    (fuel : Nat) (l : SinglyLinkedList V) (cur : Option Nat) (i : Nat) (s : σ)
    (log : List (Call V)) (t : Traversal V (σ × List (Call V)))
    (h : forEachLoop (recordCalls f) fuel l cur i (s, log) = some t) :
    t.ll = l ∧ ∀ call ∈ t.st.2, call ∈ log ∨ call.ll = l := by
  induction fuel generalizing cur i s log with
  | zero => simp [forEachLoop] at h
  | succ fuel ih =>
    cases cur with
    | none =>
      simp only [forEachLoop, Option.some.injEq] at h
      rw [← h]
      exact ⟨rfl, fun call hc => Or.inl hc⟩
    | some a =>
      cases hm : l.mem[a]? with
      | none =>
        simp only [forEachLoop, hm, Option.some.injEq] at h
        rw [← h]
        exact ⟨rfl, fun call hc => Or.inl hc⟩
      | some n =>
        cases hfr : f i n.Value l s with
        | none => simp [forEachLoop, hm, recordCalls, hfr] at h
        | some r =>
          have hrl : r.ll = l := hro i n.Value l s r hfr
          have hstop : ∀ call ∈ log ++ [Call.mk i n.Value l r.ret], call ∈ log ∨ call.ll = l := by
            intro call hc
            rcases List.mem_append.mp hc with hc | hc
            · exact Or.inl hc
            · right
              rw [List.mem_singleton.mp hc]
          cases hret : r.ret with
          | fault e =>
            simp only [forEachLoop, hm, recordCalls, hfr, hret, Option.some.injEq] at h
            rw [hret] at hstop
            rw [← h]
            exact ⟨hrl, hstop⟩
          | ok b =>
            cases b with
            | true =>
              simp only [forEachLoop, hm, recordCalls, hfr, hret, Option.some.injEq] at h
              rw [hret] at hstop
              rw [← h]
              exact ⟨hrl, hstop⟩
            | false =>
              rw [hret] at hstop
              simp only [forEachLoop, hm, recordCalls, hfr, hret, hrl] at h
              rcases ih _ _ _ _ h with ⟨h1, h2⟩
              refine ⟨h1, ?_⟩
              intro call hc
              rcases h2 call hc with hc | hc
              · exact hstop call hc
              · exact Or.inr hc

end Recorded

/-! ## Traversals with callbacks built from method calls -/

section GuardFacts

variable {V σ : Type}

/-- Every recorded invocation of a shape-keeping callback begins on a list of the shape
the loop started on. -/
theorem forEachLoop_recordCalls_states (f : Callback V σ) (c : Int) (hf : KeepsShapeAt c f)
    (fuel : Nat) (l : SinglyLinkedList V) (cur : Option Nat) (i : Nat) (s : σ)
    (log : List (Call V)) (t : Traversal V (σ × List (Call V))) (hl : l.blockMod = c)
    (h : forEachLoop (recordCalls f) fuel l cur i (s, log) = some t) :
    ∀ call ∈ t.st.2, call ∈ log ∨ SameShape l call.ll := by
  induction fuel generalizing l cur i s log with
  | zero => simp [forEachLoop] at h
  | succ fuel ih =>
    cases cur with
    | none =>
      simp only [forEachLoop, Option.some.injEq] at h
      rw [← h]
      exact fun call hc => Or.inl hc
    | some a =>
      cases hm : l.mem[a]? with
      | none =>
        simp only [forEachLoop, hm, Option.some.injEq] at h
        rw [← h]
        exact fun call hc => Or.inl hc
      | some n =>
        cases hfr : f i n.Value l s with
        | none => simp [forEachLoop, hm, recordCalls, hfr] at h
        | some r =>
          have hshape : SameShape l r.ll := hf i n.Value l s r hl hfr
          have hstop : ∀ call ∈ log ++ [Call.mk i n.Value l r.ret],
              call ∈ log ∨ SameShape l call.ll := by
            intro call hc
            rcases List.mem_append.mp hc with hc | hc
            · exact Or.inl hc
            · right
              rw [List.mem_singleton.mp hc]
              exact sameShape_refl l
          cases hret : r.ret with
          | fault e =>
            simp only [forEachLoop, hm, recordCalls, hfr, hret, Option.some.injEq] at h
            rw [hret] at hstop
            rw [← h]
            exact hstop
          | ok b =>
            cases b with
            | true =>
              simp only [forEachLoop, hm, recordCalls, hfr, hret, Option.some.injEq] at h
              rw [hret] at hstop
              rw [← h]
              exact hstop
            | false =>
              rw [hret] at hstop
              cases hm1 : r.ll.mem[a]? with
              | none =>
                simp only [forEachLoop, hm, recordCalls, hfr, hret, hm1,
                  Option.some.injEq] at h
                rw [← h]
                exact hstop
              | some n1 =>
                simp only [forEachLoop, hm, recordCalls, hfr, hret, hm1] at h
                intro call hc
                rcases ih _ _ _ _ _ (hshape.2.2.2.1.trans hl) h call hc with hc | hc
                · exact hstop call hc
                · exact Or.inr (sameShape_trans hshape hc)

/-- What `ForEach` with a recorded callback built from method calls does to the guard:
every invocation begins on a list of the shape of the list with the counter raised by
one, and the list left behind has the shape of the list before the call. -/
theorem forEach_recorded_guard (ll : SinglyLinkedList V) (fuel nfuel depth : Nat)
    (body : Nat → V → σ → Client V σ) (s : σ) (hlo : 0 ≤ ll.blockMod)
    (hhi : ll.blockMod + depth + 1 < 2 ^ 63) (t : Traversal V (σ × List (Call V)))
    (h : ll.ForEach fuel (recordCalls (Client.callback nfuel depth body)) (s, []) = some t) :
    (∀ call ∈ t.st.2, SameShape { ll with blockMod := ll.blockMod + 1 } call.ll) ∧
      SameShape ll t.ll := by
  have hinc : intWrap (ll.blockMod + 1) = ll.blockMod + 1 :=
    intWrap_inc (by omega) (by omega)
  have hkeep0 : KeepsShapeAt (intWrap (ll.blockMod + 1)) (Client.callback nfuel depth body) := by
    rw [hinc]
    exact keepsShapeAt_callback nfuel depth body _ (by omega) (by omega)
  have hkeep := keepsShapeAt_recordCalls hkeep0
  refine ⟨?_, forEach_keeps_shape _ ll (by omega) (by omega) hkeep fuel _ t h⟩
  simp only [SinglyLinkedList.ForEach] at h
  cases hloop : forEachLoop (recordCalls (Client.callback nfuel depth body)) fuel
      { ll with blockMod := intWrap (ll.blockMod + 1) } ll.head 0 (s, []) with
  | none => simp [hloop] at h
  | some t1 =>
    simp only [hloop, Option.some.injEq] at h
    intro call hcall
    rw [← h] at hcall
    rcases forEachLoop_recordCalls_states _ _ hkeep0 fuel _ _ _ _ _ t1 rfl hloop call hcall
      with hmem | hsh
    · cases hmem
    · rw [hinc] at hsh
      exact hsh

/-- Recording the invocations does not change what `ForEach` does. -/
theorem forEach_recordCalls_erase (f : Callback V σ) (ll : SinglyLinkedList V) (fuel : Nat)
    (s : σ) :
    (ll.ForEach fuel (recordCalls f) (s, [])).map
        (fun t => ({ ll := t.ll, st := t.st.1, ret := t.ret } : Traversal V σ))
      = ll.ForEach fuel f s := by
  have := forEachLoop_recordCalls_erase f fuel
    { ll with blockMod := intWrap (ll.blockMod + 1) } ll.head 0 s []
  simp only [SinglyLinkedList.ForEach]
  rw [← this]
  cases forEachLoop (recordCalls f) fuel { ll with blockMod := intWrap (ll.blockMod + 1) }
    ll.head 0 (s, []) with
  | none => rfl
  | some t => rfl

/-- On a chain that ends in `nil`, `ForEach` returns once the fuel exceeds the chain
length, when the callback returns and keeps the shape of the list. -/
theorem forEach_returns (f : Callback V σ) (ll : SinglyLinkedList V)
    (hf : KeepsShapeAt (intWrap (ll.blockMod + 1)) f)
    (hret : ∀ i v (l : SinglyLinkedList V) s, ∃ r, f i v l s = some r)
    (xs : List (Nat × V)) (hseg : IsSeg ll.mem ll.head xs none) (fuel : Nat)
    (hfuel : xs.length < fuel) (s : σ) : ∃ t, ll.ForEach fuel f s = some t := by
  rcases forEachLoop_returns f _ hf (fun i v l s _ => hret i v l s) (xs.map Prod.fst) xs fuel
    { ll with blockMod := intWrap (ll.blockMod + 1) } ll.head 0 s rfl hseg rfl
    (by simpa using hfuel) with ⟨t, ht⟩
  exact ⟨{ ll := { t.ll with blockMod := intWrap (t.ll.blockMod - 1) }, st := t.st,
           ret := t.ret }, by simp only [SinglyLinkedList.ForEach, ht]⟩

/-- The node at a position of a chain holds the value the chain lists there. -/
theorem isSeg_node_at {mem : List (singlyLinkedListNode V)} {xs : List (Nat × V)}
    {p q : Option Nat} (h : IsSeg mem p xs q) {k : Nat} {x : Nat × V} (hk : xs[k]? = some x) :
    ∃ nx, mem[x.1]? = some { Value := x.2, Next := nx } := by
  induction xs generalizing p k with
  | nil => simp at hk
  | cons y ys ih =>
    rcases h with ⟨_, nx, hm, hrest⟩
    cases k with
    | zero =>
      simp only [List.getElem?_cons_zero, Option.some.injEq] at hk
      rw [← hk]
      exact ⟨nx, hm⟩
    | succ k =>
      simp only [List.getElem?_cons_succ] at hk
      exact ih hrest hk

end GuardFacts

/-! ## The claims on the guard, the order of invocations and the empty list -/

section ClaimsGuard

/-- C8: for every list whose reentrancy counter is not negative and every callback whose
body uses the list through its methods (`Count`, `Get`, `Set`, `InsertAt`, `DeleteAt`,
`ForEach`, with traversals nested up to `depth` deep, the counter staying an `int`),
`ForEach` begins every callback invocation with the counter at its pre-call value plus
one, hence strictly positive, and with `head`, `tail` and `size` as before the call; in
that state `InsertAt` and `DeleteAt` panic with the reentrant-mutation panic and change
nothing, and a `ForEach` called from within the invocation begins its own invocations with
the counter at the pre-call value plus two and leaves it at plus one.  Whenever `ForEach`
leaves, be it at the end of the chain, after the callback returned true or through a
panic of the callback, the counter is back at its pre-call value and `head`, `tail` and
`size` are unchanged.  Recording the invocations does not alter the traversal, and on a
chain that ends in `nil`, with a callback that returns, `ForEach` returns once the fuel
exceeds the chain length. -/
theorem ForEach_scopes_guard {V σ : Type} (ll : SinglyLinkedList V) (fuel nfuel depth : Nat)
    (body : Nat → V → σ → Client V σ) (s : σ) (hlo : 0 ≤ ll.blockMod)
    (hhi : ll.blockMod + depth + 2 < 2 ^ 63) :
    (∀ t, ll.ForEach fuel (recordCalls (Client.callback nfuel depth body)) (s, []) = some t →
        (∀ call ∈ t.st.2,
          call.ll.blockMod = ll.blockMod + 1 ∧ 0 < call.ll.blockMod ∧
          call.ll.head = ll.head ∧ call.ll.tail = ll.tail ∧ call.ll.size = ll.size ∧
          (∀ i v, call.ll.InsertAt i v = { ll := call.ll, ret := .fault .reentrantMutation } ∧
            call.ll.DeleteAt i = { ll := call.ll, ret := .fault .reentrantMutation }) ∧
          (∀ (fuel2 : Nat) (body2 : Nat → V → σ → Client V σ) (s2 : σ) t2,
            call.ll.ForEach fuel2 (recordCalls (Client.callback nfuel depth body2)) (s2, [])
              = some t2 →
            (∀ call2 ∈ t2.st.2,
              call2.ll.blockMod = ll.blockMod + 2 ∧ 0 < call2.ll.blockMod ∧
              call2.ll.head = ll.head ∧ call2.ll.tail = ll.tail ∧ call2.ll.size = ll.size) ∧
            t2.ll.blockMod = ll.blockMod + 1 ∧ t2.ll.head = ll.head ∧
            t2.ll.tail = ll.tail ∧ t2.ll.size = ll.size)) ∧
        t.ll.blockMod = ll.blockMod ∧ t.ll.head = ll.head ∧ t.ll.tail = ll.tail ∧
        t.ll.size = ll.size) ∧
      (ll.ForEach fuel (recordCalls (Client.callback nfuel depth body)) (s, [])).map
          (fun t => ({ ll := t.ll, st := t.st.1, ret := t.ret } : Traversal V σ))
        = ll.ForEach fuel (Client.callback nfuel depth body) s ∧
      ((∀ i v (l : SinglyLinkedList V) s1, ∃ r, Client.callback nfuel depth body i v l s1 = some r) →
        ∀ xs, IsSeg ll.mem ll.head xs none → xs.length < fuel →
          ∃ t, ll.ForEach fuel (Client.callback nfuel depth body) s = some t) := by
  refine ⟨?_, forEach_recordCalls_erase _ ll fuel s, ?_⟩
  · intro t ht
    rcases forEach_recorded_guard ll fuel nfuel depth body s hlo (by omega) t ht
      with ⟨hcalls, ⟨h1, h2, h3, h4, _⟩⟩
    refine ⟨?_, h4, h1, h2, h3⟩
    intro call hcall
    rcases hcalls call hcall with ⟨c1, c2, c3, c4, _⟩
    have hb : call.ll.blockMod = ll.blockMod + 1 := c4
    have hpos : 0 < call.ll.blockMod := by omega
    refine ⟨hb, hpos, c1, c2, c3, ?_, ?_⟩
    · intro i v
      exact ⟨insertAt_state_guarded _ i v hpos, deleteAt_state_guarded _ i hpos⟩
    · intro fuel2 body2 s2 t2 ht2
      rcases forEach_recorded_guard call.ll fuel2 nfuel depth body2 s2 (by omega) (by omega)
        t2 ht2 with ⟨hcalls2, ⟨k1, k2, k3, k4, _⟩⟩
      refine ⟨?_, k4.trans hb, k1.trans c1, k2.trans c2, k3.trans c3⟩
      intro call2 hcall2
      rcases hcalls2 call2 hcall2 with ⟨d1, d2, d3, d4, _⟩
      have hb2 : call2.ll.blockMod = call.ll.blockMod + 1 := d4
      exact ⟨by omega, by omega, d1.trans c1, d2.trans c2, d3.trans c3⟩
  · intro hret xs hseg hfuel
    have hinc : intWrap (ll.blockMod + 1) = ll.blockMod + 1 :=
      intWrap_inc (by omega) (by omega)
    refine forEach_returns _ ll ?_ hret xs hseg fuel hfuel s
    rw [hinc]
    exact keepsShapeAt_callback nfuel depth body _ (by omega) (by omega)

/-- C8 at the list [1, 2] inside one active traversal, with a callback that tries
InsertAt(0, 7), overwrites the value of its own node and stops at index 1. -/
theorem ForEach_scopes_guard_witness :
    (∀ t, (SinglyLinkedList.mk [⟨(1 : Nat), some 1⟩, ⟨2, none⟩] (some 0) (some 1) 2 1).ForEach 3
          (recordCalls (Client.callback 3 1 (fun i _ (n : Nat) =>
            Client.insertAt 0 7 (fun _ => .set i 9 (fun _ => .ret (n + 1) (decide (i = 1)))))))
          (0, []) = some t →
        (∀ call ∈ t.st.2,
          call.ll.blockMod
              = (SinglyLinkedList.mk [⟨(1 : Nat), some 1⟩, ⟨2, none⟩] (some 0) (some 1) 2
                  1).blockMod + 1 ∧
          0 < call.ll.blockMod ∧
          call.ll.head
              = (SinglyLinkedList.mk [⟨(1 : Nat), some 1⟩, ⟨2, none⟩] (some 0) (some 1) 2 1).head ∧
          call.ll.tail
              = (SinglyLinkedList.mk [⟨(1 : Nat), some 1⟩, ⟨2, none⟩] (some 0) (some 1) 2 1).tail ∧
          call.ll.size
              = (SinglyLinkedList.mk [⟨(1 : Nat), some 1⟩, ⟨2, none⟩] (some 0) (some 1) 2 1).size ∧
          (∀ i v, call.ll.InsertAt i v = { ll := call.ll, ret := .fault .reentrantMutation } ∧
            call.ll.DeleteAt i = { ll := call.ll, ret := .fault .reentrantMutation }) ∧
          (∀ (fuel2 : Nat) (body2 : Nat → Nat → Nat → Client Nat Nat) (s2 : Nat) t2,
            call.ll.ForEach fuel2 (recordCalls (Client.callback 3 1 body2)) (s2, []) = some t2 →
            (∀ call2 ∈ t2.st.2,
              call2.ll.blockMod
                  = (SinglyLinkedList.mk [⟨(1 : Nat), some 1⟩, ⟨2, none⟩] (some 0) (some 1) 2
                      1).blockMod + 2 ∧
              0 < call2.ll.blockMod ∧
              call2.ll.head
                  = (SinglyLinkedList.mk [⟨(1 : Nat), some 1⟩, ⟨2, none⟩] (some 0) (some 1) 2
                      1).head ∧
              call2.ll.tail
                  = (SinglyLinkedList.mk [⟨(1 : Nat), some 1⟩, ⟨2, none⟩] (some 0) (some 1) 2
                      1).tail ∧
              call2.ll.size
                  = (SinglyLinkedList.mk [⟨(1 : Nat), some 1⟩, ⟨2, none⟩] (some 0) (some 1) 2
                      1).size) ∧
            t2.ll.blockMod
                = (SinglyLinkedList.mk [⟨(1 : Nat), some 1⟩, ⟨2, none⟩] (some 0) (some 1) 2
                    1).blockMod + 1 ∧
            t2.ll.head
                = (SinglyLinkedList.mk [⟨(1 : Nat), some 1⟩, ⟨2, none⟩] (some 0) (some 1) 2 1).head ∧
            t2.ll.tail
                = (SinglyLinkedList.mk [⟨(1 : Nat), some 1⟩, ⟨2, none⟩] (some 0) (some 1) 2 1).tail ∧
            t2.ll.size
                = (SinglyLinkedList.mk [⟨(1 : Nat), some 1⟩, ⟨2, none⟩] (some 0) (some 1) 2
                    1).size)) ∧
        t.ll.blockMod
            = (SinglyLinkedList.mk [⟨(1 : Nat), some 1⟩, ⟨2, none⟩] (some 0) (some 1) 2 1).blockMod ∧
        t.ll.head
            = (SinglyLinkedList.mk [⟨(1 : Nat), some 1⟩, ⟨2, none⟩] (some 0) (some 1) 2 1).head ∧
        t.ll.tail
            = (SinglyLinkedList.mk [⟨(1 : Nat), some 1⟩, ⟨2, none⟩] (some 0) (some 1) 2 1).tail ∧
        t.ll.size
            = (SinglyLinkedList.mk [⟨(1 : Nat), some 1⟩, ⟨2, none⟩] (some 0) (some 1) 2 1).size) ∧
      ((SinglyLinkedList.mk [⟨(1 : Nat), some 1⟩, ⟨2, none⟩] (some 0) (some 1) 2 1).ForEach 3
          (recordCalls (Client.callback 3 1 (fun i _ (n : Nat) =>
            Client.insertAt 0 7 (fun _ => .set i 9 (fun _ => .ret (n + 1) (decide (i = 1)))))))
          (0, [])).map
          (fun t => ({ ll := t.ll, st := t.st.1, ret := t.ret } : Traversal Nat Nat))
        = (SinglyLinkedList.mk [⟨(1 : Nat), some 1⟩, ⟨2, none⟩] (some 0) (some 1) 2 1).ForEach 3
            (Client.callback 3 1 (fun i _ (n : Nat) =>
              Client.insertAt 0 7 (fun _ => .set i 9 (fun _ => .ret (n + 1) (decide (i = 1))))))
            0 ∧
      ((∀ i v (l : SinglyLinkedList Nat) s1,
          ∃ r, Client.callback 3 1 (fun i _ (n : Nat) =>
            Client.insertAt 0 7 (fun _ => .set i 9 (fun _ => .ret (n + 1) (decide (i = 1)))))
            i v l s1 = some r) →
        ∀ xs, IsSeg (SinglyLinkedList.mk [⟨(1 : Nat), some 1⟩, ⟨2, none⟩] (some 0) (some 1) 2 1).mem
            (SinglyLinkedList.mk [⟨(1 : Nat), some 1⟩, ⟨2, none⟩] (some 0) (some 1) 2 1).head
            xs none → xs.length < 3 →
          ∃ t, (SinglyLinkedList.mk [⟨(1 : Nat), some 1⟩, ⟨2, none⟩] (some 0) (some 1) 2
              1).ForEach 3
            (Client.callback 3 1 (fun i _ (n : Nat) =>
              Client.insertAt 0 7 (fun _ => .set i 9 (fun _ => .ret (n + 1) (decide (i = 1))))))
            0 = some t) :=
  ForEach_scopes_guard (SinglyLinkedList.mk [⟨(1 : Nat), some 1⟩, ⟨2, none⟩] (some 0) (some 1) 2 1)
    3 3 1 (fun i _ (n : Nat) =>
      Client.insertAt 0 7 (fun _ => .set i 9 (fun _ => .ret (n + 1) (decide (i = 1)))))
    0 (by decide) (by decide)

/-- C12, as stated, fails: on the list [1, 2, 3] (ToSlice() = [1, 2, 3]) a callback that
calls Set(1, 99) during its invocation at index 0 and never stops the traversal is then
invoked on (1, 99), not on (1, 2): `Set` is not guarded and the loop reads the value of a
node when it reaches it. -/
theorem ForEach_passes_overwritten_value :
    ((SinglyLinkedList.mk [⟨(1 : Nat), some 1⟩, ⟨2, some 2⟩, ⟨3, none⟩] (some 0) (some 2) 3
        0).ToSlice 4).map (fun o => o.ret) = some (.ok [1, 2, 3]) ∧
      ((SinglyLinkedList.mk [⟨(1 : Nat), some 1⟩, ⟨2, some 2⟩, ⟨3, none⟩] (some 0) (some 2) 3
          0).ForEach 4 (recordCalls (Client.callback 0 0
            (fun i _ (s : Unit) => if i = 0 then Client.set 1 99 (fun _ => .ret s false)
              else .ret s false))) ((), [])).map
          (fun t => t.st.2.map (fun c => (c.index, c.value)))
        = some [(0, 1), (1, 99), (2, 3)] ∧
      ((SinglyLinkedList.mk [⟨(1 : Nat), some 1⟩, ⟨2, some 2⟩, ⟨3, none⟩] (some 0) (some 2) 3
          0).ForEach 4 (recordCalls (Client.callback 0 0
            (fun i _ (s : Unit) => if i = 0 then Client.set 1 99 (fun _ => .ret s false)
              else .ret s false))) ((), [])).map
          (fun t => t.st.2.map (fun c => (c.index, c.value)))
        ≠ some ([1, 2, 3].enum) := by
  decide

end ClaimsGuard

section ClaimsOrder

/-- C12, amended: on a list whose chain from `head` holds the elements e0, ..., e(n-1)
and ends in `nil`, with a callback whose body uses the list through its methods,
`ForEach` invokes the callback on the indices 0, 1, ... in this order, passing at index
k the value that node k holds when the invocation begins, which is what `Get(k)` returns
at that moment; this is e_k when the callback does not change the list, while an earlier
invocation that called `Set(k, v)` makes it `v`.  Every invocation but the last returns
false, an invocation that returns true is the last one, and when fewer than n invocations
are made the last one returned true or panicked: the callback is invoked on exactly the
indices 0..k, with k the least index at which it does not return false, or on all n
elements, and on no later element.  Recording the invocations does not alter the
traversal, and with a callback that returns, `ForEach` returns once the fuel exceeds n.
The chain has fewer than 2^64 nodes, and the reentrancy counter is not negative and stays
an `int` in the nested traversals. -/
theorem ForEach_visits_in_order_until_stop {V σ : Type} (ll : SinglyLinkedList V)
    (xs : List (Nat × V)) (fuel nfuel depth : Nat) (body : Nat → V → σ → Client V σ) (s : σ)
    (hseg : IsSeg ll.mem ll.head xs none) (hlen : xs.length < uintSize)
    (hlo : 0 ≤ ll.blockMod) (hhi : ll.blockMod + depth + 1 < 2 ^ 63) :
    (∀ t : Traversal V (σ × List (Call V)), ll.ForEach fuel (recordCalls (Client.callback nfuel depth body)) (s, []) = some t →
        t.st.2.length ≤ xs.length ∧
        (∀ (k : Nat) (call : Call V), t.st.2[k]? = some call →
          call.index = k ∧ call.ll.Get k = { ll := call.ll, ret := .ok call.value }) ∧
        (∀ (k : Nat) (call : Call V), t.st.2[k]? = some call → k + 1 < t.st.2.length → call.ret = .ok false) ∧
        (∀ (k : Nat) (call : Call V), t.st.2[k]? = some call → call.ret = .ok true → k + 1 = t.st.2.length) ∧
        (t.st.2.length < xs.length →
          ∃ (m : Nat) (call : Call V), t.st.2.length = m + 1 ∧ t.st.2[m]? = some call ∧
            (call.ret = .ok true ∨ ∃ e, call.ret = .fault e)) ∧
        ((∀ i v (l : SinglyLinkedList V) s1 r,
            Client.callback nfuel depth body i v l s1 = some r → r.ll = l) →
          ∀ (k : Nat) (call : Call V), t.st.2[k]? = some call → xs[k]?.map Prod.snd = some call.value)) ∧
      (ll.ForEach fuel (recordCalls (Client.callback nfuel depth body)) (s, [])).map
          (fun t => ({ ll := t.ll, st := t.st.1, ret := t.ret } : Traversal V σ))
        = ll.ForEach fuel (Client.callback nfuel depth body) s ∧
      ((∀ i v (l : SinglyLinkedList V) s1, ∃ r, Client.callback nfuel depth body i v l s1 = some r) →
        xs.length < fuel → ∃ t, ll.ForEach fuel (Client.callback nfuel depth body) s = some t) := by
  have hinc : intWrap (ll.blockMod + 1) = ll.blockMod + 1 :=
    intWrap_inc (by omega) (by omega)
  have hkeep : KeepsShapeAt (intWrap (ll.blockMod + 1)) (Client.callback nfuel depth body) := by
    rw [hinc]
    exact keepsShapeAt_callback nfuel depth body _ (by omega) (by omega)
  refine ⟨?_, forEach_recordCalls_erase _ ll fuel s, ?_⟩
  · intro t ht
    simp only [SinglyLinkedList.ForEach] at ht
    cases hloop : forEachLoop (recordCalls (Client.callback nfuel depth body)) fuel
        { ll with blockMod := intWrap (ll.blockMod + 1) } ll.head 0 (s, []) with
    | none => simp [hloop] at ht
    | some t1 =>
      simp only [hloop, Option.some.injEq] at ht
      rcases forEachLoop_recordCalls_log _ _ hkeep (xs.map Prod.fst) xs fuel
        { ll with blockMod := intWrap (ll.blockMod + 1) } ll.head 0 s [] t1 rfl hseg rfl
        (by omega) hloop with ⟨calls, hlog, _, hlen2, hidx, hfalse, hlast⟩
      have hst : t.st.2 = calls := by
        rw [← ht]
        simpa using hlog
      rw [hst]
      refine ⟨by simpa using hlen2, ?_, hfalse, ?_, ?_, ?_⟩
      · intro k call hk
        rcases hidx k call hk with ⟨hi, hsh, a, n, ha, hn, hv⟩
        refine ⟨by omega, ?_⟩
        rcases isSeg_of_same_links hsh.2.2.2.2 hseg with ⟨xs2, hseg2, hmap2⟩
        have hx2 : ∃ x2, xs2[k]? = some x2 ∧ x2.1 = a := by
          have h1 : (xs2.map Prod.fst)[k]? = some a := by rw [hmap2]; exact ha
          rw [List.getElem?_map] at h1
          cases hx : xs2[k]? with
          | none => simp [hx] at h1
          | some x2 => exact ⟨x2, rfl, by simpa [hx] using h1⟩
        rcases hx2 with ⟨x2, hx2, hx2a⟩
        rcases isSeg_node_at hseg2 hx2 with ⟨nx, hnode⟩
        rw [hx2a, hn] at hnode
        have hval : x2.2 = call.value := by
          rw [← hv]
          have := congrArg singlyLinkedListNode.Value (Option.some.inj hnode)
          exact this.symm
        have hhead : call.ll.head = ll.head := hsh.1
        rw [← hhead] at hseg2
        rw [← hval]
        exact get_at hseg2 hx2
      · intro k call hk htrue
        have hklt : k < calls.length := (List.getElem?_eq_some_iff.mp hk).1
        rcases Nat.lt_or_ge (k + 1) calls.length with hlt | hge
        · rw [hfalse k call hk hlt] at htrue
          cases htrue
        · omega
      · intro hshort
        exact hlast (by simpa using hshort)
      · intro hro k call hk
        rcases hidx k call hk with ⟨_, _, a, n, ha, hn, hv⟩
        rcases forEachLoop_recordCalls_unchanged _ hro fuel _ _ _ _ _ t1 hloop with ⟨_, hsame⟩
        have hcall : call ∈ t1.st.2 := by
          rw [hlog]
          simpa using List.mem_iff_getElem?.mpr ⟨k, hk⟩
        rcases hsame call hcall with hmem | hll
        · cases hmem
        · rw [hll] at hn
          rw [List.getElem?_map] at ha
          cases hx : xs[k]? with
          | none => simp [hx] at ha
          | some x =>
            have hxa : x.1 = a := by simpa [hx] using ha
            rcases isSeg_node_at hseg hx with ⟨nx, hnode⟩
            rw [hxa] at hnode
            have hnode2 : ll.mem[a]? = some n := hn
            rw [hnode2] at hnode
            have := congrArg singlyLinkedListNode.Value (Option.some.inj hnode)
            simp only [Option.map_some', Option.some.injEq]
            rw [← hv]
            exact this.symm
  · intro hret hfuel
    exact forEach_returns _ ll hkeep hret xs hseg fuel hfuel s

/-- C12, amended, at the list [1, 2, 3] with a callback that calls Set(1, 99) at index 0
and stops at index 1. -/
theorem ForEach_visits_in_order_until_stop_witness :
    (∀ t : Traversal Nat (Nat × List (Call Nat)), (SinglyLinkedList.mk [⟨(1 : Nat), some 1⟩, ⟨2, some 2⟩, ⟨3, none⟩] (some 0) (some 2) 3
          0).ForEach 4 (recordCalls (Client.callback 4 1 (fun i _ (n : Nat) =>
            if i = 0 then Client.set 1 99 (fun _ => .ret (n + 1) false)
            else .ret (n + 1) (decide (i = 1))))) (0, []) = some t →
        t.st.2.length ≤ [(0, (1 : Nat)), (1, 2), (2, 3)].length ∧
        (∀ (k : Nat) (call : Call Nat), t.st.2[k]? = some call →
          call.index = k ∧ call.ll.Get k = { ll := call.ll, ret := .ok call.value }) ∧
        (∀ (k : Nat) (call : Call Nat), t.st.2[k]? = some call → k + 1 < t.st.2.length → call.ret = .ok false) ∧
        (∀ (k : Nat) (call : Call Nat), t.st.2[k]? = some call → call.ret = .ok true → k + 1 = t.st.2.length) ∧
        (t.st.2.length < [(0, (1 : Nat)), (1, 2), (2, 3)].length →
          ∃ (m : Nat) (call : Call Nat), t.st.2.length = m + 1 ∧ t.st.2[m]? = some call ∧
            (call.ret = .ok true ∨ ∃ e, call.ret = .fault e)) ∧
        ((∀ i v (l : SinglyLinkedList Nat) s1 r,
            Client.callback 4 1 (fun i _ (n : Nat) =>
              if i = 0 then Client.set 1 99 (fun _ => .ret (n + 1) false)
              else .ret (n + 1) (decide (i = 1))) i v l s1 = some r → r.ll = l) →
          ∀ (k : Nat) (call : Call Nat), t.st.2[k]? = some call →
            [(0, (1 : Nat)), (1, 2), (2, 3)][k]?.map Prod.snd = some call.value)) ∧
      ((SinglyLinkedList.mk [⟨(1 : Nat), some 1⟩, ⟨2, some 2⟩, ⟨3, none⟩] (some 0) (some 2) 3
          0).ForEach 4 (recordCalls (Client.callback 4 1 (fun i _ (n : Nat) =>
            if i = 0 then Client.set 1 99 (fun _ => .ret (n + 1) false)
            else .ret (n + 1) (decide (i = 1))))) (0, [])).map
          (fun t => ({ ll := t.ll, st := t.st.1, ret := t.ret } : Traversal Nat Nat))
        = (SinglyLinkedList.mk [⟨(1 : Nat), some 1⟩, ⟨2, some 2⟩, ⟨3, none⟩] (some 0) (some 2) 3
            0).ForEach 4 (Client.callback 4 1 (fun i _ (n : Nat) =>
              if i = 0 then Client.set 1 99 (fun _ => .ret (n + 1) false)
              else .ret (n + 1) (decide (i = 1)))) 0 ∧
      ((∀ i v (l : SinglyLinkedList Nat) s1,
          ∃ r, Client.callback 4 1 (fun i _ (n : Nat) =>
            if i = 0 then Client.set 1 99 (fun _ => .ret (n + 1) false)
            else .ret (n + 1) (decide (i = 1))) i v l s1 = some r) →
        [(0, (1 : Nat)), (1, 2), (2, 3)].length < 4 →
        ∃ t, (SinglyLinkedList.mk [⟨(1 : Nat), some 1⟩, ⟨2, some 2⟩, ⟨3, none⟩] (some 0) (some 2) 3
            0).ForEach 4 (Client.callback 4 1 (fun i _ (n : Nat) =>
              if i = 0 then Client.set 1 99 (fun _ => .ret (n + 1) false)
              else .ret (n + 1) (decide (i = 1)))) 0 = some t) :=
  ForEach_visits_in_order_until_stop
    (SinglyLinkedList.mk [⟨(1 : Nat), some 1⟩, ⟨2, some 2⟩, ⟨3, none⟩] (some 0) (some 2) 3 0)
    [(0, 1), (1, 2), (2, 3)] 4 4 1
    (fun i _ (n : Nat) =>
      if i = 0 then Client.set 1 99 (fun _ => .ret (n + 1) false)
      else .ret (n + 1) (decide (i = 1)))
    0 ⟨rfl, some 1, rfl, rfl, some 2, rfl, rfl, none, rfl, rfl⟩ (by decide) (by decide)
    (by decide)

/-- C14: on an empty list (`head` is nil) with no traversal active, `DeleteAt(0)` returns
without a panic and leaves the list exactly as it was: `Count()`, `head`, `tail` (also a
stale one, left behind by earlier deletions) and the reentrancy counter are unchanged.
When `size` is the number of nodes of the chain, the list is empty exactly when `Count()`
is 0, and `Count()` stays 0. -/
theorem DeleteAt_zero_on_empty_is_noop {V : Type} (ll : SinglyLinkedList V)
    (hempty : ll.head = none) (hb : ll.blockMod ≤ 0) :
    ll.DeleteAt 0 = { ll := ll, ret := .ok () } ∧
      (ll.DeleteAt 0).ll.Count = ll.Count ∧
      (∀ xs, IsSeg ll.mem ll.head xs none → ll.size = xs.length →
        ll.Count = 0 ∧ (ll.DeleteAt 0).ll.Count = 0) := by
  have hres := deleteAt_zero_of_head_nil hempty hb
  rw [hres]
  refine ⟨rfl, rfl, ?_⟩
  intro xs hseg hsize
  have hxs : xs = [] := by
    cases xs with
    | nil => rfl
    | cons x xs =>
      rcases hseg with ⟨hp, _⟩
      rw [hempty] at hp
      cases hp
  have : ll.Count = 0 := by
    show ll.size = 0
    rw [hsize, hxs]
    rfl
  exact ⟨this, this⟩

/-- C14 at the list left by InsertHead(1), DeleteAt(0): `head` is nil, `tail` still points
to the removed node. -/
theorem DeleteAt_zero_on_empty_is_noop_witness :
    (SinglyLinkedList.mk [⟨(1 : Nat), none⟩] none (some 0) 0 0).DeleteAt 0
        = { ll := SinglyLinkedList.mk [⟨(1 : Nat), none⟩] none (some 0) 0 0, ret := .ok () } ∧
      ((SinglyLinkedList.mk [⟨(1 : Nat), none⟩] none (some 0) 0 0).DeleteAt 0).ll.Count
        = (SinglyLinkedList.mk [⟨(1 : Nat), none⟩] none (some 0) 0 0).Count ∧
      (∀ xs, IsSeg (SinglyLinkedList.mk [⟨(1 : Nat), none⟩] none (some 0) 0 0).mem
          (SinglyLinkedList.mk [⟨(1 : Nat), none⟩] none (some 0) 0 0).head xs none →
        (SinglyLinkedList.mk [⟨(1 : Nat), none⟩] none (some 0) 0 0).size = xs.length →
        (SinglyLinkedList.mk [⟨(1 : Nat), none⟩] none (some 0) 0 0).Count = 0 ∧
          ((SinglyLinkedList.mk [⟨(1 : Nat), none⟩] none (some 0) 0 0).DeleteAt 0).ll.Count = 0) :=
  DeleteAt_zero_on_empty_is_noop (SinglyLinkedList.mk [⟨(1 : Nat), none⟩] none (some 0) 0 0)
    rfl (by decide)

end ClaimsOrder

end Datastruct

namespace Generic

/-! ## The copying filter -/

section Copying

variable {T : Type}

/-- The loop of `FilterSlice` appends to `new` the elements the filter accepts, each
being passed with its index. -/
theorem filterSliceLoop_eq (filter : Nat → T → Bool) (i : Nat) (rest new : List T) :
    filterSliceLoop filter i rest new
      = new ++ ((List.enumFrom i rest).filter (fun p => filter p.1 p.2)).map Prod.snd := by
  induction rest generalizing i new with
  | nil => simp [filterSliceLoop]
  | cons v rest ih =>
    rw [filterSliceLoop, ih, List.enumFrom_cons]
    by_cases h : filter i v = true
    · simp [h, List.filter_cons]
    · simp [h, List.filter_cons]

theorem filterSlice_ignoring_index (input : List T) (keep : T → Bool) :
    (FilterSlice input (fun _ v => keep v)).output = input.filter keep := by
  have hgen : ∀ (i : Nat) (l : List T),
      ((List.enumFrom i l).filter (fun p => keep p.2)).map Prod.snd = l.filter keep := by
    intro i l
    induction l generalizing i with
    | nil => rfl
    | cons v l ih =>
      rw [List.enumFrom_cons]
      by_cases h : keep v = true
      · simp [List.filter_cons, h, ih]
      · simp [List.filter_cons, h, ih]
  simp only [FilterSlice, filterSliceLoop_eq, List.nil_append]
  exact hgen 0 input

end Copying

/-! ## The in-place filter -/

section InPlace

variable {T : Type}

/-- Either nothing in a list is kept, or the list splits at its last kept element. -/
theorem split_last_kept (keep : T → Bool) (rest : List T) :
    (∀ z ∈ rest, keep z = false) ∨
      ∃ mid y cut, rest = mid ++ y :: cut ∧ keep y = true ∧ ∀ z ∈ cut, keep z = false := by
  induction rest with
  | nil => exact Or.inl (by simp)
  | cons a rest ih =>
    rcases ih with hall | ⟨mid, y, cut, hsplit, hy, hcut⟩
    · by_cases ha : keep a = true
      · exact Or.inr ⟨[], a, rest, rfl, ha, hall⟩
      · refine Or.inl ?_
        intro z hz
        rcases List.mem_cons.mp hz with rfl | hz
        · simpa using ha
        · exact hall z hz
    · exact Or.inr ⟨a :: mid, y, cut, by rw [hsplit]; rfl, hy, hcut⟩

/-- The inner loop walks down over rejected elements, calling the filter on each. -/
theorem filterInPlaceInner_skip (keep : T → Bool) (i : Nat) (pre cut : List T)
    (hcut : ∀ z ∈ cut, keep z = false) (hi : i < pre.length) (junk : List T)
    (calls : List (Nat × T)) :
    filterInPlaceInner keep i (pre.length + cut.length) (pre ++ cut ++ junk) calls
      = filterInPlaceInner keep i pre.length (pre ++ cut ++ junk)
          (calls ++ (List.enumFrom pre.length cut).reverse) := by
  induction cut using List.reverseRecOn generalizing junk calls with
  | nil => simp
  | append_singleton cut z ih =>
    have hz : keep z = false := hcut z (by simp)
    have hcut2 : ∀ w ∈ cut, keep w = false := fun w hw => hcut w (by simp [hw])
    have hlen : pre.length + (cut ++ [z]).length = (pre.length + cut.length) + 1 := by
      simp only [List.length_append, List.length_cons, List.length_nil]
      omega
    have hget : (pre ++ (cut ++ [z]) ++ junk)[pre.length + cut.length]? = some z := by
      have : pre ++ (cut ++ [z]) ++ junk = (pre ++ cut) ++ z :: junk := by simp
      rw [this, List.getElem?_append_right (by simp)]
      simp
    have hne : ¬ pre.length + cut.length = i := by omega
    rw [hlen, filterInPlaceInner, if_neg hne, hget]
    simp only [hz]
    have harr : pre ++ (cut ++ [z]) ++ junk = pre ++ cut ++ ([z] ++ junk) := by simp
    rw [harr, ih hcut2 ([z] ++ junk)]
    rw [List.enumFrom_append]
    simp

/-- The inner loop stops at the front cursor when nothing behind it is kept. -/
theorem filterInPlaceInner_none (keep : T → Bool) (done : List T) (x : T) (rest junk : List T)
    (hrest : ∀ z ∈ rest, keep z = false) (calls : List (Nat × T)) :
    filterInPlaceInner keep done.length (done.length + (rest.length + 1))
        (done ++ x :: rest ++ junk) calls
      = .returned { input := done ++ x :: rest ++ junk, length := done.length,
                    calls := calls ++ (List.enumFrom (done.length + 1) rest).reverse } := by
  have hskip := filterInPlaceInner_skip keep done.length (done ++ [x]) rest hrest (by simp) junk
    calls
  have e1 : (done ++ [x]).length + rest.length = done.length + (rest.length + 1) := by
    simp only [List.length_append, List.length_cons, List.length_nil]
    omega
  have e2 : done ++ [x] ++ rest ++ junk = done ++ x :: rest ++ junk := by simp
  have e3 : (done ++ [x]).length = done.length + 1 := by simp
  rw [e1, e2, e3] at hskip
  rw [hskip, filterInPlaceInner, if_pos rfl]

/-- The inner loop moves the last kept element behind the front cursor to the front. -/
theorem filterInPlaceInner_some (keep : T → Bool) (done : List T) (x y : T)
    (mid cut junk : List T) (hy : keep y = true) (hcut : ∀ z ∈ cut, keep z = false)
    (calls : List (Nat × T)) :
    filterInPlaceInner keep done.length (done.length + ((mid ++ y :: cut).length + 1))
        (done ++ x :: (mid ++ y :: cut) ++ junk) calls
      = .returned { input := (done ++ [y]) ++ mid ++ (y :: cut ++ junk),
                    length := done.length + 1 + mid.length,
                    calls := calls ++ (List.enumFrom (done.length + 1 + mid.length + 1) cut).reverse
                      ++ [(done.length + 1 + mid.length, y)] } := by
  have hskip := filterInPlaceInner_skip keep done.length (done ++ x :: mid ++ [y]) cut hcut
    (by simp only [List.length_append, List.length_cons, List.length_nil]; omega) junk calls
  have e1 : (done ++ x :: mid ++ [y]).length + cut.length
      = done.length + ((mid ++ y :: cut).length + 1) := by
    simp only [List.length_append, List.length_cons, List.length_nil]
    omega
  have e2 : done ++ x :: mid ++ [y] ++ cut ++ junk = done ++ x :: (mid ++ y :: cut) ++ junk := by
    simp
  have e3 : (done ++ x :: mid ++ [y]).length = (done.length + 1 + mid.length) + 1 := by
    simp only [List.length_append, List.length_cons, List.length_nil]
    omega
  rw [e1, e2, e3] at hskip
  have hne : ¬ done.length + 1 + mid.length = done.length := by omega
  have hget : (done ++ x :: (mid ++ y :: cut) ++ junk)[done.length + 1 + mid.length]? = some y := by
    have : done ++ x :: (mid ++ y :: cut) ++ junk = (done ++ x :: mid) ++ y :: (cut ++ junk) := by
      simp
    have hle : (done ++ x :: mid).length ≤ done.length + 1 + mid.length := by
      simp only [List.length_append, List.length_cons]
      omega
    have hzero : done.length + 1 + mid.length - (done ++ x :: mid).length = 0 := by
      simp only [List.length_append, List.length_cons]
      omega
    rw [this, List.getElem?_append_right hle, hzero]
    simp
  have hlt : done.length < (done ++ x :: (mid ++ y :: cut) ++ junk).length := by
    simp only [List.length_append, List.length_cons]
    omega
  have hset : (done ++ x :: (mid ++ y :: cut) ++ junk).set done.length y
      = (done ++ [y]) ++ mid ++ (y :: cut ++ junk) := by
    simp [List.set_append]
  rw [hskip, filterInPlaceInner, if_neg hne, hget]
  simp only [hy, if_true, if_pos hlt, hset]

end InPlace

end Generic

namespace Generic

section InPlaceLoop

variable {T : Type}

/-- The outer loop, started with the front cursor behind `done` and the elements `w`
between the cursors, returns with `w` compacted in place and has called the filter once
on each element of `w`, at its position. -/
theorem filterInPlaceLoop_spec (keep : T → Bool) (fuel : Nat) (done w junk : List T)
    (calls : List (Nat × T)) (hfuel : w.length < fuel) :
    ∃ r junk2 t,
      filterInPlaceLoop keep fuel done.length
          { input := done ++ w ++ junk, length := done.length + w.length, calls := calls }
        = .returned { input := done ++ r ++ junk2, length := done.length + r.length,
                      calls := calls ++ t } ∧
      Compacts keep w r ∧ t.Perm (List.enumFrom done.length w) := by
  induction fuel generalizing done w junk calls with
  | zero => simp at hfuel
  | succ fuel ih =>
    cases w with
    | nil =>
      refine ⟨[], junk, [], ?_, Compacts.done, by simp⟩
      simp [filterInPlaceLoop]
    | cons x rest =>
      simp only [List.length_cons] at hfuel
      have hlt : done.length < done.length + (rest.length + 1) := by omega
      have hget : (done ++ x :: rest ++ junk)[done.length]? = some x := by
        have : done ++ x :: rest ++ junk = done ++ x :: (rest ++ junk) := by simp
        rw [this, List.getElem?_append_right (Nat.le_refl _)]
        simp
      by_cases hx : keep x = true
      · rcases ih (done ++ [x]) rest junk (calls ++ [(done.length, x)]) (by omega)
          with ⟨r, junk2, t, hloop, hcomp, hperm⟩
        have e1 : (done ++ [x]).length = done.length + 1 := by simp
        have e2 : done ++ [x] ++ rest ++ junk = done ++ x :: rest ++ junk := by simp
        have e3 : done.length + 1 + rest.length = done.length + (rest.length + 1) := by omega
        rw [e1, e2, e3] at hloop
        rw [e1] at hperm
        refine ⟨x :: r, junk2, (done.length, x) :: t, ?_, Compacts.stay x rest r hx hcomp, ?_⟩
        · simp only [filterInPlaceLoop, List.length_cons, if_pos hlt, hget, hx, if_true, hloop]
          simp
          omega
        · rw [List.enumFrom_cons]
          exact List.Perm.cons _ hperm
      · have hxf : keep x = false := by simpa using hx
        rcases split_last_kept keep rest with hall | ⟨mid, y, cut, hsplit, hy, hcut⟩
        · have hinner := filterInPlaceInner_none keep done x rest junk hall
            (calls ++ [(done.length, x)])
          refine ⟨[], x :: rest ++ junk, (done.length, x)
            :: (List.enumFrom (done.length + 1) rest).reverse, ?_, Compacts.drop x rest hxf hall, ?_⟩
          · cases fuel with
            | zero => omega
            | succ fuel =>
              simp only [filterInPlaceLoop, List.length_cons, if_pos hlt, hget, hxf, hinner]
              simp
          · rw [List.enumFrom_cons]
            exact List.Perm.cons _ (List.reverse_perm _)
        · subst hsplit
          have hinner := filterInPlaceInner_some keep done x y mid cut junk hy hcut
            (calls ++ [(done.length, x)])
          rcases ih (done ++ [y]) mid (y :: cut ++ junk)
            (calls ++ [(done.length, x)]
              ++ (List.enumFrom (done.length + 1 + mid.length + 1) cut).reverse
              ++ [(done.length + 1 + mid.length, y)])
            (by simp only [List.length_append, List.length_cons] at hfuel; omega)
            with ⟨r, junk2, t, hloop, hcomp, hperm⟩
          have e1 : (done ++ [y]).length = done.length + 1 := by simp
          rw [e1] at hloop hperm
          refine ⟨y :: r, junk2, [(done.length, x)]
              ++ (List.enumFrom (done.length + 1 + mid.length + 1) cut).reverse
              ++ [(done.length + 1 + mid.length, y)] ++ t, ?_,
            Compacts.pull x y mid cut r hxf hy hcut hcomp, ?_⟩
          · simp only [filterInPlaceLoop, List.length_cons, if_pos hlt, hget, hxf, hinner, hloop]
            simp
            omega
          · rw [List.enumFrom_cons, List.enumFrom_append, List.enumFrom_cons]
            simp only [List.cons_append, List.nil_append, List.append_assoc]
            refine List.Perm.cons _ ?_
            have h1 : ((List.enumFrom (done.length + 1 + mid.length + 1) cut).reverse
                ++ (done.length + 1 + mid.length, y) :: t).Perm
                ((done.length + 1 + mid.length, y)
                  :: (List.enumFrom (done.length + 1 + mid.length + 1) cut ++ t)) :=
              List.perm_middle.trans
                (List.Perm.cons _ (List.Perm.append (List.reverse_perm _) (List.Perm.refl _)))
            refine h1.trans ?_
            have h2 : (List.enumFrom (done.length + 1) mid
                ++ (done.length + 1 + mid.length, y)
                  :: List.enumFrom (done.length + 1 + mid.length + 1) cut).Perm
                ((done.length + 1 + mid.length, y)
                  :: (List.enumFrom (done.length + 1) mid
                    ++ List.enumFrom (done.length + 1 + mid.length + 1) cut)) :=
              List.perm_middle
            refine List.Perm.trans ?_ h2.symm
            refine List.Perm.cons _ ?_
            exact List.perm_append_comm.trans (List.Perm.append hperm (List.Perm.refl _))

/-- With fuel exceeding its length, `FilterSliceInPlace` returns the compacted input and
has called the filter once on each original element, at its original index. -/
theorem filterSliceInPlace_spec (keep : T → Bool) (fuel : Nat) (input : List T)
    (hfuel : input.length < fuel) :
    ∃ res, FilterSliceInPlace fuel input keep = .returned res ∧
      Compacts keep input res.slice ∧ res.calls.Perm input.enum ∧
      res.array.take res.slice.length = res.slice := by
  rcases filterInPlaceLoop_spec keep fuel [] input [] [] hfuel with ⟨r, junk2, t, hloop, hcomp, hperm⟩
  simp only [List.nil_append, List.append_nil, List.length_nil, Nat.zero_add] at hloop hperm
  refine ⟨{ slice := r, array := r ++ junk2, calls := t }, ?_, hcomp, hperm, by simp⟩
  simp [FilterSliceInPlace, hloop]

/-- A compacted list holds exactly the kept elements, up to order. -/
theorem Compacts.perm_filter {keep : T → Bool} {w r : List T} (h : Compacts keep w r) :
    r.Perm (w.filter keep) := by
  induction h with
  | done => simp
  | stay x rest r hx _ ih =>
    rw [List.filter_cons_of_pos hx]
    exact List.Perm.cons _ ih
  | pull x y mid cut r hx hy hcut _ ih =>
    have hcutnil : cut.filter keep = [] := by
      rw [List.filter_eq_nil_iff]
      intro z hz
      simp [hcut z hz]
    rw [List.filter_cons_of_neg (by simp [hx]), List.filter_append,
      List.filter_cons_of_pos hy, hcutnil]
    exact (List.Perm.cons _ ih).trans (@List.perm_append_comm _ [y] _)
  | drop x rest hx hrest =>
    have : (x :: rest).filter keep = [] := by
      rw [List.filter_eq_nil_iff]
      intro z hz
      rcases List.mem_cons.mp hz with rfl | hz
      · simp [hx]
      · simp [hrest z hz]
    rw [this]

theorem zip_append_right_of_le {α β : Type} (r : List α) (mid rest : List β)
    (h : r.length ≤ mid.length) : r.zip (mid ++ rest) = r.zip mid := by
  induction r generalizing mid with
  | nil => simp
  | cons a r ih =>
    cases mid with
    | nil => simp at h
    | cons b mid =>
      simp only [List.cons_append, List.zip_cons_cons, List.cons.injEq, true_and]
      exact ih mid (by simpa using h)

/-- The layout of a compacted list: a kept element stays at its position, and the
positions of rejected elements hold, front to back, the kept elements of the part cut
off, back to front. -/
theorem Compacts.layout {keep : T → Bool} {w r : List T} (h : Compacts keep w r) :
    r.length ≤ w.length ∧ (∀ p ∈ r.zip w, keep p.2 = true → p.1 = p.2) ∧
      ((r.zip w).filter (fun p => !keep p.2)).map Prod.fst
        = ((w.drop r.length).reverse).filter keep := by
  induction h with
  | done => simp
  | stay x rest r hx _ ih =>
    rcases ih with ⟨hlen, hkeep, hrej⟩
    refine ⟨by simpa using hlen, ?_, ?_⟩
    · intro p hp hk
      simp only [List.zip_cons_cons, List.mem_cons] at hp
      rcases hp with rfl | hp
      · rfl
      · exact hkeep p hp hk
    · simp only [List.zip_cons_cons, List.length_cons, List.drop_succ_cons]
      rw [List.filter_cons_of_neg (by simp [hx])]
      exact hrej
  | pull x y mid cut r hx hy hcut _ ih =>
    rcases ih with ⟨hlen, hkeep, hrej⟩
    have hzip : r.zip (mid ++ y :: cut) = r.zip mid := zip_append_right_of_le r mid _ hlen
    have hcutnil : cut.reverse.filter keep = [] := by
      rw [List.filter_eq_nil_iff]
      intro z hz
      simp [hcut z (List.mem_reverse.mp hz)]
    refine ⟨?_, ?_, ?_⟩
    · simp only [List.length_cons, List.length_append]
      omega
    · intro p hp hk
      simp only [List.zip_cons_cons, hzip, List.mem_cons] at hp
      rcases hp with rfl | hp
      · simp [hx] at hk
      · exact hkeep p hp hk
    · simp only [List.zip_cons_cons, hzip, List.length_cons, List.drop_succ_cons]
      rw [List.filter_cons_of_pos (by simp [hx]), List.map_cons, hrej,
        List.drop_append_of_le_length hlen, List.reverse_append, List.reverse_cons,
        List.filter_append, List.filter_append, hcutnil]
      simp [hy]
  | drop x rest hx hrest =>
    refine ⟨by simp, by simp, ?_⟩
    have : ((x :: rest).reverse).filter keep = [] := by
      rw [List.filter_eq_nil_iff]
      intro z hz
      rcases List.mem_cons.mp (List.mem_reverse.mp hz) with rfl | hz
      · simp [hx]
      · simp [hrest z hz]
    simp only [List.zip_nil_left, List.filter_nil, List.map_nil, List.length_nil, List.drop_zero,
      this]

end InPlaceLoop

end Generic

namespace Generic

/-! ## The claims on the slice filters -/

section ClaimsFilter

/-- C15: with fuel exceeding the length of the input, `FilterSliceInPlace` returns, and
the slice it leaves is a permutation of the elements of the original input that satisfy
`keep`, that is of the result of the order-preserving `FilterSlice` with the same
predicate; its length is the number of elements satisfying `keep`.  For
[1, 2, 3, 4, 5, 6, 7, 8, 9, 10] and v >= 5 the length is 6 and the slice is a permutation
of [5, 6, 7, 8, 9, 10]. -/
theorem FilterSliceInPlace_keeps_exactly_the_kept {T : Type} (input : List T)
    (keep : T → Bool) (fuel : Nat) (hfuel : input.length < fuel) :
    (∃ res, FilterSliceInPlace fuel input keep = .returned res ∧
        res.slice.Perm (FilterSlice input (fun _ v => keep v)).output ∧
        res.slice.Perm (input.filter keep) ∧
        res.slice.length = input.countP keep) ∧
      (∃ res, FilterSliceInPlace 11 [1, 2, 3, 4, 5, 6, 7, 8, 9, 10] (fun v => decide (v ≥ 5))
          = .returned res ∧
        res.slice.length = 6 ∧ res.slice.Perm [5, 6, 7, 8, 9, 10]) := by
  constructor
  · rcases filterSliceInPlace_spec keep fuel input hfuel with ⟨res, hres, hcomp, _, _⟩
    have hperm := hcomp.perm_filter
    refine ⟨res, hres, ?_, hperm, ?_⟩
    · rw [filterSlice_ignoring_index]
      exact hperm
    · rw [hperm.length_eq, List.countP_eq_length_filter]
  · refine ⟨{ slice := [10, 9, 8, 7, 5, 6], array := [10, 9, 8, 7, 5, 6, 7, 8, 9, 10],
              calls := [(0, 1), (9, 10), (1, 2), (8, 9), (2, 3), (7, 8), (3, 4), (6, 7),
                        (4, 5), (5, 6)] }, by decide, rfl, by decide⟩

/-- C15 at the input [7, 1, 8, 2] with v >= 5. -/
theorem FilterSliceInPlace_keeps_exactly_the_kept_witness :
    (∃ res, FilterSliceInPlace 5 [7, 1, 8, 2] (fun v => decide (v ≥ 5)) = .returned res ∧
        res.slice.Perm (FilterSlice [7, 1, 8, 2] (fun _ v => decide (v ≥ 5))).output ∧
        res.slice.Perm ([7, 1, 8, 2].filter (fun v => decide (v ≥ 5))) ∧
        res.slice.length = [7, 1, 8, 2].countP (fun v => decide (v ≥ 5))) ∧
      (∃ res, FilterSliceInPlace 11 [1, 2, 3, 4, 5, 6, 7, 8, 9, 10] (fun v => decide (v ≥ 5))
          = .returned res ∧
        res.slice.length = 6 ∧ res.slice.Perm [5, 6, 7, 8, 9, 10]) :=
  FilterSliceInPlace_keeps_exactly_the_kept [7, 1, 8, 2] (fun v => decide (v ≥ 5)) 5 (by decide)

/-- C16: `FilterSlice` returns exactly the elements `input[i]` for which
`filter(i, input[i])` is true, the filter being passed each element with its original
index, in their original relative order, and the input slice is as before the call.  For
[1, ..., 10] and v >= 5 the result is [5, 6, 7, 8, 9, 10] and the input stays
[1, ..., 10]. -/
theorem FilterSlice_returns_accepted_in_order {T : Type} (input : List T)
    (filter : Nat → T → Bool) :
    (FilterSlice input filter).output
        = ((input.enum).filter (fun p => filter p.1 p.2)).map Prod.snd ∧
      (FilterSlice input filter).output.Sublist input ∧
      (FilterSlice input filter).input = input ∧
      FilterSlice [1, 2, 3, 4, 5, 6, 7, 8, 9, 10] (fun _ v => decide (v ≥ 5))
        = { input := [1, 2, 3, 4, 5, 6, 7, 8, 9, 10], output := [5, 6, 7, 8, 9, 10] } := by
  have hout : (FilterSlice input filter).output
      = ((input.enum).filter (fun p => filter p.1 p.2)).map Prod.snd := by
    simp only [FilterSlice, filterSliceLoop_eq, List.nil_append, List.enum]
  refine ⟨hout, ?_, rfl, by decide⟩
  rw [hout]
  have hsub : ((input.enum).filter (fun p => filter p.1 p.2)).Sublist input.enum :=
    List.filter_sublist _
  have := hsub.map Prod.snd
  rwa [List.enum_map_snd] at this

/-- C17: with fuel exceeding the length L of the input, `FilterSliceInPlace` returns, and
the calls of `keep` it has made are, up to order, one call on each element of the
original input read at its original index: L calls, one per index, each on the original
element of that index (so never on an element that has been moved). -/
theorem FilterSliceInPlace_tests_each_element_once {T : Type} (input : List T)
    (keep : T → Bool) (fuel : Nat) (hfuel : input.length < fuel) :
    ∃ res, FilterSliceInPlace fuel input keep = .returned res ∧
      res.calls.Perm input.enum ∧
      res.calls.length = input.length ∧
      (res.calls.map Prod.fst).Perm (List.range input.length) := by
  rcases filterSliceInPlace_spec keep fuel input hfuel with ⟨res, hres, _, hperm, _⟩
  refine ⟨res, hres, hperm, ?_, ?_⟩
  · rw [hperm.length_eq]
    simp
  · have := hperm.map Prod.fst
    rwa [List.enum_map_fst] at this

/-- C17 at the input [7, 1, 8, 2] with v >= 5. -/
theorem FilterSliceInPlace_tests_each_element_once_witness :
    ∃ res, FilterSliceInPlace 5 [7, 1, 8, 2] (fun v => decide (v ≥ 5)) = .returned res ∧
      res.calls.Perm [7, 1, 8, 2].enum ∧
      res.calls.length = [7, 1, 8, 2].length ∧
      (res.calls.map Prod.fst).Perm (List.range [7, 1, 8, 2].length) :=
  FilterSliceInPlace_tests_each_element_once [7, 1, 8, 2] (fun v => decide (v ≥ 5)) 5
    (by decide)

/-- C18: with fuel exceeding the length of the input, `FilterSliceInPlace` returns a
slice of some length n, at most the length of the input, in which every position j < n
whose original element satisfies `keep` still holds that element, and the other positions
j < n hold, in increasing position order, the elements of the original input at indices
n and above that satisfy `keep`, in decreasing index order.  (Position j of the slice is
paired with the original element of index j by `zip`.)  The input
[1, 2, 3, 4, 5, 6, 7, 8, 9, 10] with v >= 5 becomes [10, 9, 8, 7, 5, 6]. -/
theorem FilterSliceInPlace_layout {T : Type} (input : List T) (keep : T → Bool) (fuel : Nat)
    (hfuel : input.length < fuel) :
    (∃ res, FilterSliceInPlace fuel input keep = .returned res ∧
        res.slice.length ≤ input.length ∧
        (∀ p ∈ res.slice.zip input, keep p.2 = true → p.1 = p.2) ∧
        ((res.slice.zip input).filter (fun p => !keep p.2)).map Prod.fst
          = ((input.drop res.slice.length).reverse).filter keep) ∧
      (∃ res, FilterSliceInPlace 11 [1, 2, 3, 4, 5, 6, 7, 8, 9, 10] (fun v => decide (v ≥ 5))
          = .returned res ∧ res.slice = [10, 9, 8, 7, 5, 6]) := by
  constructor
  · rcases filterSliceInPlace_spec keep fuel input hfuel with ⟨res, hres, hcomp, _, _⟩
    rcases hcomp.layout with ⟨hlen, hkeep, hrej⟩
    exact ⟨res, hres, hlen, hkeep, hrej⟩
  · exact ⟨{ slice := [10, 9, 8, 7, 5, 6], array := [10, 9, 8, 7, 5, 6, 7, 8, 9, 10],
             calls := [(0, 1), (9, 10), (1, 2), (8, 9), (2, 3), (7, 8), (3, 4), (6, 7),
                       (4, 5), (5, 6)] }, by decide, rfl⟩

/-- C18 at the input [7, 1, 8, 2] with v >= 5. -/
theorem FilterSliceInPlace_layout_witness :
    (∃ res, FilterSliceInPlace 5 [7, 1, 8, 2] (fun v => decide (v ≥ 5)) = .returned res ∧
        res.slice.length ≤ [7, 1, 8, 2].length ∧
        (∀ p ∈ res.slice.zip [7, 1, 8, 2], (fun v => decide (v ≥ 5)) p.2 = true → p.1 = p.2) ∧
        ((res.slice.zip [7, 1, 8, 2]).filter (fun p => !(fun v => decide (v ≥ 5)) p.2)).map
            Prod.fst
          = (([7, 1, 8, 2].drop res.slice.length).reverse).filter (fun v => decide (v ≥ 5))) ∧
      (∃ res, FilterSliceInPlace 11 [1, 2, 3, 4, 5, 6, 7, 8, 9, 10] (fun v => decide (v ≥ 5))
          = .returned res ∧ res.slice = [10, 9, 8, 7, 5, 6]) :=
  FilterSliceInPlace_layout [7, 1, 8, 2] (fun v => decide (v ≥ 5)) 5 (by decide)

end ClaimsFilter

end Generic
